import Mathlib

/-!
Verification of the network-design optimization core of a multi-period,
multi-modal infrastructure planning pipeline.

The development shallowly embeds the pipeline's components:

* expanded-graph builder (`build_expanded_graph`, `create_arc_structure`, ...);
* distance oracle (`build_reverse_graph`, `dijkstra_multi_target`,
  `calculate_L_min`);
* bounded near-optimal path enumerator (`near_optimal_dfs` and its
  deduplication/sorting post-processing);
* capacity-expansion model builder (decision variables, constraint families,
  objective).

Machine floats are modelled by `ℚ`; Python's `float('inf')` is modelled by
`Option ℚ` (`none` = infinity) where it occurs (`L_min` values, Dijkstra
distance maps).  Python dictionaries are modelled by association lists with
the same insertion-order semantics.  While-loops are modelled by
fuel-indexed recursion; the fuel passed by the wrappers is proved sufficient
(the loops are shown to terminate within it), so the wrappers compute the
same results as the unbounded loops.
-/

namespace NetOpt

/-- Nodes of the expanded graph: a physical node `i` (a Python `int`) or a
mode-state `(i, m)` ("arrived at `i` aboard mode `m`", a Python 2-tuple,
also written as the string label `i^m`). -/
inductive ENode
| phys : Int → ENode
| virt : Int → Int → ENode
deriving DecidableEq, Repr

/-- Edge-type tags `'road'`, `'water'`, `'virtual_arc'`. -/
inductive EType
| road
| water
| virtualArc
deriving DecidableEq, Repr

/-- One adjacency entry `(neighbor, weight, edge_type)`. -/
structure AdjEntry where
  dst : ENode
  w : ℚ
  et : EType
deriving DecidableEq, Repr

/-- The expanded-graph adjacency dictionary `G_exp` (a `defaultdict(list)`
keyed by nodes, in insertion order). -/
abbrev Adj : Type := List (ENode × List AdjEntry)

/-- `G[n]` with the `defaultdict(list)` default. -/
def adjGet (G : Adj) (n : ENode) : List AdjEntry :=
  (List.lookup n G).getD []

/-- `G[n].append e` on a `defaultdict(list)`: append to the existing key's
list, or add the key at the end (Python dict insertion order). -/
def adjAdd : Adj → ENode → AdjEntry → Adj
| [], n, e => [(n, [e])]
| (k, es) :: rest, n, e =>
  if k = n then (k, es ++ [e]) :: rest else (k, es) :: adjAdd rest n e

/-- A raw arc record in tuple form `(u, v, mode, length, project)`, the
normal form produced by `to_edge_tuple_list`. -/
structure Edge where
  u : Int
  v : Int
  mode : Int
  length : ℚ
  project : String
deriving DecidableEq, Repr

/-- `make_bidirectional_edges`: add the reverse direction for every edge
(same mode/length/project). -/
def make_bidirectional_edges (edges : List Edge) : List Edge :=
  edges ++ edges.map (fun e => ⟨e.v, e.u, e.mode, e.length, e.project⟩)

/-- Stable insertion used by `stableSort`. -/
def stableInsert (le : α → α → Bool) (a : α) : List α → List α
| [] => [a]
| b :: bs => if le a b then a :: b :: bs else b :: stableInsert le a bs

/-- A stable sort.  CPython's `sorted` is a stable sort, and any two stable
sorts with the same (total, transitive) comparator agree, so this models
`sorted` exactly. -/
def stableSort (le : α → α → Bool) : List α → List α
| [] => []
| a :: as => stableInsert le a (stableSort le as)

/-- State of the `build_expanded_graph` fold: the adjacency under
construction plus the accumulated real-node and virtual-node sets. -/
structure BuildState where
  G : Adj
  realNodes : List Int
  virtualNodes : List (Int × Int)
deriving DecidableEq, Repr

/-- Insert into a Python-set-like accumulator (ignore duplicates). -/
def setInsert [DecidableEq α] (s : List α) (a : α) : List α :=
  if a ∈ s then s else s ++ [a]

/-- One iteration of the `build_expanded_graph` loop body on edge
`(u, v, mode, length, _project)`. -/
def buildStep (st : BuildState) (e : Edge) : BuildState :=
  let st1 : BuildState :=
    ⟨st.G, setInsert (setInsert st.realNodes e.u) e.v, st.virtualNodes⟩
  if e.mode = 1 then
    let G1 := adjAdd st1.G (ENode.phys e.u) ⟨ENode.virt e.v 1, e.length, EType.road⟩
    let G2 :=
      if (⟨ENode.phys e.v, 0, EType.virtualArc⟩ : AdjEntry) ∈ adjGet G1 (ENode.virt e.v 1) then G1
      else adjAdd G1 (ENode.virt e.v 1) ⟨ENode.phys e.v, 0, EType.virtualArc⟩
    ⟨G2, st1.realNodes, setInsert st1.virtualNodes (e.v, 1)⟩
  else if e.mode = 2 then
    let G1 := adjAdd st1.G (ENode.phys e.u) ⟨ENode.virt e.v 2, e.length, EType.water⟩
    let G2 :=
      if (⟨ENode.phys e.v, 0, EType.virtualArc⟩ : AdjEntry) ∈ adjGet G1 (ENode.virt e.v 2) then G1
      else adjAdd G1 (ENode.virt e.v 2) ⟨ENode.phys e.v, 0, EType.virtualArc⟩
    ⟨G2, st1.realNodes, setInsert st1.virtualNodes (e.v, 2)⟩
  else
    st1

/-- Ascending order on `Int` as a Bool comparator. -/
def intLe (a b : Int) : Bool := decide (a ≤ b)

/-- Lexicographic ascending order on `Int × Int` as a Bool comparator. -/
def pairLe (a b : Int × Int) : Bool :=
  decide (a.1 < b.1 ∨ (a.1 = b.1 ∧ a.2 ≤ b.2))

/-- `build_expanded_graph`: fold the loop body over the bidirectional edge
list, then return the adjacency together with `sorted(real_nodes)` and
`sorted(virtual_nodes)`. -/
def build_expanded_graph (edges_bidir : List Edge) : BuildState :=
  let st := edges_bidir.foldl buildStep ⟨[], [], []⟩
  ⟨st.G, stableSort intLe st.realNodes, stableSort pairLe st.virtualNodes⟩

/-!  Near-optimal path enumerator (CELL 5). -/

/-- A stack item `(node, cost, path)` of `near_optimal_dfs`. -/
structure DfsItem where
  node : ENode
  cost : ℚ
  path : List ENode
deriving DecidableEq, Repr

/-- The items pushed when expanding a non-target item: one per adjacency
entry, skipping neighbors already on the path (`avoid cycle`) and neighbors
whose accumulated cost exceeds the cutoff. -/
def dfsPushes (G : Adj) (cutoff : ℚ) (it : DfsItem) : List DfsItem :=
  (adjGet G it.node).filterMap fun e =>
    if e.dst ∈ it.path then none
    else if cutoff < it.cost + e.w then none
    else some ⟨e.dst, it.cost + e.w, it.path ++ [e.dst]⟩

/-- The `near_optimal_dfs` while-loop.  The Lean list models the Python
stack with its head at the Python list's end, so `pop()` is head removal
and the batch of `append`s is `(pushes).reverse ++ rest`. -/
def dfsAux (G : Adj) (targets : List ENode) (cutoff : ℚ) (maxPaths : Nat) :
    Nat → List DfsItem → List (List ENode × ℚ) → List (List ENode × ℚ)
| 0, _, res => res
| _ + 1, [], res => res
| fuel + 1, it :: rest, res =>
  if maxPaths ≤ res.length then res
  else if cutoff < it.cost then dfsAux G targets cutoff maxPaths fuel rest res
  else if it.node ∈ targets then
    dfsAux G targets cutoff maxPaths fuel rest (res ++ [(it.path, it.cost)])
  else
    dfsAux G targets cutoff maxPaths fuel
      ((dfsPushes G cutoff it).reverse ++ rest) res

/-- All nodes that can ever appear on a DFS path: the start node plus every
adjacency-entry destination. -/
def dfsUniverse (G : Adj) (start : ENode) : List ENode :=
  (start :: (G.flatMap fun kv => kv.2.map AdjEntry.dst)).dedup

/-- A bound on the number of pushes of a single expansion. -/
def maxDeg (G : Adj) : Nat :=
  (G.map fun kv => kv.2.length).foldr max 0

/-- Fuel sufficient for the DFS loop to run until its stack empties or its
path cap is reached (proved below: the loop measure of the initial stack). -/
def dfsFuel (G : Adj) (start : ENode) : Nat :=
  (maxDeg G + 1) ^ (dfsUniverse G start).length

/-- `near_optimal_dfs G start target_nodes L_min epsilon max_paths`.
Runs the bounded DFS from `(start, 0.0, [start])` with cutoff
`L_min * (1 + epsilon)` and returns `results[:max_paths]`. -/
def near_optimal_dfs (G : Adj) (start : ENode) (targets : List ENode)
    (Lmin eps : ℚ) (maxPaths : Nat) : List (List ENode × ℚ) :=
  (dfsAux G targets (Lmin * (1 + eps)) maxPaths (dfsFuel G start)
    [⟨start, 0, [start]⟩] []).take maxPaths

/-- Comparator used by `sorted(paths, key=lambda x: x[1])`. -/
def costLe (a b : List ENode × ℚ) : Bool := decide (a.2 ≤ b.2)

/-- The dedup-and-cap loop of `calculate_near_optimal_paths`: walk the
sorted list, drop paths already seen, stop once `max_paths` are kept. -/
def dedupLoop (maxPaths : Nat) :
    List (List ENode × ℚ) → List (List ENode) → List (List ENode × ℚ) →
    List (List ENode × ℚ)
| [], _, acc => acc
| (p, c) :: rest, seen, acc =>
  if p ∈ seen then dedupLoop maxPaths rest seen acc
  else
    if maxPaths ≤ (acc ++ [(p, c)]).length then acc ++ [(p, c)]
    else dedupLoop maxPaths rest (p :: seen) (acc ++ [(p, c)])

/-- The per-OD-pair enumerator of `calculate_near_optimal_paths`: run
`near_optimal_dfs` with target set `{d}`, then sort by cost and
deduplicate with the path cap. -/
def enumerate_od (G : Adj) (o d : ENode) (Lmin eps : ℚ) (maxPaths : Nat) :
    List (List ENode × ℚ) :=
  dedupLoop maxPaths
    (stableSort costLe (near_optimal_dfs G o [d] Lmin eps maxPaths)) [] []

/-- Well-formedness of a DFS stack item reachable from
`(start, 0, [start])`: the path is nonempty, simple, starts at `start`,
ends at the item's node, and stays inside the node universe. -/
def WFItem (G : Adj) (start : ENode) (it : DfsItem) : Prop :=
  it.path ≠ [] ∧ it.path.Nodup ∧ it.path.head? = some start ∧
    it.path.getLast? = some it.node ∧ ∀ x ∈ it.path, x ∈ dfsUniverse G start

/-- The loop measure of one stack item: longer simple paths can spawn
strictly fewer descendants. -/
def itemWeight (G : Adj) (start : ENode) (it : DfsItem) : Nat :=
  (maxDeg G + 1) ^ ((dfsUniverse G start).length + 1 - it.path.length)

/-- The loop measure of a DFS stack: it strictly decreases at every
iteration, so it bounds the remaining number of iterations. -/
def dfsMeasure (G : Adj) (start : ENode) (stack : List DfsItem) : Nat :=
  (stack.map (itemWeight G start)).sum

/-- `Extends G targets cutoff it pr` holds when the completed search rooted
at stack item `it` can emit the result pair `pr`: some chain of adjacency
entries extends `it`'s path to a target, avoiding nodes already on the
path, with every accumulated cost at most the cutoff. -/
inductive Extends (G : Adj) (targets : List ENode) (cutoff : ℚ) :
    DfsItem → (List ENode × ℚ) → Prop
| done (it : DfsItem) (h1 : it.cost ≤ cutoff) (h2 : it.node ∈ targets) :
    Extends G targets cutoff it (it.path, it.cost)
| step (it : DfsItem) (pr : List ENode × ℚ) (h1 : it.cost ≤ cutoff)
    (h2 : it.node ∉ targets) (e : AdjEntry) (he : e ∈ adjGet G it.node)
    (hd : e.dst ∉ it.path) (hw : it.cost + e.w ≤ cutoff)
    (tail : Extends G targets cutoff ⟨e.dst, it.cost + e.w, it.path ++ [e.dst]⟩ pr) :
    Extends G targets cutoff it pr

/-- `token_to_node`: a mode-state tuple becomes its `i^m` label, an `int`
stays an `int`.  The embedding identifies a tuple with its label, so this
is the identity on each constructor. -/
def token_to_node : ENode → ENode
| ENode.virt i m => ENode.virt i m
| ENode.phys i => ENode.phys i

/-- `seq_to_arcs`: the list of consecutive node pairs of a path. -/
def seq_to_arcs : List ENode → List (ENode × ENode)
| [] => []
| [_] => []
| a :: b :: rest => (token_to_node a, token_to_node b) :: seq_to_arcs (b :: rest)

/-- Outcome of the start/end sanity check in `build_paths_from_near_optimal`
on one converted path: evaluating `p[0][0]` / `p[-1][1]` on an empty arc
list raises `IndexError`; a start/end mismatch raises the `[BUG]`
`ValueError`; otherwise the path passes. -/
inductive CheckOutcome
| ok
| indexErr
| valueErr
deriving DecidableEq, Repr

/-- The start/end sanity check of `build_paths_from_near_optimal` for the
OD pair `(o, d)` applied to one arc list. -/
def build_path_check (o d : Int) (p : List (ENode × ENode)) : CheckOutcome :=
  match p with
  | [] => CheckOutcome.indexErr
  | a :: rest =>
    if a.1 ≠ ENode.phys o ∨ ((a :: rest).getLast (by simp)).2 ≠ ENode.phys d then
      CheckOutcome.valueErr
    else CheckOutcome.ok

/-- Raw arcs of the tolerance-monotonicity counterexample: two parallel
road links `0–2` of lengths `10` and `1`, plus road links `0–1` and `1–2`
of length `1`. -/
def cex_edges : List Edge :=
  [⟨0, 1, 1, 1, "E"⟩, ⟨0, 2, 1, 10, "E"⟩, ⟨0, 2, 1, 1, "E"⟩, ⟨1, 2, 1, 1, "E"⟩]

/-- The expanded graph of the tolerance-monotonicity counterexample. -/
def cex_graph : Adj :=
  (build_expanded_graph (make_bidirectional_edges cex_edges)).G


/-!  Arc structure of the model builder (`create_arc_structure` and the
cost/capacity assignment). -/

/-- An arc of the expanded structure, as a pair of node labels (a physical
`int` or a virtual `i^m` string label). -/
abbrev Arc : Type := ENode × ENode

/-- Accumulator of `create_arc_structure`. -/
structure ArcStructure where
  real_arcs : List Arc
  virtual_arcs : List Arc
  through_hub_arc : List Arc
deriving DecidableEq, Repr

/-- Loop body of `create_arc_structure` for one raw arc record. -/
def arcStep (H : List Int) (st : ArcStructure) (e : Edge) : ArcStructure :=
  let v_virtual := ENode.virt e.v e.mode
  let u_virtual := ENode.virt e.u e.mode
  let real2 := st.real_arcs ++ [(ENode.phys e.u, v_virtual), (ENode.phys e.v, u_virtual)]
  let virt1 := st.virtual_arcs ++ [(v_virtual, ENode.phys e.v)]
  let virt2 :=
    if (u_virtual, ENode.phys e.u) ∈ virt1 then virt1
    else virt1 ++ [(u_virtual, ENode.phys e.u)]
  let through2 :=
    if e.u ∈ H then st.through_hub_arc ++ [(u_virtual, v_virtual)]
    else st.through_hub_arc
  ⟨real2, virt2, through2⟩

/-- `create_arc_structure edges_raw all_hubs_from_data`: build the real,
virtual and through-hub arc lists from the raw records.  No mode check is
performed here. -/
def create_arc_structure (edges_raw : List Edge) (H : List Int) : ArcStructure :=
  edges_raw.foldl (arcStep H) ⟨[], [], []⟩


/-!  Distance oracle (CELL 4). -/

/-- One inner-loop iteration of `build_reverse_graph` on an adjacency item
of node `u`: a real arc (tuple destination) is reversed with its weight
and type; a virtual-arc item is reversed with weight `0.0`; any other item
shape is skipped. -/
def revStep (u : ENode) (G_rev : Adj) (item : AdjEntry) : Adj :=
  match item.dst with
  | ENode.virt i m => adjAdd G_rev (ENode.virt i m) ⟨u, item.w, item.et⟩
  | ENode.phys v =>
    if item.et = EType.virtualArc then
      adjAdd G_rev (ENode.phys v) ⟨u, 0, EType.virtualArc⟩
    else G_rev

/-- `build_reverse_graph`: reverse adjacency of the expanded graph, so
that a multi-target Dijkstra on it computes distances *to* the targets in
the original graph. -/
def build_reverse_graph (G_exp : Adj) : Adj :=
  G_exp.foldl (fun G_rev kv => kv.2.foldl (revStep kv.1) G_rev) []

/-- The Dijkstra distance map (`defaultdict(lambda: float('inf'))`):
a missing key is `+inf`, modelled by `none`. -/
abbrev DistMap : Type := List (ENode × ℚ)

/-- `dist[n]` (`none` = infinity). -/
def distGet (dist : DistMap) (n : ENode) : Option ℚ :=
  List.lookup n dist

/-- `dist[n] = x`. -/
def distSet : DistMap → ENode → ℚ → DistMap
| [], n, x => [(n, x)]
| (k, v) :: rest, n, x =>
  if k = n then (k, x) :: rest else (k, v) :: distSet rest n x

/-- `nd < dist[neigh]` with the infinity default. -/
def ltDist (nd : ℚ) (o : Option ℚ) : Bool :=
  match o with
  | none => true
  | some x => decide (nd < x)

/-- `d > dist[node]` with the infinity default. -/
def gtDist (d : ℚ) (o : Option ℚ) : Bool :=
  match o with
  | none => false
  | some x => decide (x < d)

/-- Pop the minimum-priority entry of the queue (the first entry among
those of minimal distance).  The Python heap breaks ties among equal
distances by `str(type)` and `id`, which is not semantically meaningful;
any choice among the minima yields the same final distance map (that is
what the correctness theorem below establishes). -/
def popMin : List (ℚ × ENode) → Option ((ℚ × ENode) × List (ℚ × ENode))
| [] => none
| e :: rest =>
  match popMin rest with
  | none => some (e, [])
  | some (m, rest2) => if e.1 ≤ m.1 then some (e, rest) else some (m, e :: rest2)

/-- One relaxation `nd = d + w; if nd < dist[neigh]: dist[neigh] = nd;
push (nd, neigh)`. -/
def relaxStep (d : ℚ) (st : DistMap × List (ℚ × ENode)) (entry : AdjEntry) :
    DistMap × List (ℚ × ENode) :=
  let nd := d + entry.w
  if ltDist nd (distGet st.1 entry.dst) then
    (distSet st.1 entry.dst nd, st.2 ++ [(nd, entry.dst)])
  else st

/-- The Dijkstra while-loop: pop the minimum, skip stale entries
(`d > dist[node]`), otherwise relax all outgoing entries. -/
def dijkstraAux (G_adj : Adj) : Nat → DistMap → List (ℚ × ENode) → DistMap
| 0, dist, _ => dist
| fuel + 1, dist, pq =>
  match popMin pq with
  | none => dist
  | some ((d, node), rest) =>
    if gtDist d (distGet dist node) then dijkstraAux G_adj fuel dist rest
    else
      let st2 := (adjGet G_adj node).foldl (relaxStep d) (dist, rest)
      dijkstraAux G_adj fuel st2.1 st2.2

/-- Fuel sufficient for the Dijkstra loop on nonnegative weights (proved
below via the loop measure `dijkMeasure`). -/
def dijkstraFuel (G_adj : Adj) (targets : List ENode) : Nat :=
  targets.length + (maxDeg G_adj + 1) * G_adj.length + 1

/-- `dijkstra_multi_target G_adj targets`: seed every target at distance
`0.0`, then run the loop until the queue empties. -/
def dijkstra_multi_target (G_adj : Adj) (targets : List ENode) : DistMap :=
  dijkstraAux G_adj (dijkstraFuel G_adj targets)
    (targets.foldl (fun dist t => distSet dist t 0) [])
    (targets.map (fun t => ((0:ℚ), t)))

/-- `origin_states o`: the origin can be the physical node or either
mode-state. -/
def origin_states (o : Int) : List ENode :=
  [ENode.phys o, ENode.virt o 1, ENode.virt o 2]

/-- `dest_targets d`: the destination can be reached as the physical node
or either mode-state. -/
def dest_targets (d : Int) : List ENode :=
  [ENode.phys d, ENode.virt d 1, ENode.virt d 2]

/-- `min` of optional distances (`none` = infinity). -/
def optMin : Option ℚ → Option ℚ → Option ℚ
| none, b => b
| some a, none => some a
| some a, some b => some (min a b)

/-- The `L_min` of one OD pair: run the multi-target Dijkstra on the
reverse graph seeded at the destination's targets, then take the minimum
over the origin's seed states. -/
def L_min_for (G_exp : Adj) (o d : Int) : Option ℚ :=
  let dist := dijkstra_multi_target (build_reverse_graph G_exp) (dest_targets d)
  (origin_states o).foldl (fun acc s => optMin acc (distGet dist s)) none

/-- `calculate_L_min`: the `Lmin_dict` over all `(commodity, o, d)`. -/
def calculate_L_min (G_exp : Adj)
    (OD_pairs : List (String × List (Int × Int))) :
    List ((String × Int × Int) × Option ℚ) :=
  OD_pairs.flatMap fun cp =>
    cp.2.map fun od => ((cp.1, od.1, od.2), L_min_for G_exp od.1 od.2)

/-- `Reaches G a b w`: the expanded graph `G` contains a path from `a` to
`b` of total cost `w` (each step following one adjacency entry). -/
inductive Reaches (G : Adj) : ENode → ENode → ℚ → Prop
| refl (n : ENode) : Reaches G n n 0
| step (a c : ENode) (w : ℚ) (e : AdjEntry) (he : e ∈ adjGet G a)
    (tail : Reaches G e.dst c w) : Reaches G a c (e.w + w)

/-- Nonnegative weights. -/
def NonnegWeights (G : Adj) : Prop :=
  ∀ kv ∈ G, ∀ e ∈ kv.2, 0 ≤ e.w

/-- Is the node a mode-state? -/
def isVirt : ENode → Bool
| ENode.virt _ _ => true
| ENode.phys _ => false

/-- Well-formedness of an expanded adjacency: every item either points to
a mode-state, or is a virtual-arc item of weight `0` pointing to a
physical node (the shapes `build_expanded_graph` produces), and keys are
not duplicated. -/
def WFExpanded (G_exp : Adj) : Prop :=
  ((G_exp.map Prod.fst).Nodup) ∧
    ∀ kv ∈ G_exp, ∀ item ∈ kv.2,
      isVirt item.dst = true ∨
      (isVirt item.dst = false ∧ item.et = EType.virtualArc ∧ item.w = 0)

/-- `SettledAt G dist n v`: every outgoing entry of `n` is relaxed with
respect to the value `v` of `n`. -/
def SettledAt (G : Adj) (dist : DistMap) (n : ENode) (v : ℚ) : Prop :=
  ∀ e ∈ adjGet G n, ∃ v2, distGet dist e.dst = some v2 ∧ v2 ≤ v + e.w

/-- The Dijkstra loop invariant. -/
structure DijkInv (G : Adj) (targets : List ENode) (dist : DistMap)
    (pq : List (ℚ × ENode)) : Prop where
  sound : ∀ n v, distGet dist n = some v → ∃ t ∈ targets, Reaches G t n v
  seeds : ∀ t ∈ targets, ∃ v, distGet dist t = some v ∧ v ≤ 0
  current_or_settled : ∀ n v, distGet dist n = some v →
    (v, n) ∈ pq ∨ (SettledAt G dist n v ∧ ∀ pr ∈ pq, v ≤ pr.1)
  stale_ge : ∀ pr ∈ pq, ∃ v, distGet dist pr.2 = some v ∧ v ≤ pr.1
  distinct : ∀ n : ENode,
    ((pq.filter (fun pr => pr.2 = n)).map Prod.fst).Nodup

/-- A node is `done` when it has a distance but no queue entry carrying
exactly that distance: its distance is final (on nonnegative weights). -/
def doneB (dist : DistMap) (pq : List (ℚ × ENode)) (n : ENode) : Bool :=
  (distGet dist n).isSome &&
    !(pq.any fun pr => decide (pr.2 = n) && decide (distGet dist n = some pr.1))

/-- The Dijkstra loop measure: queue length plus a budget of
`maxDeg + 1` for every key of the adjacency not yet done. -/
def dijkMeasure (G : Adj) (dist : DistMap) (pq : List (ℚ × ENode)) : Nat :=
  pq.length +
    (maxDeg G + 1) * (G.filter (fun kv => !(doneB dist pq kv.1))).length

/-- What one full relaxation pass (the `for neigh, w, _etype` loop)
guarantees, relating the state before (`dist`, `pqr`) and after (`st2`). -/
structure RelaxOut (d : ℚ) (entries : List AdjEntry) (dist : DistMap)
    (pqr : List (ℚ × ENode)) (st2 : DistMap × List (ℚ × ENode)) : Prop where
  mono : ∀ n v, distGet dist n = some v →
    ∃ v2, distGet st2.1 n = some v2 ∧ v2 ≤ v
  prov : ∀ n v2, distGet st2.1 n = some v2 →
    distGet dist n = some v2 ∨
      ((v2, n) ∈ st2.2 ∧ ∃ e ∈ entries, e.dst = n ∧ v2 = d + e.w)
  pqprov : ∀ pr ∈ st2.2, pr ∈ pqr ∨ ∃ e ∈ entries, pr = (d + e.w, e.dst)
  stale2 : ∀ pr ∈ st2.2, ∃ v, distGet st2.1 pr.2 = some v ∧ v ≤ pr.1
  processed : ∀ e ∈ entries, ∃ v2, distGet st2.1 e.dst = some v2 ∧ v2 ≤ d + e.w
  distinct2 : ∀ n, ((st2.2.filter (fun pr => pr.2 = n)).map Prod.fst).Nodup
  len2 : st2.2.length ≤ pqr.length + entries.length
  sub : ∀ pr ∈ pqr, pr ∈ st2.2
  lowstay : ∀ n v, distGet dist n = some v →
    (∀ e ∈ entries, e.dst = n → v ≤ d + e.w) →
    distGet st2.1 n = some v ∧ ∀ pr ∈ st2.2, pr.2 = n → pr ∈ pqr

/-- The key/entry pair that `revStep u` appends for one adjacency item
(`none` when the item shape is skipped). -/
def revPush (u : ENode) (item : AdjEntry) : Option (ENode × AdjEntry) :=
  match item.dst with
  | ENode.virt i m => some (ENode.virt i m, ⟨u, item.w, item.et⟩)
  | ENode.phys v =>
    if item.et = EType.virtualArc then
      some (ENode.phys v, ⟨u, 0, EType.virtualArc⟩)
    else none

/-- All reverse-arc insertions performed by `build_reverse_graph`. -/
def allPushes (G : Adj) : List (ENode × AdjEntry) :=
  G.flatMap fun kv => kv.2.filterMap (revPush kv.1)

/-- The entries a push list contributes to one key. -/
def contrib (b : ENode) (l : List (ENode × AdjEntry)) : List AdjEntry :=
  l.filterMap fun ke => if ke.1 = b then some ke.2 else none

/-- An optional value is exactly the least element of a set of path
weights (`none` = the set is empty). -/
def OptLeast (o : Option ℚ) (S : Set ℚ) : Prop :=
  (∀ v, o = some v ↔ IsLeast S v) ∧ (o = none ↔ S = ∅)

/-!  The Gurobi model cell (`model_gurobi.py`, CELLs 7–9): dictionaries,
cost/capacity assignment, decision variables, objective and constraint
families, embedded as explicit linear expressions over an inductive
variable type.  A dictionary is an association list: lookup takes the
first binding, assignment updates in place or appends (CPython dict
semantics).  A `dict[k]` access the script performs unconditionally is
modelled with a `getD` default; on every run that reaches the access with
the key missing the script dies with `KeyError` and builds no model, so
the default never changes the semantics of a built model. -/

def dget [DecidableEq κ] (d : List (κ × α)) (k : κ) : Option α :=
  List.lookup k d

def dset [DecidableEq κ] : List (κ × α) → κ → α → List (κ × α)
| [], k, v => [(k, v)]
| (k2, v2) :: rest, k, v =>
  if k2 = k then (k2, v) :: rest else (k2, v2) :: dset rest k v

def dsetd [DecidableEq κ] (d : List (κ × α)) (k : κ) (v : α) : List (κ × α) :=
  if (List.lookup k d).isSome then d else d ++ [(k, v)]

/-- `physical_node`: physical id of a real or virtual label
(`'4^1' -> 4`, `3 -> 3`). -/
def physical_node : ENode → Int
| ENode.virt i _ => i
| ENode.phys n => n

/-- Does the label contain the substring `'^1'` (road mode)?  For the
labels the builder produces (`i^m` with `m ∈ {1, 2}`) this is exactly
"mode 1". -/
def mode1 : ENode → Bool
| ENode.virt _ m => decide (m = 1)
| ENode.phys _ => false

def BASE_CONST : ℚ := 400

def HUB_HUB_DISCOUNT : ℚ := 3 / 4

/-- Blocks 1–3 of the transport-cost cell: base cost `400` for every real
arc, every through-hub arc, and the reverse `(j^m, j)` of every real
arc. -/
def base_costs_build (real_arcs through_hub_arc : List Arc) : List (Arc × ℚ) :=
  let b1 := real_arcs.foldl (fun d arc => dset d arc BASE_CONST) []
  let b2 := through_hub_arc.foldl (fun d arc => dset d arc BASE_CONST) b1
  real_arcs.foldl
    (fun d arc => dset d (arc.2, ENode.phys (physical_node arc.2)) BASE_CONST) b2

/-- Discount rule of blocks 4–5: `base * HUB_HUB_DISCOUNT` when both
physical endpoints are hubs, the plain base otherwise. -/
def arc_cost_of (H : List Int) (arc : Arc) (base : ℚ) : ℚ :=
  if physical_node arc.1 ∈ H ∧ physical_node arc.2 ∈ H then
    base * HUB_HUB_DISCOUNT
  else base

/-- Blocks 4–7 of the transport-cost cell: `c_a` for real arcs (with the
hub-hub discount), reverse arcs (same rule), through-hub arcs (base cost,
no discount), and `setdefault 0` for virtual arcs. -/
def c_a_build (real_arcs through_hub_arc virtual_arcs_all : List Arc)
    (H : List Int) : List (Arc × ℚ) :=
  let bc := base_costs_build real_arcs through_hub_arc
  let c4 := real_arcs.foldl (fun d arc =>
    match dget bc arc with
    | some base => dset d arc (arc_cost_of H arc base)
    | none => d) []
  let c5 := real_arcs.foldl (fun d arc =>
    let rev : Arc := (arc.2, ENode.phys (physical_node arc.2))
    match dget bc rev with
    | some base => dset d rev (arc_cost_of H rev base)
    | none => d) c4
  let c6 := through_hub_arc.foldl (fun d arc =>
    match dget bc arc with
    | some base => dset d arc base
    | none => d) c5
  virtual_arcs_all.foldl (fun d arc => dsetd d arc 0) c6

/-- `L_a`: level-0 capacity `10,000,000` for every potential arc, level-1
capacity by mode (`'^1'` in either label means road). -/
def L_a_build (A_tilde : List Arc) : List (Arc × (ℚ × ℚ)) :=
  A_tilde.foldl (fun d a =>
    dset d a (10000000, if mode1 a.1 || mode1 a.2 then 15398438 else 18472500)) []

/-- `build_through_hub_mapping_all H A_tilde`: for every potential real
arc `(u, j^m)` with `u` a hub, map the through arc `(u^m, j^m)` to it
(`m` is read off the last character of the head label, which is the mode
for the single-digit modes the builder produces). -/
def through_hub_mapping_build (H : List Int) (A_tilde : List Arc) :
    List (Arc × Arc) :=
  A_tilde.foldl (fun d a =>
    match a.1, a.2 with
    | ENode.phys u, ENode.virt j m =>
      if u ∈ H then
        dset d (ENode.virt u m, ENode.virt j m) (ENode.phys u, ENode.virt j m)
      else d
    | _, _ => d) []

/-- `get_arc_capacity arc level` (`M = existing_arc_capacity =
10,000,000`): virtual, then potential (`L_a`), then existing, then
through-hub via `through_hub_mapping`, then the default.  `none` models
the `KeyError` of `L_a[arc]` on a potential arc missing from `L_a`. -/
def get_arc_capacity (virtual_arcs_all A_tilde A0 through_hub_arc : List Arc)
    (L_a : List (Arc × (ℚ × ℚ))) (thm : List (Arc × Arc))
    (arc : Arc) (level : Nat) : Option ℚ :=
  if arc ∈ virtual_arcs_all then some 10000000
  else if arc ∈ A_tilde then
    match dget L_a arc with
    | some lv => some (if level = 0 then lv.1 else lv.2)
    | none => none
  else if arc ∈ A0 then some 10000000
  else if arc ∈ through_hub_arc then
    match dget thm arc with
    | some real_arc =>
      match dget L_a real_arc with
      | some lv => some (if level = 0 then lv.1 else lv.2)
      | none => some 10000000
    | none => some 10000000
  else some 10000000

/-- A decision variable of the Gurobi model. -/
inductive GVar
| yH (h : Int) (l : Nat) (t : Nat)
| yA (a : Arc) (l : Nat) (t : Nat)
| vPath (g : String) (od : Int × Int) (idx : Nat) (t : Nat)
| uHub (h : Int) (t : Nat)
| xArc (a : Arc) (t : Nat)
| hubUpg (h : Int) (lprev : Nat) (l : Nat) (t : Nat)
| arcUpg (a : Arc) (t : Nat)
| invPeriod (t : Nat)
deriving DecidableEq, Repr

/-- Constraint sense. -/
inductive Rel
| le
| eq
| ge
deriving DecidableEq, Repr

/-- One linear constraint `lhs REL rhs + cst`. -/
structure Constr where
  lhs : List (ℚ × GVar)
  rel : Rel
  rhs : List (ℚ × GVar)
  cst : ℚ
deriving DecidableEq, Repr

/-- Value of a linear expression under an assignment. -/
def evalLin (σ : GVar → ℚ) (l : List (ℚ × GVar)) : ℚ :=
  (l.map fun cv => cv.1 * σ cv.2).sum

/-- A constraint holds under an assignment. -/
def satisfies (σ : GVar → ℚ) (c : Constr) : Prop :=
  match c.rel with
  | Rel.le => evalLin σ c.lhs ≤ evalLin σ c.rhs + c.cst
  | Rel.eq => evalLin σ c.lhs = evalLin σ c.rhs + c.cst
  | Rel.ge => evalLin σ c.rhs + c.cst ≤ evalLin σ c.lhs

abbrev PathKey : Type := String × (Int × Int)

abbrev PathsDict : Type := List (PathKey × List (List Arc))

/-- `paths[(g, od)]` in the variable and constraint loops.  Every run
that reaches them has already evaluated `paths[key]` for every pair in
the through-hub expansion loop, so the key is present there. -/
def pathsGet (paths : PathsDict) (g : String) (od : Int × Int) :
    List (List Arc) :=
  (dget paths (g, od)).getD []

def growth_factor : Nat → ℚ
| 1 => 1
| 2 => 3 / 2
| 3 => 2
| _ => 1

def BASE_DEMAND : ℚ := 10000

/-- `w_gk`: the base demand split evenly over a commodity's OD pairs and
scaled by the period growth factor. -/
def w_gk_build (OD : List (String × List (Int × Int))) (T : List Nat) :
    List ((String × (Int × Int) × Nat) × ℚ) :=
  OD.flatMap fun gp =>
    let demand_per_od : ℚ :=
      if 0 < gp.2.length then BASE_DEMAND / gp.2.length else BASE_DEMAND
    T.flatMap fun t =>
      gp.2.map fun od => ((gp.1, od, t), demand_per_od * growth_factor t)

def w_gk_get (w : List ((String × (Int × Int) × Nat) × ℚ))
    (g : String) (od : Int × Int) (t : Nat) : ℚ :=
  (dget w (g, od, t)).getD 0

def c_s : ℚ := 500

/-- `c_h = {h: 1000 for h in H}`. -/
def c_h_build (H : List Int) : List (Int × ℚ) :=
  H.foldl (fun d h => dset d h 1000) []

/-- The per-period budgets `B`. -/
def B_budget : List (Nat × ℚ) :=
  [(1, 200000000000000000000), (2, 250000000000000000000),
   (3, 350000000000000000000)]

/-- Hub upgrade cost per unit, `f_lh`. -/
def f_lh_dict : List (Nat × ℚ) := [(1, 100), (2, 200), (3, 210)]

def f_lh_get (f : List (Nat × ℚ)) (l : Nat) : ℚ := (dget f l).getD 0

def f_la_get (f : List (Arc × ℚ)) (a : Arc) : ℚ := (dget f a).getD 0

/-- The pcu-level fix of `load_nodes`: an empty list becomes `[0.0]`, and
a `CANDIDATE_NEW` node has its level 0 forced to `0.0`. -/
def process_pcu (isNew : Bool) (pcu : List ℚ) : List ℚ :=
  let p := if pcu = [] then [0] else pcu
  if isNew ∧ 0 < p.length then p.set 0 0 else p

/-- `L_h` built from `node_capacity_pcu_levels`: missing or empty level
lists become `{0: 0.0}`. -/
def L_h_build (ncpl : List (Int × List ℚ)) (H : List Int) :
    List (Int × List ℚ) :=
  H.foldl (fun d h =>
    let levels := (dget ncpl h).getD []
    if levels = [] then dset d h [0] else dset d h levels) []

/-- `L_h[h][l]` (`none` = the script's `KeyError`). -/
def L_h_get (Lh : List (Int × List ℚ)) (h : Int) (l : Nat) : Option ℚ :=
  (dget Lh h).bind fun ls => ls.get? l

/-- The `y_h` keys, in creation order: new hubs get levels 0–3, potential
hubs levels 0–2, existing hubs level 0 then 1–2. -/
def y_h_keys (new_hubs H_tilde H0 : List Int) (T : List Nat) :
    List (Int × Nat × Nat) :=
  (new_hubs.flatMap fun h => [0, 1, 2, 3].flatMap fun l =>
    T.map fun t => (h, l, t)) ++
  (H_tilde.flatMap fun h => [0, 1, 2].flatMap fun l =>
    T.map fun t => (h, l, t)) ++
  (H0.flatMap fun h => T.flatMap fun t =>
    (h, 0, t) :: ([1, 2].map fun l => (h, l, t)))

/-- The `y_a` keys: potential arcs only, levels 0–1. -/
def y_a_keys (A_tilde : List Arc) (T : List Nat) : List (Arc × Nat × Nat) :=
  A_tilde.flatMap fun a => [0, 1].flatMap fun l => T.map fun t => (a, l, t)

/-- The `hub_upgrade_vars` keys `(h, prev_l, l, t)` created in the
objective cell for periods after the first.  `hub_upgrade_vars` is a
dict, so a key the `H_tilde` loop re-creates after the new-hub loop (a
candidate-new hub is also a potential hub) keeps its first insertion
position and appears exactly once. -/
def hub_upgrade_keys (new_hubs H_tilde : List Int) (T : List Nat) :
    List (Int × Nat × Nat × Nat) :=
  ((new_hubs.flatMap fun h => T.flatMap fun t =>
    if t = 1 then [] else
      [1, 2, 3].flatMap fun l => [0, 1, 2].filterMap fun pl =>
        if pl < l then some (h, pl, l, t) else none) ++
  (H_tilde.flatMap fun h => T.flatMap fun t =>
    if t = 1 then [] else
      [1, 2].flatMap fun l => [0, 1].filterMap fun pl =>
        if pl < l then some (h, pl, l, t) else none)).foldl setInsert []

/-- The `arc_upgrade_vars` keys `(a, t)` for periods after the first. -/
def arc_upgrade_keys (A_tilde : List Arc) (T : List Nat) :
    List (Arc × Nat) :=
  A_tilde.flatMap fun a =>
    T.filterMap fun t => if t = 1 then none else some (a, t)

/-- Hub service cost: `c_h[h] * u_hub[(h, t)]` for `h` in `H` with a
service cost, `t` in `T`. -/
def service_cost (H : List Int) (T : List Nat) (c_h : List (Int × ℚ)) :
    List (ℚ × GVar) :=
  H.flatMap fun h => T.filterMap fun t =>
    match dget c_h h with
    | some c => some (c, GVar.uHub h t)
    | none => none

/-- `calculate_transport_cost`: the `c_a` costs of all arcs of the path
except the last one (`range(len(path) - 1)` over a list of arcs). -/
def calculate_transport_cost (c_a : List (Arc × ℚ)) (path : List Arc) : ℚ :=
  ((path.dropLast).map fun a => (dget c_a a).getD 0).sum

/-- Transportation cost terms:
`path_cost * w_gk * v_path` per `(g, od, idx, t)`. -/
def transport_cost (OD : List (String × List (Int × Int))) (T : List Nat)
    (paths : PathsDict) (c_a : List (Arc × ℚ))
    (w : List ((String × (Int × Int) × Nat) × ℚ)) : List (ℚ × GVar) :=
  OD.flatMap fun gp => gp.2.flatMap fun od =>
    (pathsGet paths gp.1 od).enum.flatMap fun ip =>
      T.map fun t =>
        (calculate_transport_cost c_a ip.2 * w_gk_get w gp.1 od t,
         GVar.vPath gp.1 od ip.1 t)

/-- Leading decimal digit. -/
def leadDigitNat (n : Nat) : Nat :=
  if n < 10 then n else leadDigitNat (n / 10)
termination_by n
decreasing_by exact Nat.div_lt_self (by omega) (by omega)

/-- The mode-switch guard for one pair of consecutive arcs: both labels
are virtual, the head label starts with `'3'`, `'4'` or `'6'`, that
leading digit is a hub, and the modes differ. -/
def mode_switch_guard (H : List Int) (cur next : Arc) : Bool :=
  match cur.1, next.2 with
  | ENode.virt _ _, ENode.virt j _ =>
    if j < 0 then false
    else
      let dgt := leadDigitNat j.toNat
      decide ((dgt = 3 ∨ dgt = 4 ∨ dgt = 6) ∧ dgt ≠ 0 ∧ (dgt : Int) ∈ H) &&
        decide (mode1 cur.1 ≠ mode1 next.2)
  | _, _ => false

/-- Mode-switch cost terms: one `c_s * w_gk * v_path` term per position
of the path where the guard fires. -/
def mode_switch_cost (OD : List (String × List (Int × Int))) (T : List Nat)
    (paths : PathsDict) (w : List ((String × (Int × Int) × Nat) × ℚ))
    (H : List Int) : List (ℚ × GVar) :=
  OD.flatMap fun gp => gp.2.flatMap fun od =>
    (pathsGet paths gp.1 od).enum.flatMap fun ip =>
      T.flatMap fun t =>
        (List.range (ip.2.length - 2)).filterMap fun i =>
          match ip.2.get? i, ip.2.get? (i + 1) with
          | some cur, some next =>
            if mode_switch_guard H cur next then
              some (c_s * w_gk_get w gp.1 od t, GVar.vPath gp.1 od ip.1 t)
            else none
          | _, _ => none

/-- The period-`t` investment terms of the budget cell: hub terms for new
and potential hubs (level variables in period 1, upgrade indicators
later), then arc terms for potential arcs. -/
def period_terms (new_hubs H_tilde : List Int) (A_tilde : List Arc)
    (Lh : List (Int × List ℚ)) (L_a : List (Arc × (ℚ × ℚ)))
    (f_lh : List (Nat × ℚ)) (f_la : List (Arc × ℚ))
    (hub_keys : List (Int × Nat × Nat × Nat)) (arc_keys : List (Arc × Nat))
    (t : Nat) : List (ℚ × GVar) :=
  (new_hubs.flatMap fun h =>
    if t = 1 then
      [1, 2, 3].filterMap fun l =>
        match L_h_get Lh h l with
        | some capl =>
          some ((capl - (L_h_get Lh h 0).getD 0) * f_lh_get f_lh l,
            GVar.yH h l t)
        | none => none
    else
      hub_keys.filterMap fun k =>
        if k.1 = h ∧ k.2.2.2 = t then
          some (((L_h_get Lh h k.2.2.1).getD 0 - (L_h_get Lh h k.2.1).getD 0) *
              f_lh_get f_lh k.2.2.1,
            GVar.hubUpg h k.2.1 k.2.2.1 t)
        else none) ++
  (H_tilde.flatMap fun h =>
    if t = 1 then
      [1, 2].filterMap fun l =>
        match L_h_get Lh h l with
        | some capl =>
          some ((capl - (L_h_get Lh h 0).getD 0) * f_lh_get f_lh l,
            GVar.yH h l t)
        | none => none
    else
      hub_keys.filterMap fun k =>
        if k.1 = h ∧ k.2.2.2 = t then
          some (((L_h_get Lh h k.2.2.1).getD 0 - (L_h_get Lh h k.2.1).getD 0) *
              f_lh_get f_lh k.2.2.1,
            GVar.hubUpg h k.2.1 k.2.2.1 t)
        else none) ++
  (A_tilde.flatMap fun a =>
    let lv := (dget L_a a).getD (0, 0)
    if t = 1 then
      [((lv.2 - lv.1) * f_la_get f_la a, GVar.yA a 1 t)]
    else
      if (a, t) ∈ arc_keys then
        [((lv.2 - lv.1) * f_la_get f_la a, GVar.arcUpg a t)]
      else [])

/-- 9.1 path flow balance: `sum v_path = 1` for every `(g, od, t)` of
`OD_pairs x T`, with no reachability filter. -/
def path_flow_balance (OD : List (String × List (Int × Int))) (T : List Nat)
    (paths : PathsDict) : List Constr :=
  OD.flatMap fun gp => gp.2.flatMap fun od => T.map fun t =>
    ⟨(List.range (pathsGet paths gp.1 od).length).map fun idx =>
        ((1 : ℚ), GVar.vPath gp.1 od idx t),
     Rel.eq, [], 1⟩

/-- `path_uses_hub`. -/
def path_uses_hub (path : List Arc) (h : Int) : Bool :=
  path.any fun a =>
    decide (physical_node a.1 = h ∨ physical_node a.2 = h)

/-- 9.1b: `u_hub[(h, t)] ==` total demand-weighted path flow through the
hub. -/
def u_hub_flow_constrs (OD : List (String × List (Int × Int))) (T : List Nat)
    (paths : PathsDict) (w : List ((String × (Int × Int) × Nat) × ℚ))
    (H : List Int) : List Constr :=
  H.flatMap fun h => T.map fun t =>
    ⟨[(1, GVar.uHub h t)], Rel.eq,
     OD.flatMap fun gp => gp.2.flatMap fun od =>
       (pathsGet paths gp.1 od).enum.filterMap fun ip =>
         if path_uses_hub ip.2 h then
           some (w_gk_get w gp.1 od t, GVar.vPath gp.1 od ip.1 t)
         else none,
     0⟩

/-- 9.1c: hub capacity constraints; a new hub also gets
`u_hub <= 1e9 * (1 - y_h[(h, 0, t)])`. -/
def hub_capacity_constrs (new_hubs H_tilde H0 : List Int) (T : List Nat)
    (Lh : List (Int × List ℚ)) (ykeys : List (Int × Nat × Nat)) :
    List Constr :=
  (new_hubs.flatMap fun h => T.flatMap fun t =>
    [⟨[(1, GVar.uHub h t)], Rel.le,
      [0, 1, 2, 3].filterMap fun l =>
        if (h, l, t) ∈ ykeys then
          some ((L_h_get Lh h l).getD 0, GVar.yH h l t)
        else none,
      0⟩,
     ⟨[(1, GVar.uHub h t)], Rel.le,
      [(-(1000000000 : ℚ), GVar.yH h 0 t)], 1000000000⟩]) ++
  (H_tilde.flatMap fun h => T.map fun t =>
    ⟨[(1, GVar.uHub h t)], Rel.le,
     [0, 1, 2].filterMap fun l =>
       if (h, l, t) ∈ ykeys then
         some ((L_h_get Lh h l).getD 0, GVar.yH h l t)
       else none,
     0⟩) ++
  (H0.flatMap fun h => T.map fun t =>
    ⟨[(1, GVar.uHub h t)], Rel.le, [], (L_h_get Lh h 0).getD 0⟩)

/-- `arc_in_path`. -/
def arc_in_path (path : List Arc) (a : Arc) : Bool :=
  path.any fun pa => decide (pa = a)

/-- 9.1d: `x_arc` definition per arc and period, and capacity for
potential arcs. -/
def x_arc_constrs (OD : List (String × List (Int × Int))) (T : List Nat)
    (paths : PathsDict) (w : List ((String × (Int × Int) × Nat) × ℚ))
    (A A_tilde : List Arc) (L_a : List (Arc × (ℚ × ℚ))) : List Constr :=
  (A.flatMap fun a => T.map fun t =>
    ⟨[(1, GVar.xArc a t)], Rel.eq,
     OD.flatMap fun gp => gp.2.flatMap fun od =>
       (pathsGet paths gp.1 od).enum.filterMap fun ip =>
         if arc_in_path ip.2 a then
           some (w_gk_get w gp.1 od t, GVar.vPath gp.1 od ip.1 t)
         else none,
     0⟩) ++
  (A_tilde.flatMap fun a => T.map fun t =>
    let lv := (dget L_a a).getD (0, 0)
    ⟨[(1, GVar.xArc a t)], Rel.le,
     [(lv.1, GVar.yA a 0 t), (lv.2, GVar.yA a 1 t)], 0⟩)

/-- 9.2: one level per hub per period; existing hubs are pinned to level
0 and explicitly zeroed at levels 1–2. -/
def hub_level_constrs (new_hubs H_tilde H0 : List Int) (T : List Nat)
    (ykeys : List (Int × Nat × Nat)) : List Constr :=
  (new_hubs.flatMap fun h => T.map fun t =>
    ⟨[0, 1, 2, 3].filterMap fun l =>
       if (h, l, t) ∈ ykeys then some ((1 : ℚ), GVar.yH h l t) else none,
     Rel.eq, [], 1⟩) ++
  (H_tilde.flatMap fun h => T.map fun t =>
    ⟨[0, 1, 2].filterMap fun l =>
       if (h, l, t) ∈ ykeys then some ((1 : ℚ), GVar.yH h l t) else none,
     Rel.eq, [], 1⟩) ++
  (H0.flatMap fun h => T.flatMap fun t =>
    (⟨[(1, GVar.yH h 0 t)], Rel.eq, [], 1⟩ : Constr) ::
    ([1, 2].filterMap fun l =>
      if (h, l, t) ∈ ykeys then
        some (⟨[(1, GVar.yH h l t)], Rel.eq, [], 0⟩ : Constr)
      else none))

/-- 9.3: one level per potential arc per period. -/
def arc_level_constrs (A_tilde : List Arc) (T : List Nat) : List Constr :=
  A_tilde.flatMap fun a => T.map fun t =>
    ⟨[(1, GVar.yA a 0 t), (1, GVar.yA a 1 t)], Rel.eq, [], 1⟩

/-- The three linearization constraints of one hub upgrade indicator. -/
def hub_upgrade_constrs (hub_keys : List (Int × Nat × Nat × Nat)) :
    List Constr :=
  hub_keys.flatMap fun k =>
    [⟨[(1, GVar.hubUpg k.1 k.2.1 k.2.2.1 k.2.2.2)], Rel.le,
      [(1, GVar.yH k.1 k.2.2.1 k.2.2.2)], 0⟩,
     ⟨[(1, GVar.hubUpg k.1 k.2.1 k.2.2.1 k.2.2.2)], Rel.le,
      [(1, GVar.yH k.1 k.2.1 (k.2.2.2 - 1))], 0⟩,
     ⟨[(1, GVar.hubUpg k.1 k.2.1 k.2.2.1 k.2.2.2)], Rel.ge,
      [(1, GVar.yH k.1 k.2.2.1 k.2.2.2), (1, GVar.yH k.1 k.2.1 (k.2.2.2 - 1))],
      -1⟩]

/-- The three linearization constraints of one arc upgrade indicator. -/
def arc_upgrade_constrs (arc_keys : List (Arc × Nat)) : List Constr :=
  arc_keys.flatMap fun k =>
    [⟨[(1, GVar.arcUpg k.1 k.2)], Rel.le, [(1, GVar.yA k.1 1 k.2)], 0⟩,
     ⟨[(1, GVar.arcUpg k.1 k.2)], Rel.le, [(1, GVar.yA k.1 0 (k.2 - 1))], 0⟩,
     ⟨[(1, GVar.arcUpg k.1 k.2)], Rel.ge,
      [(1, GVar.yA k.1 1 k.2), (1, GVar.yA k.1 0 (k.2 - 1))], -1⟩]

/-- 9.4: per-period investment definition and budget cap. -/
def budget_constrs (new_hubs H_tilde : List Int) (A_tilde : List Arc)
    (Lh : List (Int × List ℚ)) (L_a : List (Arc × (ℚ × ℚ)))
    (f_lh : List (Nat × ℚ)) (f_la : List (Arc × ℚ))
    (hub_keys : List (Int × Nat × Nat × Nat)) (arc_keys : List (Arc × Nat))
    (T : List Nat) (B : List (Nat × ℚ)) : List Constr :=
  T.flatMap fun t =>
    [⟨[(1, GVar.invPeriod t)], Rel.eq,
      period_terms new_hubs H_tilde A_tilde Lh L_a f_lh f_la hub_keys
        arc_keys t,
      0⟩,
     ⟨[(1, GVar.invPeriod t)], Rel.le, [], (dget B t).getD 0⟩]

/-- All data the model cell consumes. -/
structure MIn where
  OD : List (String × List (Int × Int))
  T : List Nat
  H : List Int
  H0 : List Int
  H_tilde : List Int
  new_hubs : List Int
  A : List Arc
  A_tilde : List Arc
  real_arcs : List Arc
  through_hub_arc : List Arc
  virtual_arcs_all : List Arc
  paths : PathsDict
  ncpl : List (Int × List ℚ)
  f_la : List (Arc × ℚ)

def MIn.Lh (I : MIn) : List (Int × List ℚ) := L_h_build I.ncpl I.H

def MIn.La (I : MIn) : List (Arc × (ℚ × ℚ)) := L_a_build I.A_tilde

def MIn.w (I : MIn) : List ((String × (Int × Int) × Nat) × ℚ) :=
  w_gk_build I.OD I.T

def MIn.ca (I : MIn) : List (Arc × ℚ) :=
  c_a_build I.real_arcs I.through_hub_arc I.virtual_arcs_all I.H

def MIn.ykeys (I : MIn) : List (Int × Nat × Nat) :=
  y_h_keys I.new_hubs I.H_tilde I.H0 I.T

def MIn.hubKeys (I : MIn) : List (Int × Nat × Nat × Nat) :=
  hub_upgrade_keys I.new_hubs I.H_tilde I.T

def MIn.arcKeys (I : MIn) : List (Arc × Nat) :=
  arc_upgrade_keys I.A_tilde I.T

/-- The model's objective: operating cost only (service + transport +
mode switch), exactly as `total_cost` before `setObjective`. -/
def total_cost (I : MIn) : List (ℚ × GVar) :=
  service_cost I.H I.T (c_h_build I.H) ++
    transport_cost I.OD I.T I.paths I.ca I.w ++
    mode_switch_cost I.OD I.T I.paths I.w I.H

/-- All constraints the model cell adds, in source order: the upgrade
indicator linearizations of the objective cell, then constraint
sections 9.1–9.4. -/
def model_constraints (I : MIn) : List Constr :=
  hub_upgrade_constrs I.hubKeys ++
    arc_upgrade_constrs I.arcKeys ++
    path_flow_balance I.OD I.T I.paths ++
    u_hub_flow_constrs I.OD I.T I.paths I.w I.H ++
    hub_capacity_constrs I.new_hubs I.H_tilde I.H0 I.T I.Lh I.ykeys ++
    x_arc_constrs I.OD I.T I.paths I.w I.A I.A_tilde I.La ++
    hub_level_constrs I.new_hubs I.H_tilde I.H0 I.T I.ykeys ++
    arc_level_constrs I.A_tilde I.T ++
    budget_constrs I.new_hubs I.H_tilde I.A_tilde I.Lh I.La f_lh_dict
      I.f_la I.hubKeys I.arcKeys I.T B_budget

/-- Variable domains from `addVar`: binaries in `{0, 1}`, `v_path` in
`[0, 1]`, the continuous flow and investment variables nonnegative. -/
def VarDomains (I : MIn) (σ : GVar → ℚ) : Prop :=
  (∀ k ∈ I.ykeys, σ (GVar.yH k.1 k.2.1 k.2.2) = 0 ∨
    σ (GVar.yH k.1 k.2.1 k.2.2) = 1) ∧
  (∀ k ∈ y_a_keys I.A_tilde I.T, σ (GVar.yA k.1 k.2.1 k.2.2) = 0 ∨
    σ (GVar.yA k.1 k.2.1 k.2.2) = 1) ∧
  (∀ k ∈ I.hubKeys, σ (GVar.hubUpg k.1 k.2.1 k.2.2.1 k.2.2.2) = 0 ∨
    σ (GVar.hubUpg k.1 k.2.1 k.2.2.1 k.2.2.2) = 1) ∧
  (∀ k ∈ I.arcKeys, σ (GVar.arcUpg k.1 k.2) = 0 ∨
    σ (GVar.arcUpg k.1 k.2) = 1) ∧
  (∀ gp ∈ I.OD, ∀ od ∈ gp.2, ∀ t ∈ I.T,
    ∀ idx ∈ List.range (pathsGet I.paths gp.1 od).length,
      0 ≤ σ (GVar.vPath gp.1 od idx t) ∧ σ (GVar.vPath gp.1 od idx t) ≤ 1) ∧
  (∀ h ∈ I.H, ∀ t ∈ I.T, 0 ≤ σ (GVar.uHub h t)) ∧
  (∀ a ∈ I.A, ∀ t ∈ I.T, 0 ≤ σ (GVar.xArc a t)) ∧
  (∀ t ∈ I.T, 0 ≤ σ (GVar.invPeriod t))

/-- Feasibility: every constraint of the built model and every variable
domain holds. -/
def Feasible (I : MIn) (σ : GVar → ℚ) : Prop :=
  (∀ c ∈ model_constraints I, satisfies σ c) ∧ VarDomains I σ

/-- Is a variable an operating-cost variable (hub flow or path share)? -/
def isOperatingVar : GVar → Bool
| GVar.uHub _ _ => true
| GVar.vPath _ _ _ _ => true
| _ => false

instance decSatisfies (σ : GVar → ℚ) (c : Constr) : Decidable (satisfies σ c) := by
  unfold satisfies
  split
  all_goals infer_instance

instance decVarDomains (I : MIn) (σ : GVar → ℚ) : Decidable (VarDomains I σ) := by
  unfold VarDomains
  infer_instance

instance decFeasible (I : MIn) (σ : GVar → ℚ) : Decidable (Feasible I σ) := by
  unfold Feasible
  infer_instance

/-- The concrete instance of the C7 witness: one existing hub `6`, one
period. -/
def C7_instance : MIn :=
  ⟨[], [1], [6], [6], [], [], [], [], [], [], [], [], [], []⟩

/-- The feasible assignment of the C7 witness: hub 6 at level 0. -/
def C7_sigma : GVar → ℚ :=
  fun v => match v with
  | GVar.yH _ 0 _ => 1
  | _ => 0

/-- The concrete instance of the C6 witness: one candidate-new hub `3`
(also a potential hub, as in the script, where potential hubs are the
new and upgrade candidates together), over both periods, with a full
four-level loaded pcu list `[0, 7, 9, 11]` so that every `L_h[h][l]`
access of the model cell resolves. -/
def C6_instance : MIn :=
  ⟨[], [1, 2], [3], [], [3], [3], [], [], [], [], [], [],
    [(3, [0, 7, 9, 11])], []⟩

/-- The feasible assignment of the C6 witness: hub 3 closed at level 0,
no flow. -/
def C6_sigma : GVar → ℚ :=
  fun v => match v with
  | GVar.yH _ 0 _ => 1
  | _ => 0

def C2w_real : List Arc :=
  [(ENode.phys 0, ENode.virt 1 1), (ENode.phys 1, ENode.virt 0 1)]

def C2w_thru : List Arc := [(ENode.virt 0 1, ENode.virt 1 1)]

def C2w_va : List Arc :=
  [(ENode.virt 1 1, ENode.phys 1), (ENode.virt 0 1, ENode.phys 0)]

def C2w_til : List Arc :=
  [(ENode.phys 0, ENode.virt 1 1), (ENode.virt 0 1, ENode.virt 1 1)]

/-!  The path pipeline of the model script (CELL 5 there): near-optimal
path search per reachable OD pair, conversion to arc lists with the
endpoint sanity check, and the through-hub variant generation.  A raised
exception (`KeyError`, the `[BUG]` `ValueError`, `IndexError`) is
modelled as `none`. -/

/-- The `re.fullmatch` pattern of the through-hub generator: a virtual
label `i^m` with nonnegative components parses, anything else does not. -/
def parse_virtual_ga : ENode → Option (Int × Int)
| ENode.virt i m => if 0 ≤ i ∧ 0 ≤ m then some (i, m) else none
| ENode.phys _ => none

/-- The through-blocks of one base path: positions `i` where the pattern
`(prev -> h^m), (h^m -> h), (h -> next^m)` occurs with `h` a hub. -/
def ga_blocks (H : List Int) (base : List Arc) : List (Nat × Arc) :=
  (List.range (base.length - 2)).filterMap fun i =>
    match base.get? i, base.get? (i + 1), base.get? (i + 2) with
    | some a1, some a2, some a3 =>
      match parse_virtual_ga a1.2 with
      | none => none
      | some hm =>
        if hm.1 ∉ H then none
        else if ¬(a2.1 = a1.2 ∧ a2.2 = ENode.phys hm.1) then none
        else if a3.1 ≠ ENode.phys hm.1 then none
        else
          match parse_virtual_ga a3.2 with
          | none => none
          | some nm =>
            if nm.2 ≠ hm.2 then none else some (i, (a1.2, a3.2))
    | _, _, _ => none

/-- `itertools.product([0, 1], repeat=k)`, first position slowest. -/
def allMasks : Nat → List (List Bool)
| 0 => [[]]
| n + 1 => [false, true].flatMap fun b => (allMasks n).map fun mk => b :: mk

/-- The blocks selected by one mask. -/
def chosenOf (blocks : List (Nat × Arc)) (mask : List Bool) :
    List (Nat × Arc) :=
  (blocks.zip mask).filterMap fun bm => if bm.2 then some bm.1 else none

/-- The sequential overlap check on the chosen blocks. -/
def ga_valid : List (Nat × Arc) → List Nat → Bool
| [], _ => true
| b :: rest, used =>
  if b.1 ∈ used ∨ (b.1 + 1) ∈ used ∨ (b.1 + 2) ∈ used then false
  else ga_valid rest (b.1 :: (b.1 + 1) :: (b.1 + 2) :: used)

/-- The index walk building one generated path: at a chosen start, keep
the arc into the hub state, add the through arc and skip the hub visit;
elsewhere copy the arc. -/
def ga_build (base : List Arc) (chosen : List (Nat × Arc)) (i : Nat) :
    List Arc :=
  if h : i < base.length then
    match dget chosen i with
    | some thr => base.get ⟨i, h⟩ :: thr :: ga_build base chosen (i + 3)
    | none => base.get ⟨i, h⟩ :: ga_build base chosen (i + 1)
  else []
termination_by base.length - i
decreasing_by
  · omega
  · omega

/-- All combinations generated from one base path (the base itself when
no block exists). -/
def ga_one (H : List Int) (base : List Arc) : List (List Arc) :=
  let blocks := ga_blocks H base
  if blocks = [] then [base]
  else
    (allMasks blocks.length).filterMap fun mask =>
      let chosen := chosenOf blocks mask
      if ga_valid chosen [] then some (ga_build base chosen 0) else none

/-- The final first-seen deduplication of the generator. -/
def ga_dedup : List (List Arc) → List (List Arc) → List (List Arc)
| [], _ => []
| p :: rest, seen =>
  if p ∈ seen then ga_dedup rest seen else p :: ga_dedup rest (p :: seen)

/-- `generate_all_unique_paths_with_through_hubs`. -/
def generate_all_unique_paths_with_through_hubs
    (paths_list : List (List Arc)) (H : List Int) : List (List Arc) :=
  ga_dedup (paths_list.flatMap (ga_one H)) []

/-- The near-optimal path dictionary of the model script: an unreachable
OD pair (`L_min` infinite) gets NO key at all; a reachable pair whose
origin is missing from the expanded adjacency gets an empty list;
otherwise the DFS plus sorted deduplication runs. -/
def near_optimal_paths_model (G_exp : Adj)
    (OD : List (String × List (Int × Int))) (eps : ℚ) (maxPaths : Nat) :
    List (PathKey × List (List ENode × ℚ)) :=
  OD.flatMap fun gp =>
    gp.2.filterMap fun od =>
      match (List.lookup (gp.1, od.1, od.2) (calculate_L_min G_exp OD)).bind
          id with
      | none => none
      | some Lmin =>
        if (List.lookup (ENode.phys od.1) G_exp).isNone then
          some ((gp.1, od), [])
        else
          some ((gp.1, od),
            enumerate_od G_exp (ENode.phys od.1) (ENode.phys od.2) Lmin eps
              maxPaths)

/-- `build_paths_from_near_optimal`: convert every node sequence to an
arc list and run the `[BUG]` endpoint sanity check; a failing check
aborts the run. -/
def build_paths_from_near_optimal
    (nop : List (PathKey × List (List ENode × ℚ))) : Option PathsDict :=
  nop.mapM fun entry =>
    let expanded := entry.2.map fun sc => seq_to_arcs sc.1
    if expanded.all fun p =>
        build_path_check entry.1.2.1 entry.1.2.2 p = CheckOutcome.ok then
      some (entry.1, expanded)
    else none

/-- The through-hub expansion loop: every `(g, od)` of `OD_pairs` is
looked up in `paths` unconditionally; a missing key (an unreachable OD
pair) raises `KeyError`. -/
def paths_with_through_hubs (OD : List (String × List (Int × Int)))
    (paths : PathsDict) (H : List Int) : Option PathsDict :=
  (OD.flatMap fun gp => gp.2.map fun od => (gp.1, od)).mapM fun key =>
    (dget paths key).map fun base =>
      (key, generate_all_unique_paths_with_through_hubs base H)

/-! ## Theorems -/

theorem length_stableInsert (le : α → α → Bool) (a : α) (l : List α) :
    (stableInsert le a l).length = l.length + 1 := by
  induction l with
  | nil => rfl
  | cons b bs ih =>
    simp only [stableInsert]
    split
    · simp
    · simp [ih]

theorem length_stableSort (le : α → α → Bool) (l : List α) :
    (stableSort le l).length = l.length := by
  induction l with
  | nil => rfl
  | cons a as ih => simp [stableSort, length_stableInsert, ih]

theorem mem_stableInsert (le : α → α → Bool) (a x : α) (l : List α) :
    x ∈ stableInsert le a l ↔ x = a ∨ x ∈ l := by
  induction l with
  | nil => simp [stableInsert]
  | cons b bs ih =>
    simp only [stableInsert]
    split
    · simp
    · simp [ih]
      tauto

theorem mem_stableSort (le : α → α → Bool) (x : α) (l : List α) :
    x ∈ stableSort le l ↔ x ∈ l := by
  induction l with
  | nil => simp [stableSort]
  | cons a as ih => simp [stableSort, mem_stableInsert, ih]

theorem pairwise_stableInsert (le : α → α → Bool)
    (htot : ∀ a b, le a b = true ∨ le b a = true)
    (htrans : ∀ a b c, le a b = true → le b c = true → le a c = true)
    (a : α) (l : List α) (h : l.Pairwise (fun x y => le x y = true)) :
    (stableInsert le a l).Pairwise (fun x y => le x y = true) := by
  induction l with
  | nil => simp [stableInsert]
  | cons b bs ih =>
    simp only [stableInsert]
    rcases List.pairwise_cons.mp h with ⟨hb, hbs⟩
    split
    · rename_i hab
      refine List.pairwise_cons.mpr ⟨?_, h⟩
      intro x hx
      rcases List.mem_cons.mp hx with rfl | hx2
      · exact hab
      · exact htrans a b x hab (hb x hx2)
    · rename_i hab
      have hba : le b a = true := by
        rcases htot a b with h1 | h1
        · exact absurd h1 hab
        · exact h1
      refine List.pairwise_cons.mpr ⟨?_, ih hbs⟩
      intro x hx
      rcases (mem_stableInsert le a x bs).mp hx with rfl | hx2
      · exact hba
      · exact hb x hx2

theorem pairwise_stableSort (le : α → α → Bool)
    (htot : ∀ a b, le a b = true ∨ le b a = true)
    (htrans : ∀ a b c, le a b = true → le b c = true → le a c = true)
    (l : List α) :
    (stableSort le l).Pairwise (fun x y => le x y = true) := by
  induction l with
  | nil => simp [stableSort]
  | cons a as ih => exact pairwise_stableInsert le htot htrans a _ ih

theorem dedupLoop_acc_append (K : Nat) :
    ∀ (input : List (List ENode × ℚ)) (seen : List (List ENode))
      (acc : List (List ENode × ℚ)),
      ∃ s, dedupLoop K input seen acc = acc ++ s := by
  intro input
  induction input with
  | nil => intro seen acc; exact ⟨[], by simp [dedupLoop]⟩
  | cons pr rest ih =>
    intro seen acc
    obtain ⟨p, c⟩ := pr
    simp only [dedupLoop]
    split
    · exact ih seen acc
    · split
      · exact ⟨[(p, c)], rfl⟩
      · obtain ⟨s, hs⟩ := ih (p :: seen) (acc ++ [(p, c)])
        exact ⟨(p, c) :: s, by simp [hs]⟩

theorem dedupLoop_sublist (K : Nat) :
    ∀ (input : List (List ENode × ℚ)) (seen : List (List ENode))
      (acc : List (List ENode × ℚ)),
      (dedupLoop K input seen acc).Sublist (acc ++ input) := by
  intro input
  induction input with
  | nil => intro seen acc; simp [dedupLoop]
  | cons pr rest ih =>
    intro seen acc
    obtain ⟨p, c⟩ := pr
    simp only [dedupLoop]
    split
    · exact (ih seen acc).trans
        (List.Sublist.append_left (List.sublist_cons_self _ _) acc)
    · split
      · exact List.Sublist.append_left
          (List.cons_sublist_cons.mpr (List.nil_sublist rest)) acc
      · have h2 := ih (p :: seen) (acc ++ [(p, c)])
        have : (acc ++ [(p, c)]) ++ rest = acc ++ ((p, c) :: rest) := by simp
        rw [this] at h2
        exact h2

theorem dedupLoop_nodup (K : Nat) :
    ∀ (input : List (List ENode × ℚ)) (seen : List (List ENode))
      (acc : List (List ENode × ℚ)),
      (∀ pr ∈ acc, pr.1 ∈ seen) → (acc.map Prod.fst).Nodup →
      ((dedupLoop K input seen acc).map Prod.fst).Nodup := by
  intro input
  induction input with
  | nil => intro seen acc _ h2; simpa [dedupLoop] using h2
  | cons pr rest ih =>
    intro seen acc h1 h2
    obtain ⟨p, c⟩ := pr
    simp only [dedupLoop]
    split
    · exact ih seen acc h1 h2
    · rename_i hp
      have hnp : p ∉ acc.map Prod.fst := by
        intro hmem
        obtain ⟨q, hq, hq2⟩ := List.mem_map.mp hmem
        exact hp (hq2 ▸ h1 q hq)
      have h2' : ((acc ++ [(p, c)]).map Prod.fst).Nodup := by
        rw [List.map_append]
        refine List.Nodup.append h2 (List.nodup_singleton p) ?_
        intro x hx hx2
        simp at hx2
        subst hx2
        exact hnp hx
      split
      · exact h2'
      · refine ih (p :: seen) (acc ++ [(p, c)]) ?_ h2'
        intro q hq
        rcases List.mem_append.mp hq with hq1 | hq2
        · exact List.mem_cons_of_mem _ (h1 q hq1)
        · simp at hq2
          simp [hq2]

theorem dedupLoop_length_le (K : Nat) :
    ∀ (input : List (List ENode × ℚ)) (seen : List (List ENode))
      (acc : List (List ENode × ℚ)),
      acc.length < K → (dedupLoop K input seen acc).length ≤ K := by
  intro input
  induction input with
  | nil => intro seen acc h; simpa [dedupLoop] using h.le
  | cons pr rest ih =>
    intro seen acc h
    obtain ⟨p, c⟩ := pr
    simp only [dedupLoop]
    split
    · exact ih seen acc h
    · split
      · rename_i htr
        simp
        omega
      · rename_i htr
        refine ih (p :: seen) (acc ++ [(p, c)]) ?_
        simp at htr ⊢
        omega

theorem dedupLoop_complete (K : Nat) :
    ∀ (input : List (List ENode × ℚ)) (seen : List (List ENode))
      (acc : List (List ENode × ℚ)) (p : List ENode) (c : ℚ),
      acc.length + input.length < K → (p, c) ∈ input → p ∉ seen →
      ∃ c2, (p, c2) ∈ dedupLoop K input seen acc := by
  intro input
  induction input with
  | nil => intro seen acc p c _ h2 _; simp at h2
  | cons pr rest ih =>
    intro seen acc p c h1 h2 h3
    obtain ⟨q, cq⟩ := pr
    simp only [dedupLoop]
    split
    · rename_i hq
      rcases List.mem_cons.mp h2 with heq | h2'
      · rw [show p = q from congrArg Prod.fst heq] at h3
        exact absurd hq h3
      · exact ih seen acc p c (by simp at h1 ⊢; omega) h2' h3
    · have hnotr : ¬ (K ≤ (acc ++ [(q, cq)]).length) := by
        simp at h1 ⊢
        omega
      rw [if_neg hnotr]
      by_cases hpq : p = q
      · subst hpq
        obtain ⟨s, hs⟩ := dedupLoop_acc_append K rest (p :: seen) (acc ++ [(p, cq)])
        refine ⟨cq, ?_⟩
        rw [hs]
        simp
      · rcases List.mem_cons.mp h2 with heq | h2'
        · exact absurd (congrArg Prod.fst heq) hpq
        · refine ih (q :: seen) (acc ++ [(q, cq)]) p c (by simp at h1 ⊢; omega) h2' ?_
          simp only [List.mem_cons, not_or]
          exact ⟨hpq, h3⟩



theorem le_foldr_max (l : List Nat) (x : Nat) (h : x ∈ l) :
    x ≤ l.foldr max 0 := by
  induction l with
  | nil => simp at h
  | cons b bs ih =>
    rcases List.mem_cons.mp h with rfl | h2
    · exact le_max_left _ _
    · exact le_trans (ih h2) (le_max_right _ _)

theorem itemWeight_pos (G : Adj) (start : ENode) (it : DfsItem) :
    0 < itemWeight G start it :=
  Nat.pos_pow_of_pos _ (by omega)

theorem lookup_mem (G : Adj) (n : ENode) (es : List AdjEntry)
    (h : List.lookup n G = some es) : (n, es) ∈ G := by
  induction G with
  | nil => simp [List.lookup] at h
  | cons kv rest ih =>
    obtain ⟨k, vs⟩ := kv
    rw [List.lookup] at h
    split at h
    · rename_i hbeq
      injection h with h2
      have : n = k := by simpa using hbeq
      subst this
      subst h2
      exact List.mem_cons_self _ _
    · exact List.mem_cons_of_mem _ (ih h)

theorem adjGet_length_le (G : Adj) (n : ENode) :
    (adjGet G n).length ≤ maxDeg G := by
  unfold adjGet
  cases hl : List.lookup n G with
  | none => simp [maxDeg]
  | some es =>
    simp only [Option.getD_some]
    have hmem := lookup_mem G n es hl
    have : es.length ∈ (G.map fun kv => kv.2.length) :=
      List.mem_map.mpr ⟨(n, es), hmem, rfl⟩
    unfold maxDeg
    exact le_foldr_max _ _ this

theorem mem_universe_of_adj (G : Adj) (start n : ENode) (e : AdjEntry)
    (h : e ∈ adjGet G n) : e.dst ∈ dfsUniverse G start := by
  unfold adjGet at h
  cases hl : List.lookup n G with
  | none => rw [hl] at h; simp at h
  | some es =>
    rw [hl] at h
    simp only [Option.getD_some] at h
    have hmem := lookup_mem G n es hl
    unfold dfsUniverse
    refine List.mem_dedup.mpr (List.mem_cons_of_mem _ ?_)
    exact List.mem_flatMap.mpr ⟨(n, es), hmem, List.mem_map.mpr ⟨e, h, rfl⟩⟩

theorem start_mem_universe (G : Adj) (start : ENode) :
    start ∈ dfsUniverse G start :=
  List.mem_dedup.mpr (List.mem_cons_self _ _)

theorem wf_init (G : Adj) (start : ENode) :
    WFItem G start ⟨start, 0, [start]⟩ := by
  refine ⟨by simp, by simp, by simp, by simp, ?_⟩
  intro x hx
  simp at hx
  subst hx
  exact start_mem_universe _ _

theorem pushes_shape (G : Adj) (cutoff : ℚ) (it j : DfsItem)
    (h : j ∈ dfsPushes G cutoff it) :
    ∃ e ∈ adjGet G it.node, e.dst ∉ it.path ∧ it.cost + e.w ≤ cutoff ∧
      j = ⟨e.dst, it.cost + e.w, it.path ++ [e.dst]⟩ := by
  unfold dfsPushes at h
  obtain ⟨e, he, hsome⟩ := List.mem_filterMap.mp h
  refine ⟨e, he, ?_⟩
  by_cases h1 : e.dst ∈ it.path
  · simp [h1] at hsome
  · by_cases h2 : cutoff < it.cost + e.w
    · simp [h1, h2] at hsome
    · simp [h1, h2] at hsome
      exact ⟨h1, le_of_not_lt h2, hsome.symm⟩

theorem wf_pushes (G : Adj) (start : ENode) (cutoff : ℚ) (it j : DfsItem)
    (hwf : WFItem G start it) (h : j ∈ dfsPushes G cutoff it) :
    WFItem G start j := by
  obtain ⟨hne, hnd, hhd, hlast, huniv⟩ := hwf
  obtain ⟨e, he, hdst, hw, rfl⟩ := pushes_shape G cutoff it j h
  refine ⟨by simp, ?_, ?_, ?_, ?_⟩
  · simp only [List.nodup_append, List.nodup_singleton]
    refine ⟨hnd, trivial, ?_⟩
    intro x hx hx2
    simp at hx2
    subst hx2
    exact hdst hx
  · cases hp : it.path with
    | nil => exact absurd hp hne
    | cons a as =>
      rw [hp] at hhd
      simp at hhd
      simp [hp, hhd]
  · simp [List.getLast?_concat]
  · intro x hx
    rcases List.mem_append.mp hx with h1 | h2
    · exact huniv x h1
    · simp at h2
      subst h2
      exact mem_universe_of_adj G start it.node e he

theorem pushes_path_len (G : Adj) (cutoff : ℚ) (it j : DfsItem)
    (h : j ∈ dfsPushes G cutoff it) :
    j.path.length = it.path.length + 1 := by
  obtain ⟨e, _, _, _, rfl⟩ := pushes_shape G cutoff it j h
  simp

theorem path_len_le (G : Adj) (start : ENode) (it : DfsItem)
    (hwf : WFItem G start it) :
    it.path.length ≤ (dfsUniverse G start).length :=
  (List.subperm_of_subset hwf.2.1 (fun x hx => hwf.2.2.2.2 x hx)).length_le

theorem dfsMeasure_append (G : Adj) (start : ENode) (l1 l2 : List DfsItem) :
    dfsMeasure G start (l1 ++ l2) = dfsMeasure G start l1 + dfsMeasure G start l2 := by
  unfold dfsMeasure
  rw [List.map_append, List.sum_append]

theorem dfsMeasure_reverse (G : Adj) (start : ENode) (l : List DfsItem) :
    dfsMeasure G start l.reverse = dfsMeasure G start l := by
  unfold dfsMeasure
  rw [List.map_reverse, List.sum_reverse]

theorem dfsMeasure_cons (G : Adj) (start : ENode) (it : DfsItem) (l : List DfsItem) :
    dfsMeasure G start (it :: l) = itemWeight G start it + dfsMeasure G start l := rfl

theorem dfsMeasure_push_lt (G : Adj) (start : ENode) (cutoff : ℚ)
    (it : DfsItem) (rest : List DfsItem) (hwf : WFItem G start it) :
    dfsMeasure G start ((dfsPushes G cutoff it).reverse ++ rest) <
      dfsMeasure G start (it :: rest) := by
  rw [dfsMeasure_append, dfsMeasure_reverse, dfsMeasure_cons]
  have hlen : it.path.length ≤ (dfsUniverse G start).length := path_len_le G start it hwf
  have hlen1 : 1 ≤ it.path.length := by
    cases hp : it.path with
    | nil => exact absurd hp hwf.1
    | cons a as => simp
  set B := maxDeg G
  set N := (dfsUniverse G start).length
  set len := it.path.length
  have hweight : ∀ j ∈ dfsPushes G cutoff it,
      itemWeight G start j = (B + 1) ^ (N - len) := by
    intro j hj
    unfold itemWeight
    rw [pushes_path_len G cutoff it j hj]
    congr 1
    omega
  have hsum : dfsMeasure G start (dfsPushes G cutoff it) ≤
      (dfsPushes G cutoff it).length * (B + 1) ^ (N - len) := by
    unfold dfsMeasure
    calc ((dfsPushes G cutoff it).map (itemWeight G start)).sum
        ≤ ((dfsPushes G cutoff it).map (itemWeight G start)).length *
            ((B + 1) ^ (N - len)) := by
          refine List.sum_le_card_nsmul _ _ ?_
          intro x hx
          obtain ⟨j, hj, rfl⟩ := List.mem_map.mp hx
          exact (hweight j hj).le
      _ = (dfsPushes G cutoff it).length * (B + 1) ^ (N - len) := by
          rw [List.length_map]
  have hdeg : (dfsPushes G cutoff it).length ≤ B := by
    unfold dfsPushes
    exact (List.length_filterMap_le _ _).trans (adjGet_length_le G it.node)
  have hx1 : 1 ≤ (B + 1) ^ (N - len) := Nat.one_le_pow _ _ (by omega)
  have hw : itemWeight G start it = (B + 1) ^ (N - len) * (B + 1) := by
    unfold itemWeight
    rw [show N + 1 - len = (N - len) + 1 by omega, pow_succ]
  have : dfsMeasure G start (dfsPushes G cutoff it) < itemWeight G start it := by
    calc dfsMeasure G start (dfsPushes G cutoff it)
        ≤ (dfsPushes G cutoff it).length * (B + 1) ^ (N - len) := hsum
      _ ≤ B * (B + 1) ^ (N - len) := Nat.mul_le_mul_right _ hdeg
      _ < (B + 1) ^ (N - len) * (B + 1) := by
          rw [Nat.mul_comm]
          have := Nat.mul_lt_mul_of_lt_of_le (Nat.lt_succ_self B) hx1 (by omega)
          nlinarith [hx1]
      _ = itemWeight G start it := hw.symm
  omega


theorem dfsAux_res_grows (G : Adj) (targets : List ENode) (cutoff : ℚ)
    (K : Nat) : ∀ (fuel : Nat) (stack : List DfsItem)
      (res : List (List ENode × ℚ)),
      ∃ s, dfsAux G targets cutoff K fuel stack res = res ++ s := by
  intro fuel
  induction fuel with
  | zero => intro stack res; exact ⟨[], by simp [dfsAux]⟩
  | succ fuel ih =>
    intro stack res
    cases stack with
    | nil => exact ⟨[], by simp [dfsAux]⟩
    | cons it rest =>
      simp only [dfsAux]
      split
      · exact ⟨[], by simp⟩
      · split
        · exact ih rest res
        · split
          · obtain ⟨s, hs⟩ := ih rest (res ++ [(it.path, it.cost)])
            exact ⟨(it.path, it.cost) :: s, by simp [hs]⟩
          · exact ih _ res

theorem dfsAux_sound (G : Adj) (targets : List ENode) (cutoff : ℚ)
    (K : Nat) : ∀ (fuel : Nat) (stack : List DfsItem)
      (res : List (List ENode × ℚ)) (pr : List ENode × ℚ),
      pr ∈ dfsAux G targets cutoff K fuel stack res →
      pr ∈ res ∨ ∃ it ∈ stack, Extends G targets cutoff it pr := by
  intro fuel
  induction fuel with
  | zero => intro stack res pr h; exact Or.inl (by simpa [dfsAux] using h)
  | succ fuel ih =>
    intro stack res pr h
    cases stack with
    | nil => exact Or.inl (by simpa [dfsAux] using h)
    | cons it rest =>
      simp only [dfsAux] at h
      split at h
      · exact Or.inl h
      · split at h
        · rcases ih rest res pr h with h1 | ⟨it2, h2, h3⟩
          · exact Or.inl h1
          · exact Or.inr ⟨it2, List.mem_cons_of_mem _ h2, h3⟩
        · split at h
          · rename_i hcut htgt
            rcases ih rest (res ++ [(it.path, it.cost)]) pr h with h1 | ⟨it2, h2, h3⟩
            · rcases List.mem_append.mp h1 with h4 | h5
              · exact Or.inl h4
              · simp only [List.mem_singleton] at h5
                subst h5
                exact Or.inr ⟨it, List.mem_cons_self _ _,
                  Extends.done it (le_of_not_lt hcut) htgt⟩
            · exact Or.inr ⟨it2, List.mem_cons_of_mem _ h2, h3⟩
          · rename_i hcut htgt
            rcases ih _ res pr h with h1 | ⟨it2, h2, h3⟩
            · exact Or.inl h1
            · rcases List.mem_append.mp h2 with h4 | h5
              · have h4' : it2 ∈ dfsPushes G cutoff it := List.mem_reverse.mp h4
                obtain ⟨e, he, hdst, hw, rfl⟩ := pushes_shape G cutoff it it2 h4'
                exact Or.inr ⟨it, List.mem_cons_self _ _,
                  Extends.step it pr (le_of_not_lt hcut) htgt e he hdst hw h3⟩
              · exact Or.inr ⟨it2, List.mem_cons_of_mem _ h5, h3⟩

theorem extends_cost_le (G : Adj) (targets : List ENode) (cutoff : ℚ)
    (it : DfsItem) (pr : List ENode × ℚ)
    (h : Extends G targets cutoff it pr) : it.cost ≤ cutoff := by
  cases h with
  | done _ h1 _ => exact h1
  | step _ _ h1 _ _ _ _ _ _ => exact h1

theorem dfsAux_complete (G : Adj) (start : ENode) (targets : List ENode)
    (cutoff : ℚ) (K : Nat) : ∀ (fuel : Nat) (stack : List DfsItem)
      (res : List (List ENode × ℚ)) (it : DfsItem) (pr : List ENode × ℚ),
      dfsMeasure G start stack ≤ fuel →
      (∀ j ∈ stack, WFItem G start j) →
      it ∈ stack → Extends G targets cutoff it pr →
      (dfsAux G targets cutoff K fuel stack res).length < K →
      pr ∈ dfsAux G targets cutoff K fuel stack res := by
  intro fuel
  induction fuel with
  | zero =>
    intro stack res it pr hm hwf hit hext hlen
    cases stack with
    | nil => simp at hit
    | cons it0 rest =>
      rw [dfsMeasure_cons] at hm
      have := itemWeight_pos G start it0
      omega
  | succ fuel ih =>
    intro stack res it pr hm hwf hit hext hlen
    cases stack with
    | nil => simp at hit
    | cons it0 rest =>
      rw [dfsMeasure_cons] at hm
      have hpos := itemWeight_pos G start it0
      simp only [dfsAux] at hlen ⊢
      by_cases hK : K ≤ res.length
      · rw [if_pos hK] at hlen
        omega
      · rw [if_neg hK] at hlen ⊢
        by_cases hcut : cutoff < it0.cost
        · rw [if_pos hcut] at hlen ⊢
          rcases List.mem_cons.mp hit with rfl | hit2
          · exact absurd (extends_cost_le G targets cutoff it pr hext) (not_le.mpr hcut)
          · exact ih rest res it pr (by omega)
              (fun j hj => hwf j (List.mem_cons_of_mem _ hj)) hit2 hext hlen
        · rw [if_neg hcut] at hlen ⊢
          by_cases htgt : it0.node ∈ targets
          · rw [if_pos htgt] at hlen ⊢
            rcases List.mem_cons.mp hit with rfl | hit2
            · cases hext with
              | done _ h1 h2 =>
                obtain ⟨s, hs⟩ := dfsAux_res_grows G targets cutoff K fuel rest
                  (res ++ [(it.path, it.cost)])
                rw [hs]
                simp
              | step _ _ h1 h2 e he hdst hw tail => exact absurd htgt h2
            · exact ih rest (res ++ [(it0.path, it0.cost)]) it pr (by omega)
                (fun j hj => hwf j (List.mem_cons_of_mem _ hj)) hit2 hext hlen
          · rw [if_neg htgt] at hlen ⊢
            have hwf0 : WFItem G start it0 := hwf it0 (List.mem_cons_self _ _)
            have hmlt := dfsMeasure_push_lt G start cutoff it0 rest hwf0
            rw [dfsMeasure_cons] at hmlt
            have hwf2 : ∀ j ∈ (dfsPushes G cutoff it0).reverse ++ rest,
                WFItem G start j := by
              intro j hj
              rcases List.mem_append.mp hj with h4 | h5
              · exact wf_pushes G start cutoff it0 j hwf0 (List.mem_reverse.mp h4)
              · exact hwf j (List.mem_cons_of_mem _ h5)
            rcases List.mem_cons.mp hit with rfl | hit2
            · cases hext with
              | done _ h1 h2 => exact absurd h2 htgt
              | step _ _ h1 h2 e he hdst hw tail =>
                have hchild : (⟨e.dst, it.cost + e.w, it.path ++ [e.dst]⟩ : DfsItem) ∈
                    dfsPushes G cutoff it := by
                  unfold dfsPushes
                  refine List.mem_filterMap.mpr ⟨e, he, ?_⟩
                  rw [if_neg hdst, if_neg (not_lt.mpr hw)]
                have hchild2 : (⟨e.dst, it.cost + e.w, it.path ++ [e.dst]⟩ : DfsItem) ∈
                    (dfsPushes G cutoff it).reverse ++ rest :=
                  List.mem_append.mpr (Or.inl (List.mem_reverse.mpr hchild))
                exact ih _ res _ pr (by omega) hwf2 hchild2 tail hlen
            · exact ih _ res it pr (by omega) hwf2
                (List.mem_append.mpr (Or.inr hit2)) hext hlen


theorem extends_mono (G : Adj) (targets : List ENode) (c1 c2 : ℚ)
    (hc : c1 ≤ c2) (it : DfsItem) (pr : List ENode × ℚ)
    (h : Extends G targets c1 it pr) : Extends G targets c2 it pr := by
  induction h with
  | done it h1 h2 => exact Extends.done it (h1.trans hc) h2
  | step it pr h1 h2 e he hdst hw tail ih =>
    exact Extends.step it pr (h1.trans hc) h2 e he hdst (hw.trans hc) ih

theorem extends_props (G : Adj) (targets : List ENode) (cutoff : ℚ)
    (it : DfsItem) (pr : List ENode × ℚ) (h : Extends G targets cutoff it pr) :
    it.path ≠ [] → it.path.Nodup → it.path.getLast? = some it.node →
    pr.1 ≠ [] ∧ pr.1.Nodup ∧ pr.2 ≤ cutoff ∧ pr.1.head? = it.path.head? ∧
      ∃ n ∈ targets, pr.1.getLast? = some n := by
  induction h with
  | done it h1 h2 =>
    intro hne hnd hlast
    exact ⟨hne, hnd, h1, rfl, ⟨it.node, h2, hlast⟩⟩
  | step it pr h1 h2 e he hdst hw tail ih =>
    intro hne hnd hlast
    have hchild := ih (by simp) (by
      simp only [List.nodup_append, List.nodup_singleton]
      exact ⟨hnd, trivial, by
        intro x hx hx2
        simp at hx2
        subst hx2
        exact hdst hx⟩) (by simp [List.getLast?_concat])
    obtain ⟨c1, c2, c3, c4, c5⟩ := hchild
    refine ⟨c1, c2, c3, ?_, c5⟩
    rw [c4]
    cases hp : it.path with
    | nil => exact absurd hp hne
    | cons a as => simp

theorem near_optimal_dfs_sound (G : Adj) (start : ENode) (targets : List ENode)
    (Lmin eps : ℚ) (K : Nat) (pr : List ENode × ℚ)
    (h : pr ∈ near_optimal_dfs G start targets Lmin eps K) :
    Extends G targets (Lmin * (1 + eps)) ⟨start, 0, [start]⟩ pr := by
  unfold near_optimal_dfs at h
  have h2 := List.mem_of_mem_take h
  rcases dfsAux_sound G targets (Lmin * (1 + eps)) K (dfsFuel G start)
      [⟨start, 0, [start]⟩] [] pr h2 with h3 | ⟨it, hit, hext⟩
  · simp at h3
  · simp only [List.mem_singleton] at hit
    subst hit
    exact hext

theorem dfsUniverse_length_pos (G : Adj) (start : ENode) :
    1 ≤ (dfsUniverse G start).length :=
  List.length_pos.mpr (fun habs => by
    have := start_mem_universe G start
    rw [habs] at this
    simp at this)

theorem near_optimal_dfs_complete (G : Adj) (start : ENode)
    (targets : List ENode) (Lmin eps : ℚ) (K : Nat) (pr : List ENode × ℚ)
    (hlen : (near_optimal_dfs G start targets Lmin eps K).length < K)
    (hext : Extends G targets (Lmin * (1 + eps)) ⟨start, 0, [start]⟩ pr) :
    pr ∈ near_optimal_dfs G start targets Lmin eps K := by
  unfold near_optimal_dfs at hlen ⊢
  set raw := dfsAux G targets (Lmin * (1 + eps)) K (dfsFuel G start)
    [⟨start, 0, [start]⟩] [] with hraw
  have hrawlen : raw.length < K := by
    rw [List.length_take] at hlen
    omega
  have hmeas : dfsMeasure G start [⟨start, 0, [start]⟩] ≤ dfsFuel G start := by
    unfold dfsMeasure itemWeight dfsFuel
    have := dfsUniverse_length_pos G start
    simp only [List.map_cons, List.map_nil, List.sum_cons, List.sum_nil]
    have : (dfsUniverse G start).length + 1 - ([start] : List ENode).length =
        (dfsUniverse G start).length := by simp
    rw [this]
    omega
  have hin : pr ∈ raw := by
    rw [hraw]
    exact dfsAux_complete G start targets (Lmin * (1 + eps)) K (dfsFuel G start)
      [⟨start, 0, [start]⟩] [] ⟨start, 0, [start]⟩ pr hmeas
      (by intro j hj; simp at hj; subst hj; exact wf_init G start)
      (List.mem_singleton.mpr rfl) hext (by rw [← hraw]; exact hrawlen)
  rw [List.take_of_length_le hrawlen.le]
  exact hin


theorem costLe_total (a b : List ENode × ℚ) : costLe a b = true ∨ costLe b a = true := by
  unfold costLe
  rcases le_total a.2 b.2 with h | h
  · exact Or.inl (by simpa using h)
  · exact Or.inr (by simpa using h)

theorem costLe_trans (a b c : List ENode × ℚ) (h1 : costLe a b = true)
    (h2 : costLe b c = true) : costLe a c = true := by
  unfold costLe at h1 h2 ⊢
  simp only [decide_eq_true_eq] at h1 h2 ⊢
  exact h1.trans h2

theorem enumerate_od_mem_dfs (G : Adj) (o d : ENode) (Lmin eps : ℚ) (K : Nat)
    (pr : List ENode × ℚ) (h : pr ∈ enumerate_od G o d Lmin eps K) :
    pr ∈ near_optimal_dfs G o [d] Lmin eps K := by
  unfold enumerate_od at h
  have h2 := (dedupLoop_sublist K _ [] []).mem h
  rw [List.nil_append] at h2
  exact (mem_stableSort costLe pr _).mp h2

/-- Claim C3: on every expanded graph, origin, destination, `L_min`,
tolerance and path cap, the per-OD enumerator output is deduplicated (no
path listed twice), every cost is at most `L_min * (1 + epsilon)`, every
path is simple, at most `max_paths` entries are returned, and the entries
are sorted by ascending cost. -/
theorem C3_enumerator_contract (G : Adj) (o d : ENode) (Lmin eps : ℚ)
    (K : Nat) :
    ((enumerate_od G o d Lmin eps K).map Prod.fst).Nodup ∧
    (∀ pr ∈ enumerate_od G o d Lmin eps K,
      pr.2 ≤ Lmin * (1 + eps) ∧ pr.1.Nodup) ∧
    (enumerate_od G o d Lmin eps K).length ≤ K ∧
    (enumerate_od G o d Lmin eps K).Pairwise (fun a b => a.2 ≤ b.2) := by
  refine ⟨?_, ?_, ?_, ?_⟩
  · exact dedupLoop_nodup K _ [] [] (by simp) (by simp)
  · intro pr hpr
    have hdfs := enumerate_od_mem_dfs G o d Lmin eps K pr hpr
    have hext := near_optimal_dfs_sound G o [d] Lmin eps K pr hdfs
    have hprops := extends_props G [d] (Lmin * (1 + eps)) _ pr hext
      (by simp) (by simp) (by simp)
    exact ⟨hprops.2.2.1, hprops.2.1⟩
  · cases K with
    | zero =>
      simp [enumerate_od, near_optimal_dfs, stableSort, dedupLoop]
    | succ K2 =>
      exact dedupLoop_length_le (K2 + 1) _ [] [] (by simp)
  · have hsorted := pairwise_stableSort costLe costLe_total costLe_trans
      (near_optimal_dfs G o [d] Lmin eps K)
    have hsub := dedupLoop_sublist K
      (stableSort costLe (near_optimal_dfs G o [d] Lmin eps K)) [] []
    rw [List.nil_append] at hsub
    refine List.Pairwise.imp ?_ (hsorted.sublist hsub)
    intro a b hab
    simpa [costLe] using hab

theorem dfs_empty_of_neg_cutoff (G : Adj) (start : ENode)
    (targets : List ENode) (Lmin eps : ℚ) (K : Nat)
    (hneg : Lmin * (1 + eps) < 0) :
    near_optimal_dfs G start targets Lmin eps K = [] := by
  unfold near_optimal_dfs
  cases hf : dfsFuel G start with
  | zero => simp [dfsAux]
  | succ f =>
    simp only [dfsAux]
    by_cases hK : K ≤ ([] : List (List ENode × ℚ)).length
    · rw [if_pos hK]
      simp
    · rw [if_neg hK, if_pos (by simpa using hneg)]
      cases f <;> simp [dfsAux]

/-- Amended claim C9: with the cap not binding at the larger tolerance
(the DFS collects fewer than `max_paths` raw paths there), increasing the
tolerance never decreases the number of candidate paths returned. -/
theorem C9_eps_monotone_uncapped (G : Adj) (o d : ENode) (Lmin eps1 eps2 : ℚ)
    (K : Nat) (h0 : 0 ≤ eps1) (h12 : eps1 ≤ eps2)
    (hcap : (near_optimal_dfs G o [d] Lmin eps2 K).length < K) :
    (enumerate_od G o d Lmin eps1 K).length ≤
      (enumerate_od G o d Lmin eps2 K).length := by
  rcases le_or_lt 0 Lmin with hL | hL
  · have hc : Lmin * (1 + eps1) ≤ Lmin * (1 + eps2) :=
      mul_le_mul_of_nonneg_left (by linarith) hL
    have hnd1 : ((enumerate_od G o d Lmin eps1 K).map Prod.fst).Nodup :=
      dedupLoop_nodup K _ [] [] (by simp) (by simp)
    have hnd2 : ((enumerate_od G o d Lmin eps2 K).map Prod.fst).Nodup :=
      dedupLoop_nodup K _ [] [] (by simp) (by simp)
    have hsub : ((enumerate_od G o d Lmin eps1 K).map Prod.fst) ⊆
        ((enumerate_od G o d Lmin eps2 K).map Prod.fst) := by
      intro p hp
      obtain ⟨pr, hpr, rfl⟩ := List.mem_map.mp hp
      have hdfs1 := enumerate_od_mem_dfs G o d Lmin eps1 K pr hpr
      have hext1 := near_optimal_dfs_sound G o [d] Lmin eps1 K pr hdfs1
      have hext2 := extends_mono G [d] _ _ hc _ pr hext1
      have hdfs2 := near_optimal_dfs_complete G o [d] Lmin eps2 K pr hcap hext2
      have hsorted2 : pr ∈ stableSort costLe (near_optimal_dfs G o [d] Lmin eps2 K) :=
        (mem_stableSort costLe pr _).mpr hdfs2
      have hlen2 : (0:Nat) + (stableSort costLe
          (near_optimal_dfs G o [d] Lmin eps2 K)).length < K := by
        rw [length_stableSort]
        simpa using hcap
      obtain ⟨c2, hc2⟩ := dedupLoop_complete K _ [] [] pr.1 pr.2 hlen2
        (by simpa using hsorted2) (by simp)
      exact List.mem_map.mpr ⟨(pr.1, c2), hc2, rfl⟩
    have := (List.subperm_of_subset hnd1 hsub).length_le
    simpa using this
  · have h1 : Lmin * (1 + eps1) < 0 := mul_neg_of_neg_of_pos hL (by linarith)
    have h2 : Lmin * (1 + eps2) < 0 := mul_neg_of_neg_of_pos hL (by linarith)
    rw [enumerate_od, enumerate_od,
      dfs_empty_of_neg_cutoff G o [d] Lmin eps1 K h1,
      dfs_empty_of_neg_cutoff G o [d] Lmin eps2 K h2]

unseal Rat.add Rat.mul in
/-- Counterexample to claim C9 as stated: on `cex_graph` (which contains
two parallel road links between nodes 0 and 2), with `L_min = 1`, cap
`K = 2`, increasing the tolerance from 1 to 9 makes the returned candidate
count drop from 2 to 1: the looser cutoff admits the same physical route
twice (once per parallel link), the DFS cap fills with the duplicates, and
deduplication collapses them. -/
theorem C9_counterexample :
    (1:ℚ) ≤ 9 ∧
    (enumerate_od cex_graph (ENode.phys 0) (ENode.phys 2) 1 9 2).length <
      (enumerate_od cex_graph (ENode.phys 0) (ENode.phys 2) 1 1 2).length := by
  constructor
  · norm_num
  · decide


theorem token_to_node_id (x : ENode) : token_to_node x = x := by
  cases x <;> rfl

theorem getLast?_cons_ne (a : α) (l : List α) (h : l ≠ []) :
    (a :: l).getLast? = l.getLast? := by
  cases l with
  | nil => exact absurd rfl h
  | cons b t => rfl

theorem seq_to_arcs_last2 : ∀ (rest : List ENode) (a b : ENode),
    ∃ q, (seq_to_arcs (a :: b :: rest)).getLast? = some q ∧
      some q.2 = (b :: rest).getLast? := by
  intro rest
  induction rest with
  | nil =>
    intro a b
    exact ⟨(token_to_node a, token_to_node b), rfl, by simp [token_to_node_id]⟩
  | cons c rest2 ih =>
    intro a b
    obtain ⟨q, hq, hq2⟩ := ih b c
    refine ⟨q, ?_, hq2⟩
    have hshape : seq_to_arcs (a :: b :: c :: rest2) =
        (token_to_node a, token_to_node b) :: seq_to_arcs (b :: c :: rest2) := rfl
    rw [hshape, getLast?_cons_ne _ _ (by simp [seq_to_arcs]), hq]

theorem check_not_valueErr (o d : Int) (p : List ENode)
    (hh : p.head? = some (ENode.phys o))
    (hl : p.getLast? = some (ENode.phys d)) :
    build_path_check o d (seq_to_arcs p) ≠ CheckOutcome.valueErr := by
  match p with
  | [] => simp at hh
  | [x] =>
    intro hcon
    simp [seq_to_arcs, build_path_check] at hcon
  | a :: b :: rest =>
    have ha : a = ENode.phys o := by simpa using hh
    have hlast : (b :: rest).getLast? = some (ENode.phys d) := by
      rw [← getLast?_cons_ne a (b :: rest) (by simp)]
      exact hl
    obtain ⟨q, hq, hq2⟩ := seq_to_arcs_last2 rest a b
    have hq3 : q.2 = ENode.phys d := by
      rw [hlast] at hq2
      exact Option.some_injective _ hq2
    have hshape : seq_to_arcs (a :: b :: rest) =
        (token_to_node a, token_to_node b) :: seq_to_arcs (b :: rest) := rfl
    rw [hshape]
    have hgl : ((token_to_node a, token_to_node b) :: seq_to_arcs (b :: rest)).getLast
        (by simp) = q := by
      have := List.getLast?_eq_getLast
        ((token_to_node a, token_to_node b) :: seq_to_arcs (b :: rest)) (by simp)
      rw [hshape] at hq
      rw [this] at hq
      exact Option.some_injective _ hq
    have hred : build_path_check o d
        ((token_to_node a, token_to_node b) :: seq_to_arcs (b :: rest)) =
        if (token_to_node a, token_to_node b).1 ≠ ENode.phys o ∨
            (((token_to_node a, token_to_node b) :: seq_to_arcs (b :: rest)).getLast
              (by simp)).2 ≠ ENode.phys d then
          CheckOutcome.valueErr
        else CheckOutcome.ok := rfl
    rw [hred, if_neg]
    · simp
    · push_neg
      constructor
      · simp [token_to_node_id, ha]
      · rw [hgl, hq3]

/-- Claim C10: every path returned by the DFS enumerator for the OD pair
`(o, d)` begins at node `o` and ends at node `d`, so the `[BUG]`
`ValueError` branch of the start/end sanity check in
`build_paths_from_near_optimal` is unreachable on DFS-produced paths. -/
theorem C10_dfs_endpoints_check (G : Adj) (o d : Int) (Lmin eps : ℚ)
    (K : Nat) (pr : List ENode × ℚ)
    (h : pr ∈ near_optimal_dfs G (ENode.phys o) [ENode.phys d] Lmin eps K) :
    pr.1.head? = some (ENode.phys o) ∧
    pr.1.getLast? = some (ENode.phys d) ∧
    build_path_check o d (seq_to_arcs pr.1) ≠ CheckOutcome.valueErr := by
  have hext := near_optimal_dfs_sound G (ENode.phys o) [ENode.phys d]
    Lmin eps K pr h
  have hp := extends_props G [ENode.phys d] (Lmin * (1 + eps)) _ pr hext
    (by simp) (by simp) (by simp)
  obtain ⟨hne, hnd, hc, hhd, n, hn, hlast⟩ := hp
  simp only [List.head?_cons] at hhd
  simp only [List.mem_singleton] at hn
  subst hn
  exact ⟨hhd, hlast, check_not_valueErr o d pr.1 hhd hlast⟩


unseal Rat.add Rat.mul in
theorem C9_eps_monotone_uncapped_witness :
    ((0:ℚ) ≤ 1 ∧ (1:ℚ) ≤ 9 ∧
      (near_optimal_dfs cex_graph (ENode.phys 0) [ENode.phys 2] 1 9 5).length < 5) ∧
    (enumerate_od cex_graph (ENode.phys 0) (ENode.phys 2) 1 1 5).length ≤
      (enumerate_od cex_graph (ENode.phys 0) (ENode.phys 2) 1 9 5).length :=
  ⟨⟨by decide, by decide, by decide⟩,
    C9_eps_monotone_uncapped cex_graph (ENode.phys 0) (ENode.phys 2) 1 1 9 5
      (by decide) (by decide) (by decide)⟩

unseal Rat.add Rat.mul in
theorem C10_dfs_endpoints_check_witness :
    ([ENode.phys 0, ENode.virt 2 1, ENode.phys 2], (1:ℚ)) ∈
      near_optimal_dfs cex_graph (ENode.phys 0) [ENode.phys 2] 1 1 2 ∧
    ([ENode.phys 0, ENode.virt 2 1, ENode.phys 2] : List ENode).head? =
      some (ENode.phys 0) ∧
    ([ENode.phys 0, ENode.virt 2 1, ENode.phys 2] : List ENode).getLast? =
      some (ENode.phys 2) ∧
    build_path_check 0 2
        (seq_to_arcs [ENode.phys 0, ENode.virt 2 1, ENode.phys 2]) ≠
      CheckOutcome.valueErr :=
  ⟨by decide,
    C10_dfs_endpoints_check cex_graph 0 2 1 1 2
      ([ENode.phys 0, ENode.virt 2 1, ENode.phys 2], (1:ℚ)) (by decide)⟩



/-! Claim C8: behaviour of the builders on arcs of unrecognized mode. -/

theorem buildStep_G_only (st1 st2 : BuildState) (e : Edge)
    (h : st1.G = st2.G) : (buildStep st1 e).G = (buildStep st2 e).G := by
  by_cases h1 : e.mode = 1
  · simp [buildStep, h1, h]
  · by_cases h2 : e.mode = 2
    · simp [buildStep, h1, h2, h]
    · simp [buildStep, h1, h2, h]

theorem buildStep_virtual_only (st1 st2 : BuildState) (e : Edge)
    (h : st1.virtualNodes = st2.virtualNodes) :
    (buildStep st1 e).virtualNodes = (buildStep st2 e).virtualNodes := by
  by_cases h1 : e.mode = 1
  · simp [buildStep, h1, h]
  · by_cases h2 : e.mode = 2
    · simp [buildStep, h1, h2, h]
    · simp [buildStep, h1, h2, h]

theorem buildStep_bad_mode (st : BuildState) (e : Edge) (h1 : e.mode ≠ 1)
    (h2 : e.mode ≠ 2) :
    buildStep st e = ⟨st.G, setInsert (setInsert st.realNodes e.u) e.v,
      st.virtualNodes⟩ := by
  simp [buildStep, h1, h2]

theorem buildStep_realNodes (st : BuildState) (e : Edge) :
    (buildStep st e).realNodes = setInsert (setInsert st.realNodes e.u) e.v := by
  by_cases h1 : e.mode = 1
  · simp [buildStep, h1]
  · by_cases h2 : e.mode = 2
    · simp [buildStep, h1, h2]
    · simp [buildStep, h1, h2]

theorem foldl_buildStep_G_filter :
    ∀ (edges : List Edge) (st1 st2 : BuildState), st1.G = st2.G →
      (edges.foldl buildStep st1).G =
        ((edges.filter fun e => decide (e.mode = 1) || decide (e.mode = 2)).foldl
          buildStep st2).G := by
  intro edges
  induction edges with
  | nil => intro st1 st2 h; simpa using h
  | cons e rest ih =>
    intro st1 st2 h
    by_cases hgood : e.mode = 1 ∨ e.mode = 2
    · have hfilter : (((e :: rest).filter
          fun e => decide (e.mode = 1) || decide (e.mode = 2))) =
          e :: (rest.filter fun e => decide (e.mode = 1) || decide (e.mode = 2)) := by
        simp only [List.filter_cons]
        rw [if_pos]
        rcases hgood with h1 | h1 <;> simp [h1]
      rw [hfilter]
      simp only [List.foldl_cons]
      exact ih (buildStep st1 e) (buildStep st2 e) (buildStep_G_only st1 st2 e h)
    · push_neg at hgood
      have hfilter : (((e :: rest).filter
          fun e => decide (e.mode = 1) || decide (e.mode = 2))) =
          rest.filter fun e => decide (e.mode = 1) || decide (e.mode = 2) := by
        simp only [List.filter_cons]
        rw [if_neg]
        simp [hgood.1, hgood.2]
      rw [hfilter]
      simp only [List.foldl_cons]
      refine ih (buildStep st1 e) st2 ?_
      rw [buildStep_bad_mode st1 e hgood.1 hgood.2]
      exact h

theorem foldl_buildStep_virtual_filter :
    ∀ (edges : List Edge) (st1 st2 : BuildState),
      st1.virtualNodes = st2.virtualNodes →
      (edges.foldl buildStep st1).virtualNodes =
        ((edges.filter fun e => decide (e.mode = 1) || decide (e.mode = 2)).foldl
          buildStep st2).virtualNodes := by
  intro edges
  induction edges with
  | nil => intro st1 st2 h; simpa using h
  | cons e rest ih =>
    intro st1 st2 h
    by_cases hgood : e.mode = 1 ∨ e.mode = 2
    · have hfilter : (((e :: rest).filter
          fun e => decide (e.mode = 1) || decide (e.mode = 2))) =
          e :: (rest.filter fun e => decide (e.mode = 1) || decide (e.mode = 2)) := by
        simp only [List.filter_cons]
        rw [if_pos]
        rcases hgood with h1 | h1 <;> simp [h1]
      rw [hfilter]
      simp only [List.foldl_cons]
      exact ih (buildStep st1 e) (buildStep st2 e)
        (buildStep_virtual_only st1 st2 e h)
    · push_neg at hgood
      have hfilter : (((e :: rest).filter
          fun e => decide (e.mode = 1) || decide (e.mode = 2))) =
          rest.filter fun e => decide (e.mode = 1) || decide (e.mode = 2) := by
        simp only [List.filter_cons]
        rw [if_neg]
        simp [hgood.1, hgood.2]
      rw [hfilter]
      simp only [List.foldl_cons]
      refine ih (buildStep st1 e) st2 ?_
      rw [buildStep_bad_mode st1 e hgood.1 hgood.2]
      exact h

theorem foldl_buildStep_realNodes :
    ∀ (edges : List Edge) (st : BuildState),
      (edges.foldl buildStep st).realNodes =
        edges.foldl (fun r e => setInsert (setInsert r e.u) e.v) st.realNodes := by
  intro edges
  induction edges with
  | nil => intro st; rfl
  | cons e rest ih =>
    intro st
    simp only [List.foldl_cons]
    rw [ih (buildStep st e), buildStep_realNodes]

theorem arcStep_real_mono (H : List Int) (st : ArcStructure) (e : Edge) :
    st.real_arcs ⊆ (arcStep H st e).real_arcs := by
  unfold arcStep
  intro a ha
  simp only
  exact List.mem_append.mpr (Or.inl ha)

theorem foldl_arcStep_real_mono (H : List Int) :
    ∀ (edges : List Edge) (st : ArcStructure),
      st.real_arcs ⊆ (edges.foldl (arcStep H) st).real_arcs := by
  intro edges
  induction edges with
  | nil => intro st a ha; exact ha
  | cons e rest ih =>
    intro st a ha
    exact ih (arcStep H st e) (arcStep_real_mono H st e ha)

theorem foldl_arcStep_real_mem (H : List Int) :
    ∀ (edges_raw : List Edge) (st : ArcStructure) (e : Edge), e ∈ edges_raw →
      (ENode.phys e.u, ENode.virt e.v e.mode) ∈
        (edges_raw.foldl (arcStep H) st).real_arcs := by
  intro edges_raw
  induction edges_raw with
  | nil => intro st e he; simp at he
  | cons e2 rest ih =>
    intro st e he
    rcases List.mem_cons.mp he with rfl | he2
    · simp only [List.foldl_cons]
      refine foldl_arcStep_real_mono H rest _ ?_
      unfold arcStep
      simp
    · simp only [List.foldl_cons]
      exact ih (arcStep H st e2) e he2

theorem create_arc_structure_no_mode_filter (edges_raw : List Edge)
    (H : List Int) (e : Edge) (he : e ∈ edges_raw) :
    (ENode.phys e.u, ENode.virt e.v e.mode) ∈
      (create_arc_structure edges_raw H).real_arcs :=
  foldl_arcStep_real_mem H edges_raw ⟨[], [], []⟩ e he

/-- Amended claim C8: `build_expanded_graph` drops arcs of unrecognized
mode *silently*: the adjacency and the virtual-node set are exactly those
of the input restricted to road/water arcs, no validation warning or
report is produced (the builder's entire output is the triple below), and
the dropped record is not even fully skipped — its endpoints are still
registered as real nodes.  `create_arc_structure` applies no mode filter
at all: every record, whatever its mode, contributes its real arcs.
Construction is a total function, so it never aborts on a bad record. -/
theorem C8_unknown_mode_dropped_silently (edges : List Edge) (H : List Int)
    (e : Edge) (he : e ∈ edges) :
    (build_expanded_graph edges).G =
      (build_expanded_graph
        (edges.filter fun e => decide (e.mode = 1) || decide (e.mode = 2))).G ∧
    (build_expanded_graph edges).virtualNodes =
      (build_expanded_graph
        (edges.filter fun e => decide (e.mode = 1) || decide (e.mode = 2))).virtualNodes ∧
    (build_expanded_graph edges).realNodes =
      stableSort intLe
        (edges.foldl (fun r e => setInsert (setInsert r e.u) e.v) []) ∧
    (ENode.phys e.u, ENode.virt e.v e.mode) ∈
      (create_arc_structure edges H).real_arcs := by
  refine ⟨?_, ?_, ?_, create_arc_structure_no_mode_filter edges H e he⟩
  · exact foldl_buildStep_G_filter edges ⟨[], [], []⟩ ⟨[], [], []⟩ rfl
  · exact congrArg (stableSort pairLe)
      (foldl_buildStep_virtual_filter edges ⟨[], [], []⟩ ⟨[], [], []⟩ rfl)
  · exact congrArg (stableSort intLe)
      (foldl_buildStep_realNodes edges ⟨[], [], []⟩)

theorem C8_unknown_mode_dropped_silently_witness :
    ((⟨7, 8, 3, 5, "E"⟩ : Edge) ∈ ([⟨7, 8, 3, 5, "E"⟩] : List Edge)) ∧
    ((build_expanded_graph [⟨7, 8, 3, 5, "E"⟩]).G =
      (build_expanded_graph
        (([⟨7, 8, 3, 5, "E"⟩] : List Edge).filter
          fun e => decide (e.mode = 1) || decide (e.mode = 2))).G ∧
    (build_expanded_graph [⟨7, 8, 3, 5, "E"⟩]).virtualNodes =
      (build_expanded_graph
        (([⟨7, 8, 3, 5, "E"⟩] : List Edge).filter
          fun e => decide (e.mode = 1) || decide (e.mode = 2))).virtualNodes ∧
    (build_expanded_graph [⟨7, 8, 3, 5, "E"⟩]).realNodes =
      stableSort intLe
        (([⟨7, 8, 3, 5, "E"⟩] : List Edge).foldl
          (fun r e => setInsert (setInsert r e.u) e.v) []) ∧
    (ENode.phys (7:Int), ENode.virt 8 3) ∈
      (create_arc_structure [⟨7, 8, 3, 5, "E"⟩] []).real_arcs) :=
  ⟨by decide,
    C8_unknown_mode_dropped_silently [⟨7, 8, 3, 5, "E"⟩] [] ⟨7, 8, 3, 5, "E"⟩
      (by decide)⟩

/-- Counterexample to claim C8 as stated: feeding the builder a single arc
of mode 3 produces an empty adjacency and an empty virtual-node set — the
arc is dropped with no validation warning or report anywhere in the output
(the output is exactly the triple shown) — while the bad record is not
skipped entirely: its endpoints 7 and 8 are still registered as real
nodes. -/
theorem C8_counterexample :
    build_expanded_graph [⟨7, 8, 3, 5, "E"⟩] =
      ⟨[], [7, 8], []⟩ ∧
    (create_arc_structure [⟨7, 8, 3, 5, "E"⟩] []).real_arcs =
      [(ENode.phys 7, ENode.virt 8 3), (ENode.phys 8, ENode.virt 7 3)] := by
  constructor
  · decide
  · decide

theorem popMin_eq_none (pq : List (ℚ × ENode)) : popMin pq = none ↔ pq = [] := by
  cases pq with
  | nil => simp [popMin]
  | cons e rest =>
    simp only [popMin]
    cases h : popMin rest with
    | none => simp
    | some m =>
      obtain ⟨m1, rest2⟩ := m
      by_cases h2 : e.1 ≤ m1.1 <;> simp [h2]

theorem popMin_perm (pq : List (ℚ × ENode)) (m : ℚ × ENode)
    (rest : List (ℚ × ENode)) (h : popMin pq = some (m, rest)) :
    pq.Perm (m :: rest) := by
  induction pq generalizing m rest with
  | nil => simp [popMin] at h
  | cons e tail ih =>
    simp only [popMin] at h
    cases h2 : popMin tail with
    | none =>
      rw [h2] at h
      injection h with h3
      injection h3 with h4 h5
      subst h4
      subst h5
      have : tail = [] := (popMin_eq_none tail).mp h2
      subst this
      exact List.Perm.refl _
    | some m2 =>
      obtain ⟨m1, rest2⟩ := m2
      rw [h2] at h
      dsimp only at h
      by_cases h3 : e.1 ≤ m1.1
      · rw [if_pos h3] at h
        injection h with h4
        injection h4 with h5 h6
        subst h5
        subst h6
        exact List.Perm.refl _
      · rw [if_neg h3] at h
        injection h with h4
        injection h4 with h5 h6
        subst h5
        subst h6
        have hperm := ih m1 rest2 h2
        exact (List.Perm.cons e hperm).trans (List.Perm.swap m1 e rest2)

theorem popMin_min (pq : List (ℚ × ENode)) (m : ℚ × ENode)
    (rest : List (ℚ × ENode)) (h : popMin pq = some (m, rest)) :
    ∀ pr ∈ pq, m.1 ≤ pr.1 := by
  induction pq generalizing m rest with
  | nil => simp [popMin] at h
  | cons e tail ih =>
    simp only [popMin] at h
    cases h2 : popMin tail with
    | none =>
      rw [h2] at h
      injection h with h3
      injection h3 with h4 h5
      subst h4
      have : tail = [] := (popMin_eq_none tail).mp h2
      subst this
      intro pr hpr
      simp at hpr
      subst hpr
      exact le_refl _
    | some m2 =>
      obtain ⟨m1, rest2⟩ := m2
      rw [h2] at h
      dsimp only at h
      by_cases h3 : e.1 ≤ m1.1
      · rw [if_pos h3] at h
        injection h with h4
        injection h4 with h5 h6
        subst h5
        intro pr hpr
        rcases List.mem_cons.mp hpr with rfl | hpr2
        · exact le_refl _
        · exact h3.trans (ih m1 rest2 h2 pr hpr2)
      · rw [if_neg h3] at h
        injection h with h4
        injection h4 with h5 h6
        subst h5
        intro pr hpr
        rcases List.mem_cons.mp hpr with rfl | hpr2
        · exact (not_le.mp h3).le
        · exact ih m1 rest2 h2 pr hpr2

theorem distGet_distSet_self (dist : DistMap) (n : ENode) (x : ℚ) :
    distGet (distSet dist n x) n = some x := by
  induction dist with
  | nil => simp [distSet, distGet, List.lookup]
  | cons kv rest ih =>
    obtain ⟨k, v⟩ := kv
    by_cases h : k = n
    · subst h
      simp [distSet, distGet, List.lookup]
    · simp only [distSet, if_neg h, distGet, List.lookup]
      rw [show (n == k) = false from beq_eq_false_iff_ne.mpr (Ne.symm h)]
      exact ih

theorem distGet_distSet_ne (dist : DistMap) (n m : ENode) (x : ℚ)
    (h : m ≠ n) : distGet (distSet dist n x) m = distGet dist m := by
  induction dist with
  | nil =>
    simp only [distSet, distGet, List.lookup]
    rw [show (m == n) = false from beq_eq_false_iff_ne.mpr h]
  | cons kv rest ih =>
    obtain ⟨k, v⟩ := kv
    by_cases h2 : k = n
    · subst h2
      simp only [distSet, if_pos rfl, distGet, List.lookup]
      rw [show (m == k) = false from beq_eq_false_iff_ne.mpr h]
    · simp only [distSet, if_neg h2]
      by_cases h3 : m = k
      · subst h3
        simp [distGet, List.lookup]
      · simp only [distGet, List.lookup]
        rw [show (m == k) = false from beq_eq_false_iff_ne.mpr h3]
        exact ih

theorem reaches_trans (G : Adj) (a b c : ENode) (w1 w2 : ℚ)
    (h1 : Reaches G a b w1) (h2 : Reaches G b c w2) :
    Reaches G a c (w1 + w2) := by
  induction h1 with
  | refl n => simpa using h2
  | step a c2 w e he tail ih =>
    have := Reaches.step a c (w + w2) e he (ih h2)
    simpa [add_assoc] using this

theorem reaches_single (G : Adj) (a : ENode) (e : AdjEntry)
    (he : e ∈ adjGet G a) : Reaches G a e.dst e.w := by
  have := Reaches.step a e.dst 0 e he (Reaches.refl e.dst)
  simpa using this

theorem nonneg_adjGet (G : Adj) (hnn : NonnegWeights G) (n : ENode) :
    ∀ e ∈ adjGet G n, 0 ≤ e.w := by
  intro e he
  unfold adjGet at he
  cases hl : List.lookup n G with
  | none => rw [hl] at he; simp at he
  | some es =>
    rw [hl] at he
    simp only [Option.getD_some] at he
    exact hnn (n, es) (lookup_mem G n es hl) e he

theorem relax_fold (d : ℚ) :
    ∀ (entries : List AdjEntry) (dist : DistMap) (pqr : List (ℚ × ENode)),
      (∀ pr ∈ pqr, ∃ v, distGet dist pr.2 = some v ∧ v ≤ pr.1) →
      (∀ n, ((pqr.filter (fun pr => pr.2 = n)).map Prod.fst).Nodup) →
      RelaxOut d entries dist pqr (entries.foldl (relaxStep d) (dist, pqr)) := by
  intro entries
  induction entries with
  | nil =>
    intro dist pqr hstale hdis
    refine ⟨?_, ?_, ?_, ?_, ?_, ?_, ?_, ?_, ?_⟩
    · intro n v h; exact ⟨v, h, le_refl v⟩
    · intro n v2 h; exact Or.inl h
    · intro pr hpr; exact Or.inl hpr
    · exact hstale
    · intro e he; simp at he
    · exact hdis
    · simp
    · intro pr hpr; exact hpr
    · intro n v h _; exact ⟨h, fun pr hpr _ => hpr⟩
  | cons e rest ih =>
    intro dist pqr hstale hdis
    simp only [List.foldl_cons]
    by_cases hpush : ltDist (d + e.w) (distGet dist e.dst) = true
    · -- the head entry improves its destination: update and push
      have hstep : relaxStep d (dist, pqr) e =
          (distSet dist e.dst (d + e.w), pqr ++ [(d + e.w, e.dst)]) := by
        unfold relaxStep
        rw [if_pos hpush]
      rw [hstep]
      set dist' := distSet dist e.dst (d + e.w) with hdist'
      set pqr' := pqr ++ [(d + e.w, e.dst)] with hpqr'
      have hget_self : distGet dist' e.dst = some (d + e.w) :=
        distGet_distSet_self dist e.dst (d + e.w)
      have hget_ne : ∀ n, n ≠ e.dst → distGet dist' n = distGet dist n :=
        fun n hn => distGet_distSet_ne dist e.dst n (d + e.w) hn
      have hlt : ∀ u, distGet dist e.dst = some u → d + e.w < u := by
        intro u hu
        unfold ltDist at hpush
        rw [hu] at hpush
        simpa using hpush
      have hstale' : ∀ pr ∈ pqr', ∃ v, distGet dist' pr.2 = some v ∧ v ≤ pr.1 := by
        intro pr hpr
        rcases List.mem_append.mp hpr with h1 | h2
        · obtain ⟨v, hv, hvle⟩ := hstale pr h1
          by_cases hn : pr.2 = e.dst
          · rw [hn] at hv ⊢
            refine ⟨d + e.w, hget_self, ?_⟩
            exact ((hlt v hv).le).trans hvle
          · exact ⟨v, (hget_ne pr.2 hn).symm ▸ hv, hvle⟩
        · simp only [List.mem_singleton] at h2
          subst h2
          exact ⟨d + e.w, hget_self, le_refl _⟩
      have hdis' : ∀ n, ((pqr'.filter (fun pr => pr.2 = n)).map Prod.fst).Nodup := by
        intro n
        rw [hpqr', List.filter_append]
        by_cases hn : e.dst = n
        · subst hn
          rw [show (([(d + e.w, e.dst)] : List (ℚ × ENode)).filter
              (fun pr => pr.2 = e.dst)) = [(d + e.w, e.dst)] by simp]
          rw [List.map_append]
          simp only [List.map_cons, List.map_nil]
          refine List.Nodup.append (hdis e.dst) (List.nodup_singleton _) ?_
          intro x hx hx2
          simp only [List.mem_singleton] at hx2
          subst hx2
          obtain ⟨pr, hpr, hpr2⟩ := List.mem_map.mp hx
          have hprm := List.mem_filter.mp hpr
          have hdst : pr.2 = e.dst := by simpa using hprm.2
          obtain ⟨v, hv, hvle⟩ := hstale pr hprm.1
          rw [hdst] at hv
          have := hlt v hv
          rw [hpr2] at hvle
          linarith
        · rw [show (([(d + e.w, e.dst)] : List (ℚ × ENode)).filter
              (fun pr => pr.2 = n)) = [] by simp [hn]]
          simpa using hdis n
      have IH := ih dist' pqr' hstale' hdis'
      set st2 := rest.foldl (relaxStep d) (dist', pqr') with hst2
      refine ⟨?_, ?_, ?_, IH.stale2, ?_, IH.distinct2, ?_, ?_, ?_⟩
      · intro n v h
        by_cases hn : n = e.dst
        · subst hn
          obtain ⟨v2, hv2, hle⟩ := IH.mono e.dst (d + e.w) hget_self
          exact ⟨v2, hv2, hle.trans (hlt v h).le⟩
        · obtain ⟨v2, hv2, hle⟩ := IH.mono n v ((hget_ne n hn).symm ▸ h)
          exact ⟨v2, hv2, hle⟩
      · intro n v2 h
        rcases IH.prov n v2 h with h1 | ⟨hmem, e2, he2, hdst, hval⟩
        · by_cases hn : n = e.dst
          · subst hn
            rw [hget_self] at h1
            injection h1 with h1e
            refine Or.inr ⟨?_, e, List.mem_cons_self _ _, rfl, h1e.symm⟩
            subst h1e
            exact IH.sub _ (List.mem_append.mpr (Or.inr (List.mem_singleton.mpr rfl)))
          · rw [hget_ne n hn] at h1
            exact Or.inl h1
        · exact Or.inr ⟨hmem, e2, List.mem_cons_of_mem _ he2, hdst, hval⟩
      · intro pr hpr
        rcases IH.pqprov pr hpr with h1 | ⟨e2, he2, hval⟩
        · rcases List.mem_append.mp h1 with h2 | h3
          · exact Or.inl h2
          · simp only [List.mem_singleton] at h3
            exact Or.inr ⟨e, List.mem_cons_self _ _, h3⟩
        · exact Or.inr ⟨e2, List.mem_cons_of_mem _ he2, hval⟩
      · intro e2 he2
        rcases List.mem_cons.mp he2 with rfl | h2
        · obtain ⟨v2, hv2, hle⟩ := IH.mono e2.dst (d + e2.w) hget_self
          exact ⟨v2, hv2, hle⟩
        · exact IH.processed e2 h2
      · have := IH.len2
        rw [hpqr'] at this
        simp only [List.length_append, List.length_singleton, List.length_cons,
          List.length_nil] at this ⊢
        omega
      · intro pr hpr
        exact IH.sub pr (List.mem_append.mpr (Or.inl hpr))
      · intro n v h hbound
        by_cases hn : n = e.dst
        · exfalso
          subst hn
          have h1 := hlt v h
          have h2 := hbound e (List.mem_cons_self _ _) rfl
          linarith
        · have hstay := IH.lowstay n v ((hget_ne n hn).symm ▸ h)
            (fun e2 he2 hd2 => hbound e2 (List.mem_cons_of_mem _ he2) hd2)
          refine ⟨hstay.1, ?_⟩
          intro pr hpr hprn
          rcases List.mem_append.mp (hstay.2 pr hpr hprn) with h1 | h2
          · exact h1
          · simp only [List.mem_singleton] at h2
            subst h2
            simp at hprn
            exact absurd hprn.symm hn
    · -- no improvement: the state is unchanged by this entry
      have hstep : relaxStep d (dist, pqr) e = (dist, pqr) := by
        unfold relaxStep
        rw [if_neg hpush]
      rw [hstep]
      have IH := ih dist pqr hstale hdis
      have hnolt : ∃ u, distGet dist e.dst = some u ∧ u ≤ d + e.w := by
        unfold ltDist at hpush
        cases hu : distGet dist e.dst with
        | none => rw [hu] at hpush; simp at hpush
        | some u =>
          rw [hu] at hpush
          simp only [decide_eq_true_eq] at hpush
          exact ⟨u, rfl, le_of_not_lt (by simpa using hpush)⟩
      refine ⟨IH.mono, ?_, ?_, IH.stale2, ?_, IH.distinct2, ?_, IH.sub, ?_⟩
      · intro n v2 h
        rcases IH.prov n v2 h with h1 | ⟨hmem, e2, he2, hdst, hval⟩
        · exact Or.inl h1
        · exact Or.inr ⟨hmem, e2, List.mem_cons_of_mem _ he2, hdst, hval⟩
      · intro pr hpr
        rcases IH.pqprov pr hpr with h1 | ⟨e2, he2, hval⟩
        · exact Or.inl h1
        · exact Or.inr ⟨e2, List.mem_cons_of_mem _ he2, hval⟩
      · intro e2 he2
        rcases List.mem_cons.mp he2 with rfl | h2
        · obtain ⟨u, hu, hule⟩ := hnolt
          obtain ⟨v2, hv2, hle⟩ := IH.mono e2.dst u hu
          exact ⟨v2, hv2, hle.trans hule⟩
        · exact IH.processed e2 h2
      · have := IH.len2
        simp only [List.length_cons] at this ⊢
        omega
      · intro n v h hbound
        exact IH.lowstay n v h
          (fun e2 he2 hd2 => hbound e2 (List.mem_cons_of_mem _ he2) hd2)

theorem reaches_snoc {G : Adj} {a b : ENode} {w : ℚ} (h : Reaches G a b w)
    (e : AdjEntry) (he : e ∈ adjGet G b) : Reaches G a e.dst (w + e.w) := by
  induction h with
  | refl n => simpa using Reaches.step n e.dst 0 e he (Reaches.refl e.dst)
  | step a c w2 e2 he2 tail ih =>
    have := Reaches.step a e.dst (w2 + e.w) e2 he2 (ih he)
    simpa [add_assoc] using this

theorem mem_of_perm_cons {pq rest : List (ℚ × ENode)} {m pr : ℚ × ENode}
    (hperm : pq.Perm (m :: rest)) (hpr : pr ∈ rest) : pr ∈ pq :=
  (hperm.mem_iff).mpr (List.mem_cons_of_mem _ hpr)

theorem distinct_of_perm_cons {pq rest : List (ℚ × ENode)} {m : ℚ × ENode}
    (hperm : pq.Perm (m :: rest))
    (hd : ∀ n, ((pq.filter (fun pr => pr.2 = n)).map Prod.fst).Nodup) :
    ∀ n, ((rest.filter (fun pr => pr.2 = n)).map Prod.fst).Nodup := by
  intro n
  have h1 : (pq.filter (fun pr => pr.2 = n)).Perm
      ((m :: rest).filter (fun pr => pr.2 = n)) := hperm.filter _
  have h2 : ((pq.filter (fun pr => pr.2 = n)).map Prod.fst).Perm
      (((m :: rest).filter (fun pr => pr.2 = n)).map Prod.fst) := h1.map _
  have h3 : (((m :: rest).filter (fun pr => pr.2 = n)).map Prod.fst).Nodup :=
    (h2.nodup_iff).mp (hd n)
  have hsub : (rest.filter (fun pr => pr.2 = n)).Sublist
      ((m :: rest).filter (fun pr => pr.2 = n)) := by
    rw [List.filter_cons]
    split
    · exact List.sublist_cons_self _ _
    · exact List.Sublist.refl _
  exact h3.sublist (hsub.map Prod.fst)

/-- Invariant preservation: popping a stale entry leaves the invariant. -/
theorem dijkInv_stale {G : Adj} {targets : List ENode} {dist : DistMap}
    {pq rest : List (ℚ × ENode)} {d : ℚ} {node : ENode}
    (inv : DijkInv G targets dist pq)
    (hpop : popMin pq = some ((d, node), rest))
    (hgt : gtDist d (distGet dist node) = true) :
    DijkInv G targets dist rest := by
  have hperm := popMin_perm pq ((d, node)) rest hpop
  refine ⟨inv.sound, inv.seeds, ?_, ?_, distinct_of_perm_cons hperm inv.distinct⟩
  · intro n v h
    rcases inv.current_or_settled n v h with hcur | ⟨hsett, hlow⟩
    · rcases List.mem_cons.mp (hperm.mem_iff.mp hcur) with heq | hr
      · exfalso
        have hn : n = node := congrArg Prod.snd heq
        have hv : v = d := congrArg Prod.fst heq
        subst hn
        rw [h] at hgt
        unfold gtDist at hgt
        simp only [decide_eq_true_eq] at hgt
        rw [hv] at hgt
        exact lt_irrefl d hgt
      · exact Or.inl hr
    · exact Or.inr ⟨hsett, fun pr hpr => hlow pr (mem_of_perm_cons hperm hpr)⟩
  · intro pr hpr
    exact inv.stale_ge pr (mem_of_perm_cons hperm hpr)

/-- Invariant preservation: popping a non-stale minimum entry and relaxing
all of its outgoing entries restores the invariant. -/
theorem dijkInv_relax {G : Adj} {targets : List ENode} {dist : DistMap}
    {pq rest : List (ℚ × ENode)} {d : ℚ} {node : ENode}
    (hnn : NonnegWeights G)
    (inv : DijkInv G targets dist pq)
    (hpop : popMin pq = some ((d, node), rest))
    (hgt : gtDist d (distGet dist node) = false) :
    DijkInv G targets
      ((adjGet G node).foldl (relaxStep d) (dist, rest)).1
      ((adjGet G node).foldl (relaxStep d) (dist, rest)).2 := by
  have hperm := popMin_perm pq ((d, node)) rest hpop
  have hmempq : (d, node) ∈ pq := hperm.mem_iff.mpr (List.mem_cons_self _ _)
  have hmin : ∀ pr ∈ pq, d ≤ pr.1 := popMin_min pq ((d, node)) rest hpop
  -- the popped entry is exact: dist node = some d
  have hnode : distGet dist node = some d := by
    obtain ⟨v, hv, hvle⟩ := inv.stale_ge (d, node) hmempq
    rw [hv]
    unfold gtDist at hgt
    rw [hv] at hgt
    simp only [decide_eq_true_eq] at hgt
    have : d ≤ v := le_of_not_lt (by simpa using hgt)
    have hveq : v = d := le_antisymm hvle this
    rw [hveq]
  have hwnn : ∀ e ∈ adjGet G node, 0 ≤ e.w := nonneg_adjGet G hnn node
  have hstale_rest : ∀ pr ∈ rest, ∃ v, distGet dist pr.2 = some v ∧ v ≤ pr.1 :=
    fun pr hpr => inv.stale_ge pr (mem_of_perm_cons hperm hpr)
  have hdis_rest := distinct_of_perm_cons hperm inv.distinct
  have RO := relax_fold d (adjGet G node) dist rest hstale_rest hdis_rest
  set st2 := (adjGet G node).foldl (relaxStep d) (dist, rest) with hst2
  refine ⟨?_, ?_, ?_, RO.stale2, RO.distinct2⟩
  · -- soundness of values
    intro n v2 h
    rcases RO.prov n v2 h with hold | ⟨hmem, e, he, hdst, hval⟩
    · exact inv.sound n v2 hold
    · obtain ⟨t, ht, hpath⟩ := inv.sound node d hnode
      refine ⟨t, ht, ?_⟩
      rw [hval, ← hdst]
      simpa [add_comm] using reaches_snoc hpath e he
  · -- seeds keep a nonpositive value
    intro t ht
    obtain ⟨v, hv, hvle⟩ := inv.seeds t ht
    obtain ⟨v2, hv2, hle⟩ := RO.mono t v hv
    exact ⟨v2, hv2, hle.trans hvle⟩
  · -- every assigned node is current or settled
    intro n v2 h
    rcases RO.prov n v2 h with hold | ⟨hmem, e, he, hdst, hval⟩
    · by_cases hn : n = node
      · -- the popped node itself becomes settled at value d
        subst hn
        have hv2d : v2 = d := Option.some.inj (hold.symm.trans hnode)
        subst hv2d
        refine Or.inr ⟨?_, ?_⟩
        · intro e2 he2
          exact RO.processed e2 he2
        · intro pr hpr
          rcases RO.pqprov pr hpr with h1 | ⟨e2, he2, hval2⟩
          · exact hmin pr (mem_of_perm_cons hperm h1)
          · rw [hval2]
            have := hwnn e2 he2
            simp only
            linarith
      · rcases inv.current_or_settled n v2 hold with hcur | ⟨hsett, hlow⟩
        · -- still queued
          rcases List.mem_cons.mp (hperm.mem_iff.mp hcur) with heq | hr
          · exact absurd (congrArg Prod.snd heq) hn
          · exact Or.inl (RO.sub _ hr)
        · -- settled stays settled
          refine Or.inr ⟨?_, ?_⟩
          · intro e2 he2
            obtain ⟨u, hu, hule⟩ := hsett e2 he2
            obtain ⟨u2, hu2, hle⟩ := RO.mono e2.dst u hu
            exact ⟨u2, hu2, hle.trans hule⟩
          · intro pr hpr
            rcases RO.pqprov pr hpr with h1 | ⟨e2, he2, hval2⟩
            · exact hlow pr (mem_of_perm_cons hperm h1)
            · rw [hval2]
              have h2 := hwnn e2 he2
              have h3 : v2 ≤ d := hlow (d, node) hmempq
              simp only
              linarith
    · exact Or.inl hmem

theorem filter_length_mono {α : Type} (l : List α) (p q : α → Bool)
    (h : ∀ x ∈ l, q x = true → p x = true) :
    (l.filter q).length ≤ (l.filter p).length := by
  induction l with
  | nil => simp
  | cons a as ih =>
    have ih2 := ih (fun x hx => h x (List.mem_cons_of_mem _ hx))
    rw [List.filter_cons, List.filter_cons]
    by_cases hq : q a = true
    · rw [if_pos hq, if_pos (h a (List.mem_cons_self _ _) hq)]
      simpa using ih2
    · rw [if_neg hq]
      by_cases hp : p a = true
      · rw [if_pos hp]
        exact ih2.trans (Nat.le_succ _)
      · rw [if_neg hp]
        exact ih2

theorem filter_length_strict {α : Type} (l : List α) (p q : α → Bool)
    (h : ∀ x ∈ l, q x = true → p x = true)
    (x0 : α) (hx0 : x0 ∈ l) (hp0 : p x0 = true) (hq0 : q x0 = false) :
    (l.filter q).length < (l.filter p).length := by
  induction l with
  | nil => simp at hx0
  | cons a as ih =>
    have hmono := filter_length_mono as p q
      (fun x hx => h x (List.mem_cons_of_mem _ hx))
    rw [List.filter_cons, List.filter_cons]
    rcases List.mem_cons.mp hx0 with rfl | hmem
    · rw [if_pos hp0, if_neg (by rw [hq0]; exact Bool.false_ne_true)]
      simpa using Nat.lt_succ_of_le hmono
    · have ih2 := ih (fun x hx => h x (List.mem_cons_of_mem _ hx)) hmem
      by_cases hq : q a = true
      · rw [if_pos hq, if_pos (h a (List.mem_cons_self _ _) hq)]
        simpa using ih2
      · rw [if_neg hq]
        by_cases hp : p a = true
        · rw [if_pos hp]
          exact ih2.trans (Nat.lt_succ_of_le (le_refl _))
        · rw [if_neg hp]
          exact ih2

theorem mem_of_lookup {G : Adj} {n : ENode} {es : List AdjEntry}
    (h : List.lookup n G = some es) : (n, es) ∈ G := by
  induction G with
  | nil => simp [List.lookup] at h
  | cons kv rest ih =>
    rw [List.lookup] at h
    by_cases hk : n = kv.1
    · rw [show (n == kv.1) = true from beq_iff_eq.mpr hk] at h
      simp only [Option.some.injEq] at h
      subst hk
      rw [← h]
      exact List.mem_cons_self _ _
    · rw [show (n == kv.1) = false from beq_eq_false_iff_ne.mpr hk] at h
      exact List.mem_cons_of_mem _ (ih h)

theorem adjGet_length_le_maxDeg {G : Adj} {n : ENode} {es : List AdjEntry}
    (h : List.lookup n G = some es) : es.length ≤ maxDeg G := by
  have hmem : (n, es) ∈ G := mem_of_lookup h
  have : es.length ∈ G.map fun kv => kv.2.length :=
    List.mem_map.mpr ⟨(n, es), hmem, rfl⟩
  exact le_foldr_max _ _ this

theorem doneB_antitone {dist : DistMap} {pq pq2 : List (ℚ × ENode)} {n : ENode}
    (hsub : ∀ pr ∈ pq2, pr ∈ pq) (h : doneB dist pq n = true) :
    doneB dist pq2 n = true := by
  unfold doneB at h ⊢
  simp only [Bool.and_eq_true, Bool.not_eq_true', List.any_eq_false] at h ⊢
  exact ⟨h.1, fun pr hpr => h.2 pr (hsub pr hpr)⟩

theorem doneB_eq_true_iff (dist : DistMap) (pq : List (ℚ × ENode)) (n : ENode) :
    doneB dist pq n = true ↔
      (∃ v, distGet dist n = some v) ∧
        ∀ pr ∈ pq, pr.2 = n → distGet dist n = some pr.1 → False := by
  unfold doneB
  simp only [Bool.and_eq_true, Bool.not_eq_true', List.any_eq_false,
    Option.isSome_iff_exists, decide_eq_true_eq, not_and]

theorem dijkMeasure_stale {G : Adj} {dist : DistMap}
    {pq rest : List (ℚ × ENode)} {d : ℚ} {node : ENode}
    (hpop : popMin pq = some ((d, node), rest)) :
    dijkMeasure G dist rest < dijkMeasure G dist pq := by
  have hperm := popMin_perm pq ((d, node)) rest hpop
  have hlen : pq.length = rest.length + 1 := by
    have := hperm.length_eq
    simpa using this
  have hk : (G.filter (fun kv => !(doneB dist rest kv.1))).length ≤
      (G.filter (fun kv => !(doneB dist pq kv.1))).length := by
    refine filter_length_mono G _ _ ?_
    intro kv _ hq
    simp only [Bool.not_eq_true'] at hq ⊢
    by_contra hc
    rw [Bool.not_eq_false] at hc
    have := doneB_antitone (fun pr hpr => mem_of_perm_cons hperm hpr) hc
    rw [hq] at this
    exact Bool.false_ne_true this
  unfold dijkMeasure
  have := Nat.mul_le_mul_left (maxDeg G + 1) hk
  omega

theorem dijkMeasure_relax {G : Adj} {targets : List ENode} {dist : DistMap}
    {pq rest : List (ℚ × ENode)} {d : ℚ} {node : ENode}
    (hnn : NonnegWeights G)
    (inv : DijkInv G targets dist pq)
    (hpop : popMin pq = some ((d, node), rest))
    (hgt : gtDist d (distGet dist node) = false) :
    dijkMeasure G ((adjGet G node).foldl (relaxStep d) (dist, rest)).1
      ((adjGet G node).foldl (relaxStep d) (dist, rest)).2 <
      dijkMeasure G dist pq := by
  have hperm := popMin_perm pq ((d, node)) rest hpop
  have hmempq : (d, node) ∈ pq := hperm.mem_iff.mpr (List.mem_cons_self _ _)
  have hmin : ∀ pr ∈ pq, d ≤ pr.1 := popMin_min pq ((d, node)) rest hpop
  have hnode : distGet dist node = some d := by
    obtain ⟨v, hv, hvle⟩ := inv.stale_ge (d, node) hmempq
    rw [hv]
    unfold gtDist at hgt
    rw [hv] at hgt
    simp only [decide_eq_true_eq] at hgt
    have : d ≤ v := le_of_not_lt (by simpa using hgt)
    rw [le_antisymm hvle this]
  have hwnn : ∀ e ∈ adjGet G node, 0 ≤ e.w := nonneg_adjGet G hnn node
  have hstale_rest : ∀ pr ∈ rest, ∃ v, distGet dist pr.2 = some v ∧ v ≤ pr.1 :=
    fun pr hpr => inv.stale_ge pr (mem_of_perm_cons hperm hpr)
  have hdis_rest := distinct_of_perm_cons hperm inv.distinct
  have RO := relax_fold d (adjGet G node) dist rest hstale_rest hdis_rest
  set st2 := (adjGet G node).foldl (relaxStep d) (dist, rest) with hst2
  have hlen : pq.length = rest.length + 1 := by
    have := hperm.length_eq
    simpa using this
  -- a node done before stays done after the relaxation pass
  have hdone_mono : ∀ n, doneB dist pq n = true → doneB st2.1 st2.2 n = true := by
    intro n hdn
    rw [doneB_eq_true_iff] at hdn
    obtain ⟨⟨v, hv⟩, hnoq⟩ := hdn
    -- a done node cannot be current, so it is settled low
    have hsett : SettledAt G dist n v ∧ ∀ pr ∈ pq, v ≤ pr.1 := by
      rcases inv.current_or_settled n v hv with hcur | h
      · exact absurd hv (fun hc => hnoq (v, n) hcur rfl hc)
      · exact h
    have hvd : v ≤ d := hsett.2 (d, node) hmempq
    have hstay := RO.lowstay n v hv ?_
    · rw [doneB_eq_true_iff]
      refine ⟨⟨v, hstay.1⟩, ?_⟩
      intro pr hpr hpn hpv
      have hrest := hstay.2 pr hpr hpn
      have hpq : pr ∈ pq := mem_of_perm_cons hperm hrest
      have hveq : pr.1 = v := by
        rw [hstay.1] at hpv
        exact (Option.some.inj hpv).symm
      exact hnoq pr hpq hpn (hveq ▸ hv)
    · intro e he hdst
      have := hwnn e he
      linarith
  -- the popped node was not done before and is done after
  have hnode_notdone : doneB dist pq node = false := by
    rw [Bool.eq_false_iff]
    intro hc
    rw [doneB_eq_true_iff] at hc
    exact hc.2 (d, node) hmempq rfl hnode
  have hnode_low : ∀ e ∈ adjGet G node, e.dst = node → d ≤ d + e.w := by
    intro e he _
    have := hwnn e he
    linarith
  have hnode_stay := RO.lowstay node d hnode hnode_low
  have hnode_done : doneB st2.1 st2.2 node = true := by
    rw [doneB_eq_true_iff]
    refine ⟨⟨d, hnode_stay.1⟩, ?_⟩
    intro pr hpr hpn hpv
    have hrest := hnode_stay.2 pr hpr hpn
    have hprd : pr.1 = d := by
      rw [hnode_stay.1] at hpv
      exact (Option.some.inj hpv).symm
    -- two queue entries for node with value d would violate distinctness
    have hdis := inv.distinct node
    have hfilt : (pq.filter (fun pr => pr.2 = node)).Perm
        (((d, node) :: rest).filter (fun pr => pr.2 = node)) := hperm.filter _
    have hfilt2 : (((d, node) :: rest).filter (fun pr => pr.2 = node)) =
        (d, node) :: rest.filter (fun pr => pr.2 = node) := by
      rw [List.filter_cons]
      simp
    have hnd : (((d, node) :: rest.filter (fun pr => pr.2 = node)).map
        Prod.fst).Nodup := by
      rw [← hfilt2]
      exact ((hfilt.map Prod.fst).nodup_iff).mp hdis
    simp only [List.map_cons, List.nodup_cons] at hnd
    refine hnd.1 ?_
    refine List.mem_map.mpr ⟨pr, ?_, hprd⟩
    exact List.mem_filter.mpr ⟨hrest, by simp [hpn]⟩
  -- count the not-done keys
  have hk : (G.filter (fun kv => !(doneB st2.1 st2.2 kv.1))).length ≤
      (G.filter (fun kv => !(doneB dist pq kv.1))).length := by
    refine filter_length_mono G _ _ ?_
    intro kv _ hq
    simp only [Bool.not_eq_true'] at hq ⊢
    by_contra hc
    rw [Bool.not_eq_false] at hc
    have := hdone_mono kv.1 hc
    rw [hq] at this
    exact Bool.false_ne_true this
  cases hlook : List.lookup node G with
  | none =>
    -- no outgoing entries: the fold is the identity
    have hget : adjGet G node = [] := by
      unfold adjGet
      rw [hlook]
      rfl
    have hid : st2 = (dist, rest) := by
      rw [hst2, hget]
      rfl
    rw [hid]
    show dijkMeasure G dist rest < dijkMeasure G dist pq
    unfold dijkMeasure
    have hk2 : (G.filter (fun kv => !(doneB dist rest kv.1))).length ≤
        (G.filter (fun kv => !(doneB dist pq kv.1))).length := by
      refine filter_length_mono G _ _ ?_
      intro kv _ hq
      simp only [Bool.not_eq_true'] at hq ⊢
      by_contra hc
      rw [Bool.not_eq_false] at hc
      have := doneB_antitone (fun pr hpr => mem_of_perm_cons hperm hpr) hc
      rw [hq] at this
      exact Bool.false_ne_true this
    have := Nat.mul_le_mul_left (maxDeg G + 1) hk2
    omega
  | some es =>
    -- node is a key: it flips from not-done to done, paying for the pushes
    have hkey : (node, es) ∈ G := mem_of_lookup hlook
    have hdeg : es.length ≤ maxDeg G := adjGet_length_le_maxDeg hlook
    have hget : adjGet G node = es := by
      unfold adjGet
      rw [hlook]
      rfl
    have hkstrict : (G.filter (fun kv => !(doneB st2.1 st2.2 kv.1))).length <
        (G.filter (fun kv => !(doneB dist pq kv.1))).length := by
      refine filter_length_strict G _ _ ?_ (node, es) hkey ?_ ?_
      · intro kv _ hq
        simp only [Bool.not_eq_true'] at hq ⊢
        by_contra hc
        rw [Bool.not_eq_false] at hc
        have := hdone_mono kv.1 hc
        rw [hq] at this
        exact Bool.false_ne_true this
      · simp [hnode_notdone]
      · simp [hnode_done]
    have hlen2 : st2.2.length ≤ rest.length + es.length := by
      have := RO.len2
      rw [hget] at this
      exact this
    unfold dijkMeasure
    have hmul : (maxDeg G + 1) *
        (G.filter (fun kv => !(doneB st2.1 st2.2 kv.1))).length + (maxDeg G + 1) ≤
        (maxDeg G + 1) * (G.filter (fun kv => !(doneB dist pq kv.1))).length := by
      have : (G.filter (fun kv => !(doneB st2.1 st2.2 kv.1))).length + 1 ≤
          (G.filter (fun kv => !(doneB dist pq kv.1))).length := hkstrict
      calc (maxDeg G + 1) *
          (G.filter (fun kv => !(doneB st2.1 st2.2 kv.1))).length + (maxDeg G + 1)
          = (maxDeg G + 1) *
            ((G.filter (fun kv => !(doneB st2.1 st2.2 kv.1))).length + 1) := by ring
        _ ≤ (maxDeg G + 1) *
            (G.filter (fun kv => !(doneB dist pq kv.1))).length :=
          Nat.mul_le_mul_left _ this
    omega

/-- Running the Dijkstra loop with enough fuel empties the queue while
maintaining the invariant. -/
theorem dijkstraAux_inv (G : Adj) (targets : List ENode)
    (hnn : NonnegWeights G) :
    ∀ (fuel : Nat) (dist : DistMap) (pq : List (ℚ × ENode)),
      DijkInv G targets dist pq → dijkMeasure G dist pq < fuel →
      DijkInv G targets (dijkstraAux G fuel dist pq) [] := by
  intro fuel
  induction fuel with
  | zero => intro dist pq _ hm; omega
  | succ fuel ih =>
    intro dist pq inv hm
    cases hpop : popMin pq with
    | none =>
      have hpq : pq = [] := (popMin_eq_none pq).mp hpop
      subst hpq
      have hres : dijkstraAux G (fuel + 1) dist [] = dist := by
        rw [dijkstraAux]
        rfl
      rw [hres]
      exact inv
    | some pr =>
      obtain ⟨⟨d, node⟩, rest⟩ := pr
      by_cases hgt : gtDist d (distGet dist node) = true
      · have hstep : dijkstraAux G (fuel + 1) dist pq =
            dijkstraAux G fuel dist rest := by
          rw [dijkstraAux, hpop]
          dsimp only
          rw [if_pos hgt]
        rw [hstep]
        exact ih dist rest (dijkInv_stale inv hpop hgt)
          (lt_of_lt_of_le (dijkMeasure_stale hpop) (Nat.lt_succ_iff.mp hm))
      · rw [Bool.not_eq_true] at hgt
        have hstep : dijkstraAux G (fuel + 1) dist pq =
            dijkstraAux G fuel
              ((adjGet G node).foldl (relaxStep d) (dist, rest)).1
              ((adjGet G node).foldl (relaxStep d) (dist, rest)).2 := by
          rw [dijkstraAux, hpop]
          dsimp only
          rw [if_neg (by rw [hgt]; exact Bool.false_ne_true)]
        rw [hstep]
        exact ih _ _ (dijkInv_relax hnn inv hpop hgt)
          (lt_of_lt_of_le (dijkMeasure_relax hnn inv hpop hgt)
            (Nat.lt_succ_iff.mp hm))

theorem distGet_seed (targets : List ENode) :
    ∀ (acc : DistMap) (n : ENode),
      distGet (targets.foldl (fun dist t => distSet dist t 0) acc) n =
        if n ∈ targets then some 0 else distGet acc n := by
  induction targets with
  | nil => intro acc n; simp
  | cons t ts ih =>
    intro acc n
    rw [List.foldl_cons, ih]
    by_cases hts : n ∈ ts
    · rw [if_pos hts, if_pos (List.mem_cons_of_mem _ hts)]
    · rw [if_neg hts]
      by_cases ht : n = t
      · subst ht
        rw [distGet_distSet_self, if_pos (List.mem_cons_self _ _)]
      · rw [distGet_distSet_ne acc t n 0 ht,
          if_neg (by simp [ht, hts])]

theorem nodup_of_length_le_one {α : Type} (l : List α) (h : l.length ≤ 1) :
    l.Nodup := by
  cases l with
  | nil => exact List.nodup_nil
  | cons a as =>
    simp only [List.length_cons] at h
    have : as = [] := List.eq_nil_of_length_eq_zero (by omega)
    subst this
    exact List.nodup_singleton a

theorem filter_eq_length_le_one {α : Type} [DecidableEq α] (l : List α)
    (hnd : l.Nodup) (x : α) :
    (l.filter (fun a => a = x)).length ≤ 1 := by
  induction l with
  | nil => simp
  | cons a as ih =>
    simp only [List.nodup_cons] at hnd
    rw [List.filter_cons]
    by_cases ha : a = x
    · rw [if_pos (by simp [ha])]
      subst ha
      have : as.filter (fun b => b = a) = [] := by
        rw [List.filter_eq_nil_iff]
        intro b hb
        simp only [decide_eq_true_eq]
        intro hc
        exact hnd.1 (hc ▸ hb)
      rw [this]
      simp
    · rw [if_neg (by simp [ha])]
      exact ih hnd.2

theorem seedq_filter (targets : List ENode) (n : ENode) :
    (((targets.map (fun t => ((0:ℚ), t))).filter
        (fun pr => pr.2 = n)).map Prod.fst) =
      (targets.filter (fun t => t = n)).map (fun _ => (0:ℚ)) := by
  induction targets with
  | nil => rfl
  | cons t ts ih =>
    simp only [List.map_cons, List.filter_cons]
    by_cases ht : t = n
    · rw [if_pos (by simp [ht]), if_pos (by simp [ht])]
      simp only [List.map_cons]
      rw [ih]
    · rw [if_neg (by simp [ht]), if_neg (by simp [ht])]
      exact ih

/-- The seeded state satisfies the loop invariant. -/
theorem dijkInv_init (G : Adj) (targets : List ENode) (hnd : targets.Nodup) :
    DijkInv G targets (targets.foldl (fun dist t => distSet dist t 0) [])
      (targets.map (fun t => ((0:ℚ), t))) := by
  have hseed : ∀ n, distGet (targets.foldl (fun dist t => distSet dist t 0) []) n =
      if n ∈ targets then some 0 else none := by
    intro n
    rw [distGet_seed]
    rfl
  refine ⟨?_, ?_, ?_, ?_, ?_⟩
  · intro n v h
    rw [hseed] at h
    by_cases hn : n ∈ targets
    · rw [if_pos hn] at h
      have hv : v = 0 := (Option.some.inj h).symm
      subst hv
      exact ⟨n, hn, Reaches.refl n⟩
    · rw [if_neg hn] at h
      exact absurd h (Option.noConfusion)
  · intro t ht
    refine ⟨0, ?_, le_refl 0⟩
    rw [hseed, if_pos ht]
  · intro n v h
    rw [hseed] at h
    by_cases hn : n ∈ targets
    · rw [if_pos hn] at h
      have hv : v = 0 := (Option.some.inj h).symm
      subst hv
      exact Or.inl (List.mem_map.mpr ⟨n, hn, rfl⟩)
    · rw [if_neg hn] at h
      exact absurd h (Option.noConfusion)
  · intro pr hpr
    obtain ⟨t, ht, hpt⟩ := List.mem_map.mp hpr
    refine ⟨0, ?_, ?_⟩
    · rw [← hpt]
      simp only
      rw [hseed, if_pos ht]
    · rw [← hpt]
  · intro n
    rw [seedq_filter]
    refine nodup_of_length_le_one _ ?_
    rw [List.length_map]
    exact filter_eq_length_le_one targets hnd n

/-- The fuel used by `dijkstra_multi_target` dominates the loop measure of
the seeded state. -/
theorem dijkstra_multi_target_inv (G : Adj) (targets : List ENode)
    (hnn : NonnegWeights G) (hnd : targets.Nodup) :
    DijkInv G targets (dijkstra_multi_target G targets) [] := by
  unfold dijkstra_multi_target
  refine dijkstraAux_inv G targets hnn _ _ _ (dijkInv_init G targets hnd) ?_
  unfold dijkMeasure dijkstraFuel
  have h1 : (targets.map (fun t => ((0:ℚ), t))).length = targets.length :=
    List.length_map _ _
  have h2 : (G.filter (fun kv =>
      !(doneB (targets.foldl (fun dist t => distSet dist t 0) [])
        (targets.map (fun t => ((0:ℚ), t))) kv.1))).length ≤ G.length :=
    List.length_filter_le _ _
  have h3 := Nat.mul_le_mul_left (maxDeg G + 1) h2
  omega

theorem reaches_nonneg {G : Adj} (hnn : NonnegWeights G) {a b : ENode} {w : ℚ}
    (h : Reaches G a b w) : 0 ≤ w := by
  induction h with
  | refl n => exact le_refl 0
  | step a c w2 e he tail ih =>
    have := nonneg_adjGet G hnn a e he
    linarith

theorem settled_chain {G : Adj} {dist : DistMap}
    (hsettle : ∀ n v, distGet dist n = some v → SettledAt G dist n v) :
    ∀ {a b : ENode} {w : ℚ}, Reaches G a b w →
      ∀ va, distGet dist a = some va →
        ∃ vb, distGet dist b = some vb ∧ vb ≤ va + w := by
  intro a b w h
  induction h with
  | refl n =>
    intro va hva
    exact ⟨va, hva, by linarith⟩
  | step a c w2 e he tail ih =>
    intro va hva
    obtain ⟨u, hu, hule⟩ := hsettle a va hva e he
    obtain ⟨vb, hvb, hvble⟩ := ih u hu
    exact ⟨vb, hvb, by linarith⟩

/-- Full correctness of `dijkstra_multi_target` on nonnegative weights:
the computed label of a node is exactly the least total weight of a path
from some seed target, and a node is unlabeled exactly when it is
unreachable from every target. -/
theorem dijkstra_correct (G : Adj) (targets : List ENode)
    (hnn : NonnegWeights G) (hnd : targets.Nodup) (n : ENode) :
    (∀ v, distGet (dijkstra_multi_target G targets) n = some v ↔
       IsLeast {w : ℚ | ∃ t ∈ targets, Reaches G t n w} v) ∧
    (distGet (dijkstra_multi_target G targets) n = none ↔
       ∀ t ∈ targets, ∀ w, ¬ Reaches G t n w) := by
  have inv := dijkstra_multi_target_inv G targets hnn hnd
  set dist := dijkstra_multi_target G targets with hdist
  have hsettle : ∀ m v, distGet dist m = some v → SettledAt G dist m v := by
    intro m v h
    rcases inv.current_or_settled m v h with hcur | hs
    · simp at hcur
    · exact hs.1
  have htarget0 : ∀ t ∈ targets, distGet dist t = some 0 := by
    intro t ht
    obtain ⟨v, hv, hvle⟩ := inv.seeds t ht
    obtain ⟨t2, _, hpath⟩ := inv.sound t v hv
    have h0 : 0 ≤ v := reaches_nonneg hnn hpath
    rw [hv, le_antisymm hvle h0]
  have hforward : ∀ v, distGet dist n = some v →
      IsLeast {w : ℚ | ∃ t ∈ targets, Reaches G t n w} v := by
    intro v h
    constructor
    · exact inv.sound n v h
    · intro w hw
      obtain ⟨t, ht, hpath⟩ := hw
      obtain ⟨vb, hvb, hvble⟩ := settled_chain hsettle hpath 0 (htarget0 t ht)
      have : vb = v := Option.some.inj (hvb.symm.trans h)
      linarith
  constructor
  · intro v
    constructor
    · exact hforward v
    · intro hleast
      obtain ⟨t, ht, hpath⟩ := hleast.1
      obtain ⟨vb, hvb, _⟩ := settled_chain hsettle hpath 0 (htarget0 t ht)
      have : vb = v := (hforward vb hvb).unique hleast
      rw [← this]
      exact hvb
  · constructor
    · intro h t ht w hpath
      obtain ⟨vb, hvb, _⟩ := settled_chain hsettle hpath 0 (htarget0 t ht)
      rw [h] at hvb
      exact Option.noConfusion hvb
    · intro h
      cases hv : distGet dist n with
      | none => rfl
      | some v =>
        obtain ⟨t, ht, hpath⟩ := inv.sound n v hv
        exact absurd hpath (h t ht v)

theorem revStep_eq (u : ENode) (G : Adj) (item : AdjEntry) :
    revStep u G item =
      match revPush u item with
      | some ke => adjAdd G ke.1 ke.2
      | none => G := by
  obtain ⟨dst, w, et⟩ := item
  cases dst with
  | virt i m => rfl
  | phys v =>
    show (if et = EType.virtualArc then _ else _) = _
    by_cases het : et = EType.virtualArc
    · rw [if_pos het]
      simp [revPush, het]
    · rw [if_neg het]
      simp [revPush, het]

theorem adjGet_adjAdd_self (G : Adj) (n : ENode) (e : AdjEntry) :
    adjGet (adjAdd G n e) n = adjGet G n ++ [e] := by
  induction G with
  | nil => simp [adjAdd, adjGet, List.lookup]
  | cons kv rest ih =>
    obtain ⟨k, es⟩ := kv
    by_cases h : k = n
    · subst h
      simp [adjAdd, adjGet, List.lookup]
    · simp only [adjAdd, if_neg h, adjGet, List.lookup]
      rw [show (n == k) = false from beq_eq_false_iff_ne.mpr (Ne.symm h)]
      exact ih

theorem adjGet_adjAdd_ne (G : Adj) (n m : ENode) (e : AdjEntry)
    (h : m ≠ n) : adjGet (adjAdd G n e) m = adjGet G m := by
  induction G with
  | nil =>
    simp only [adjAdd, adjGet, List.lookup]
    rw [show (m == n) = false from beq_eq_false_iff_ne.mpr h]
  | cons kv rest ih =>
    obtain ⟨k, es⟩ := kv
    by_cases h2 : k = n
    · subst h2
      simp only [adjAdd, if_pos rfl, adjGet, List.lookup]
      rw [show (m == k) = false from beq_eq_false_iff_ne.mpr h]
    · simp only [adjAdd, if_neg h2]
      by_cases h3 : m = k
      · subst h3
        simp [adjGet, List.lookup]
      · simp only [adjGet, List.lookup]
        rw [show (m == k) = false from beq_eq_false_iff_ne.mpr h3]
        dsimp only
        exact ih

theorem contrib_append (b : ENode) (l1 l2 : List (ENode × AdjEntry)) :
    contrib b (l1 ++ l2) = contrib b l1 ++ contrib b l2 := by
  unfold contrib
  rw [List.filterMap_append]

theorem mem_contrib (b : ENode) (l : List (ENode × AdjEntry)) (e : AdjEntry) :
    e ∈ contrib b l ↔ (b, e) ∈ l := by
  unfold contrib
  rw [List.mem_filterMap]
  constructor
  · rintro ⟨ke, hke, hsome⟩
    by_cases h : ke.1 = b
    · rw [if_pos h] at hsome
      have h2 : ke.2 = e := Option.some.inj hsome
      have : ke = (b, e) := Prod.ext h h2
      rw [← this]
      exact hke
    · rw [if_neg h] at hsome
      exact absurd hsome Option.noConfusion
  · intro h
    exact ⟨(b, e), h, by rw [if_pos rfl]⟩

theorem adjGet_foldl_adjAdd (l : List (ENode × AdjEntry)) :
    ∀ (G0 : Adj) (b : ENode),
      adjGet (l.foldl (fun G ke => adjAdd G ke.1 ke.2) G0) b =
        adjGet G0 b ++ contrib b l := by
  induction l with
  | nil => intro G0 b; simp [contrib]
  | cons ke rest ih =>
    intro G0 b
    rw [List.foldl_cons, ih]
    unfold contrib
    rw [List.filterMap_cons]
    by_cases h : ke.1 = b
    · rw [if_pos h, ← h, adjGet_adjAdd_self]
      rw [List.append_assoc]
      rfl
    · rw [if_neg h, adjGet_adjAdd_ne _ _ _ _ (fun hc => h hc.symm)]

theorem revStep_foldl (u : ENode) (items : List AdjEntry) :
    ∀ (G0 : Adj),
      items.foldl (revStep u) G0 =
        (items.filterMap (revPush u)).foldl
          (fun G ke => adjAdd G ke.1 ke.2) G0 := by
  induction items with
  | nil => intro G0; rfl
  | cons item rest ih =>
    intro G0
    rw [List.foldl_cons, revStep_eq, List.filterMap_cons]
    cases hp : revPush u item with
    | none => rw [ih]
    | some ke => rw [List.foldl_cons, ih]

theorem build_reverse_adjGet (G : Adj) (b : ENode) :
    adjGet (build_reverse_graph G) b = contrib b (allPushes G) := by
  suffices h : ∀ (G0 : Adj),
      adjGet (G.foldl (fun Gr kv => kv.2.foldl (revStep kv.1) Gr) G0) b =
        adjGet G0 b ++ contrib b (allPushes G) by
    have h2 := h []
    unfold build_reverse_graph
    rw [h2]
    rfl
  induction G with
  | nil => intro G0; simp [allPushes, contrib]
  | cons kv rest ih =>
    intro G0
    rw [List.foldl_cons, ih, revStep_foldl, adjGet_foldl_adjAdd]
    unfold allPushes
    rw [List.flatMap_cons, contrib_append, List.append_assoc]

theorem mem_rev_iff (G : Adj) (b : ENode) (e : AdjEntry) :
    e ∈ adjGet (build_reverse_graph G) b ↔
      ∃ kv ∈ G, ∃ item ∈ kv.2, revPush kv.1 item = some (b, e) := by
  rw [build_reverse_adjGet, mem_contrib]
  unfold allPushes
  rw [List.mem_flatMap]
  constructor
  · rintro ⟨kv, hkv, hmem⟩
    obtain ⟨item, hitem, hpush⟩ := List.mem_filterMap.mp hmem
    exact ⟨kv, hkv, item, hitem, hpush⟩
  · rintro ⟨kv, hkv, item, hitem, hpush⟩
    exact ⟨kv, hkv, List.mem_filterMap.mpr ⟨item, hitem, hpush⟩⟩

theorem revPush_wf {G : Adj} (hwf : WFExpanded G) {kv : ENode × List AdjEntry}
    (hkv : kv ∈ G) {item : AdjEntry} (hitem : item ∈ kv.2) :
    revPush kv.1 item = some (item.dst, ⟨kv.1, item.w, item.et⟩) := by
  rcases hwf.2 kv hkv item hitem with hv | ⟨hp, het, hw⟩
  · cases hd : item.dst with
    | virt i m => simp [revPush, hd]
    | phys v => rw [hd] at hv; simp [isVirt] at hv
  · cases hd : item.dst with
    | virt i m => rw [hd] at hp; simp [isVirt] at hp
    | phys v => simp [revPush, hd, het, hw]

theorem adjGet_of_mem_nodup {G : Adj} (hnd : (G.map Prod.fst).Nodup)
    {kv : ENode × List AdjEntry} (hkv : kv ∈ G) : adjGet G kv.1 = kv.2 := by
  induction G with
  | nil => simp at hkv
  | cons hd rest ih =>
    simp only [List.map_cons, List.nodup_cons] at hnd
    rcases List.mem_cons.mp hkv with rfl | hmem
    · unfold adjGet
      rw [List.lookup, show (kv.1 == kv.1) = true from beq_iff_eq.mpr rfl]
      rfl
    · have hne : kv.1 ≠ hd.1 := by
        intro hc
        exact hnd.1 (hc ▸ List.mem_map.mpr ⟨kv, hmem, rfl⟩)
      unfold adjGet
      rw [List.lookup, show (kv.1 == hd.1) = false from beq_eq_false_iff_ne.mpr hne]
      exact ih hnd.2 hmem

theorem rev_edge_of_fwd {G : Adj} (hwf : WFExpanded G) {a : ENode}
    {e : AdjEntry} (he : e ∈ adjGet G a) :
    (⟨a, e.w, e.et⟩ : AdjEntry) ∈ adjGet (build_reverse_graph G) e.dst := by
  unfold adjGet at he
  cases hl : List.lookup a G with
  | none => rw [hl] at he; simp at he
  | some es =>
    rw [hl] at he
    simp only [Option.getD_some] at he
    rw [mem_rev_iff]
    exact ⟨(a, es), mem_of_lookup hl, e, he,
      revPush_wf hwf (mem_of_lookup hl) he⟩

theorem fwd_edge_of_rev {G : Adj} (hwf : WFExpanded G) {b : ENode}
    {e2 : AdjEntry} (he2 : e2 ∈ adjGet (build_reverse_graph G) b) :
    ∃ item ∈ adjGet G e2.dst, item.dst = b ∧ item.w = e2.w := by
  rw [mem_rev_iff] at he2
  obtain ⟨kv, hkv, item, hitem, hpush⟩ := he2
  rw [revPush_wf hwf hkv hitem] at hpush
  have h1 : item.dst = b := congrArg Prod.fst (Option.some.inj hpush)
  have h2 : (⟨kv.1, item.w, item.et⟩ : AdjEntry) = e2 :=
    congrArg Prod.snd (Option.some.inj hpush)
  have hdst : e2.dst = kv.1 := by rw [← h2]
  have hw : item.w = e2.w := by rw [← h2]
  refine ⟨item, ?_, h1, hw⟩
  rw [hdst, adjGet_of_mem_nodup hwf.1 hkv]
  exact hitem

theorem reaches_rev_of_fwd {G : Adj} (hwf : WFExpanded G) {a b : ENode}
    {w : ℚ} (h : Reaches G a b w) : Reaches (build_reverse_graph G) b a w := by
  induction h with
  | refl n => exact Reaches.refl n
  | step a c w2 e he tail ih =>
    have hedge := rev_edge_of_fwd hwf he
    have := reaches_snoc ih (⟨a, e.w, e.et⟩ : AdjEntry) hedge
    simpa [add_comm] using this

theorem reaches_fwd_of_rev {G : Adj} (hwf : WFExpanded G) {b a : ENode}
    {w : ℚ} (h : Reaches (build_reverse_graph G) b a w) : Reaches G a b w := by
  induction h with
  | refl n => exact Reaches.refl n
  | step b c w2 e2 he2 tail ih =>
    obtain ⟨item, hitem, hdst, hw⟩ := fwd_edge_of_rev hwf he2
    have := reaches_snoc ih item hitem
    rw [hdst, hw] at this
    simpa [add_comm] using this

theorem reaches_rev_iff {G : Adj} (hwf : WFExpanded G) (a b : ENode) (w : ℚ) :
    Reaches (build_reverse_graph G) b a w ↔ Reaches G a b w :=
  ⟨reaches_fwd_of_rev hwf, reaches_rev_of_fwd hwf⟩

theorem revPush_nonneg {u : ENode} {item : AdjEntry}
    (hw : 0 ≤ item.w) {ke : ENode × AdjEntry}
    (hp : revPush u item = some ke) : 0 ≤ ke.2.w := by
  unfold revPush at hp
  cases hd : item.dst with
  | virt i m =>
    rw [hd] at hp
    dsimp only at hp
    have : ke = (ENode.virt i m, ⟨u, item.w, item.et⟩) :=
      (Option.some.inj hp).symm
    rw [this]
    exact hw
  | phys v =>
    rw [hd] at hp
    dsimp only at hp
    by_cases het : item.et = EType.virtualArc
    · rw [if_pos het] at hp
      have : ke = (ENode.phys v, ⟨u, 0, EType.virtualArc⟩) :=
        (Option.some.inj hp).symm
      rw [this]
    · rw [if_neg het] at hp
      exact absurd hp Option.noConfusion

theorem nonneg_adjAdd {G : Adj} {n : ENode} {e : AdjEntry}
    (hG : ∀ kv ∈ G, ∀ x ∈ kv.2, 0 ≤ x.w) (he : 0 ≤ e.w) :
    ∀ kv ∈ adjAdd G n e, ∀ x ∈ kv.2, 0 ≤ x.w := by
  induction G with
  | nil =>
    intro kv hkv x hx
    simp only [adjAdd, List.mem_singleton] at hkv
    subst hkv
    simp only [List.mem_singleton] at hx
    subst hx
    exact he
  | cons hd rest ih =>
    obtain ⟨k, es⟩ := hd
    intro kv hkv x hx
    by_cases h : k = n
    · subst h
      simp only [adjAdd, if_pos rfl] at hkv
      rcases List.mem_cons.mp hkv with rfl | hmem
      · rcases List.mem_append.mp hx with h1 | h2
        · exact hG (k, es) (List.mem_cons_self _ _) x h1
        · simp only [List.mem_singleton] at h2
          subst h2
          exact he
      · exact hG kv (List.mem_cons_of_mem _ hmem) x hx
    · simp only [adjAdd, if_neg h] at hkv
      rcases List.mem_cons.mp hkv with rfl | hmem
      · exact hG (k, es) (List.mem_cons_self _ _) x hx
      · exact ih (fun kv2 hkv2 => hG kv2 (List.mem_cons_of_mem _ hkv2)) kv hmem x hx

theorem nonneg_foldl_adjAdd (l : List (ENode × AdjEntry))
    (hl : ∀ ke ∈ l, 0 ≤ ke.2.w) :
    ∀ (G0 : Adj), (∀ kv ∈ G0, ∀ x ∈ kv.2, 0 ≤ x.w) →
      ∀ kv ∈ l.foldl (fun G ke => adjAdd G ke.1 ke.2) G0, ∀ x ∈ kv.2, 0 ≤ x.w := by
  induction l with
  | nil => intro G0 hG0; exact hG0
  | cons ke rest ih =>
    intro G0 hG0
    rw [List.foldl_cons]
    exact ih (fun p hp => hl p (List.mem_cons_of_mem _ hp))
      (adjAdd G0 ke.1 ke.2)
      (nonneg_adjAdd hG0 (hl ke (List.mem_cons_self _ _)))

theorem nonneg_build_rev (G : Adj) (hnn : NonnegWeights G) :
    NonnegWeights (build_reverse_graph G) := by
  unfold build_reverse_graph
  suffices h : ∀ (l : List (ENode × List AdjEntry)),
      (∀ kv ∈ l, ∀ item ∈ kv.2, 0 ≤ item.w) →
      ∀ (G0 : Adj), (∀ kv ∈ G0, ∀ x ∈ kv.2, 0 ≤ x.w) →
      ∀ kv ∈ l.foldl (fun Gr kv => kv.2.foldl (revStep kv.1) Gr) G0,
        ∀ x ∈ kv.2, 0 ≤ x.w by
    exact h G hnn [] (by intro kv hkv; simp at hkv)
  intro l
  induction l with
  | nil => intro _ G0 hG0; exact hG0
  | cons kv rest ih =>
    intro hl G0 hG0
    rw [List.foldl_cons, revStep_foldl]
    refine ih (fun p hp => hl p (List.mem_cons_of_mem _ hp)) _ ?_
    refine nonneg_foldl_adjAdd _ ?_ G0 hG0
    intro ke hke
    obtain ⟨item, hitem, hpush⟩ := List.mem_filterMap.mp hke
    exact revPush_nonneg (hl kv (List.mem_cons_self _ _) item hitem) hpush

theorem optMin_least {oa ob : Option ℚ} {A B : Set ℚ}
    (ha : OptLeast oa A) (hb : OptLeast ob B) :
    OptLeast (optMin oa ob) (A ∪ B) := by
  cases oa with
  | none =>
    have hA : A = ∅ := ha.2.mp rfl
    rw [hA, Set.empty_union]
    exact hb
  | some a =>
    have haA : IsLeast A a := (ha.1 a).mp rfl
    cases ob with
    | none =>
      have hB : B = ∅ := hb.2.mp rfl
      rw [hB, Set.union_empty]
      exact ha
    | some b =>
      have hbB : IsLeast B b := (hb.1 b).mp rfl
      have hleast : IsLeast (A ∪ B) (min a b) := by
        constructor
        · rcases le_total a b with h | h
          · rw [min_eq_left h]
            exact Or.inl haA.1
          · rw [min_eq_right h]
            exact Or.inr hbB.1
        · intro w hw
          rcases hw with hw | hw
          · exact (min_le_left a b).trans (haA.2 hw)
          · exact (min_le_right a b).trans (hbB.2 hw)
      constructor
      · intro v
        constructor
        · intro hv
          have : v = min a b := (Option.some.inj hv).symm
          rw [this]
          exact hleast
        · intro hv
          show some (min a b) = some v
          rw [hleast.unique hv]
      · constructor
        · intro h
          exact absurd h Option.noConfusion
        · intro h
          exfalso
          have : a ∈ A ∪ B := Or.inl haA.1
          rw [h] at this
          exact this

/-- C4 claim: for every OD pair, `L_min_for` is exactly the least total
weight of a path in the expanded graph from an origin seed state to a
destination target, and is `none` exactly when no such path exists. -/
theorem C4_L_min_shortest (G_exp : Adj) (o d : Int)
    (hwf : WFExpanded G_exp) (hnn : NonnegWeights G_exp) :
    (∀ v, L_min_for G_exp o d = some v ↔
       IsLeast {w : ℚ | ∃ s ∈ origin_states o, ∃ t ∈ dest_targets d,
         Reaches G_exp s t w} v) ∧
    (L_min_for G_exp o d = none ↔
       ∀ s ∈ origin_states o, ∀ t ∈ dest_targets d, ∀ w : ℚ,
         ¬ Reaches G_exp s t w) := by
  have hnnr : NonnegWeights (build_reverse_graph G_exp) :=
    nonneg_build_rev G_exp hnn
  have hndt : (dest_targets d).Nodup := by
    simp [dest_targets]
  set dist := dijkstra_multi_target (build_reverse_graph G_exp)
    (dest_targets d) with hdisteq
  have hchar : ∀ s : ENode, OptLeast (distGet dist s)
      {w : ℚ | ∃ t ∈ dest_targets d, Reaches G_exp s t w} := by
    intro s
    have hd2 := dijkstra_correct (build_reverse_graph G_exp)
      (dest_targets d) hnnr hndt s
    have hset : {w : ℚ | ∃ t ∈ dest_targets d,
        Reaches (build_reverse_graph G_exp) t s w} =
        {w : ℚ | ∃ t ∈ dest_targets d, Reaches G_exp s t w} := by
      ext w
      simp only [Set.mem_setOf_eq]
      constructor
      · rintro ⟨t, ht, hp⟩
        exact ⟨t, ht, (reaches_rev_iff hwf s t w).mp hp⟩
      · rintro ⟨t, ht, hp⟩
        exact ⟨t, ht, (reaches_rev_iff hwf s t w).mpr hp⟩
    constructor
    · intro v
      rw [← hset]
      exact hd2.1 v
    · rw [hd2.2]
      constructor
      · intro h
        rw [← hset, Set.eq_empty_iff_forall_not_mem]
        intro w hw
        obtain ⟨t, ht, hp⟩ := hw
        exact h t ht w hp
      · intro h t ht w hp
        rw [← hset, Set.eq_empty_iff_forall_not_mem] at h
        exact h w ⟨t, ht, hp⟩
  obtain ⟨s1, s2, s3⟩ :
      ∃ s1 s2 s3 : ENode, origin_states o = [s1, s2, s3] :=
    ⟨ENode.phys o, ENode.virt o 1, ENode.virt o 2, rfl⟩
  have hL : L_min_for G_exp o d =
      optMin (optMin (distGet dist (ENode.phys o))
        (distGet dist (ENode.virt o 1))) (distGet dist (ENode.virt o 2)) := by
    rfl
  have hopt : OptLeast (L_min_for G_exp o d)
      (({w : ℚ | ∃ t ∈ dest_targets d, Reaches G_exp (ENode.phys o) t w} ∪
        {w : ℚ | ∃ t ∈ dest_targets d, Reaches G_exp (ENode.virt o 1) t w}) ∪
        {w : ℚ | ∃ t ∈ dest_targets d, Reaches G_exp (ENode.virt o 2) t w}) := by
    rw [hL]
    exact optMin_least (optMin_least (hchar _) (hchar _)) (hchar _)
  have hsetu :
      (({w : ℚ | ∃ t ∈ dest_targets d, Reaches G_exp (ENode.phys o) t w} ∪
        {w : ℚ | ∃ t ∈ dest_targets d, Reaches G_exp (ENode.virt o 1) t w}) ∪
        {w : ℚ | ∃ t ∈ dest_targets d, Reaches G_exp (ENode.virt o 2) t w}) =
      {w : ℚ | ∃ s ∈ origin_states o, ∃ t ∈ dest_targets d,
        Reaches G_exp s t w} := by
    ext w
    simp only [Set.mem_union, Set.mem_setOf_eq, origin_states,
      List.mem_cons, List.mem_singleton, List.not_mem_nil]
    constructor
    · rintro ((h | h) | h)
      · exact ⟨ENode.phys o, Or.inl rfl, h⟩
      · exact ⟨ENode.virt o 1, Or.inr (Or.inl rfl), h⟩
      · exact ⟨ENode.virt o 2, Or.inr (Or.inr (Or.inl rfl)), h⟩
    · rintro ⟨s, hs, h⟩
      rcases hs with rfl | rfl | rfl | hs
      · exact Or.inl (Or.inl h)
      · exact Or.inl (Or.inr h)
      · exact Or.inr h
      · simp at hs
  rw [hsetu] at hopt
  constructor
  · exact hopt.1
  · rw [hopt.2, Set.eq_empty_iff_forall_not_mem]
    constructor
    · intro h s hs t ht w hp
      exact h w ⟨s, hs, t, ht, hp⟩
    · rintro h w ⟨s, hs, t, ht, hp⟩
      exact h s hs t ht w hp

/-- Witness for C4 at the concrete expanded graph `cex_graph` (origin 0,
destination 2): the hypotheses hold by computation and the claim theorem
applies. -/
theorem C4_L_min_shortest_witness :
    (∀ v, L_min_for cex_graph 0 2 = some v ↔
       IsLeast {w : ℚ | ∃ s ∈ origin_states 0, ∃ t ∈ dest_targets 2,
         Reaches cex_graph s t w} v) ∧
    (L_min_for cex_graph 0 2 = none ↔
       ∀ s ∈ origin_states 0, ∀ t ∈ dest_targets 2, ∀ w : ℚ,
         ¬ Reaches cex_graph s t w) :=
  C4_L_min_shortest cex_graph 0 2 (by unfold WFExpanded; decide)
    (by unfold NonnegWeights; decide)

theorem mem_model_budget (I : MIn) (t : Nat) (ht : t ∈ I.T) :
    (⟨[(1, GVar.invPeriod t)], Rel.le, [], (dget B_budget t).getD 0⟩ : Constr) ∈
      model_constraints I := by
  unfold model_constraints
  refine List.mem_append_right _ ?_
  unfold budget_constrs
  exact List.mem_flatMap.mpr ⟨t, ht, by simp⟩

/-- C5 claim: the minimized objective is exactly hub service cost plus
transport cost plus mode-switch cost; every objective term is on an
operating variable (hub flow or path share), so upgrade costs never
appear in it; and every period's investment is constrained to stay
within the period budget. -/
theorem C5_objective_operating_and_budget (I : MIn) :
    total_cost I =
      service_cost I.H I.T (c_h_build I.H) ++
        transport_cost I.OD I.T I.paths I.ca I.w ++
        mode_switch_cost I.OD I.T I.paths I.w I.H ∧
    (∀ cv ∈ total_cost I, isOperatingVar cv.2 = true) ∧
    (∀ t ∈ I.T,
      (⟨[(1, GVar.invPeriod t)], Rel.le, [],
        (dget B_budget t).getD 0⟩ : Constr) ∈ model_constraints I) := by
  refine ⟨rfl, ?_, fun t ht => mem_model_budget I t ht⟩
  intro cv hcv
  unfold total_cost at hcv
  rcases List.mem_append.mp hcv with hcv | hcv
  · rcases List.mem_append.mp hcv with hcv | hcv
    · -- service terms are on hub-flow variables
      obtain ⟨h, _, hcv⟩ := List.mem_flatMap.mp hcv
      obtain ⟨t, _, heq⟩ := List.mem_filterMap.mp hcv
      rcases hc : dget (c_h_build I.H) h with _ | c <;> rw [hc] at heq
      · exact absurd heq Option.noConfusion
      · rw [← Option.some.inj heq]
        rfl
    · -- transport terms are on path variables
      obtain ⟨gp, _, hcv⟩ := List.mem_flatMap.mp hcv
      obtain ⟨od, _, hcv⟩ := List.mem_flatMap.mp hcv
      obtain ⟨ip, _, hcv⟩ := List.mem_flatMap.mp hcv
      obtain ⟨t, _, heq⟩ := List.mem_map.mp hcv
      rw [← heq]
      rfl
  · -- mode-switch terms are on path variables
    obtain ⟨gp, _, hcv⟩ := List.mem_flatMap.mp hcv
    obtain ⟨od, _, hcv⟩ := List.mem_flatMap.mp hcv
    obtain ⟨ip, _, hcv⟩ := List.mem_flatMap.mp hcv
    obtain ⟨t, _, hcv⟩ := List.mem_flatMap.mp hcv
    obtain ⟨i, _, heq⟩ := List.mem_filterMap.mp hcv
    split at heq
    · split at heq
      · rw [← Option.some.inj heq]
        rfl
      · exact absurd heq Option.noConfusion
    · exact absurd heq Option.noConfusion

theorem mem_ykeys_H0 (I : MIn) (h : Int) (hh : h ∈ I.H0) (l t : Nat)
    (ht : t ∈ I.T) (hl : l = 0 ∨ l = 1 ∨ l = 2) :
    (h, l, t) ∈ I.ykeys := by
  unfold MIn.ykeys y_h_keys
  refine List.mem_append_right _ ?_
  refine List.mem_flatMap.mpr ⟨h, hh, List.mem_flatMap.mpr ⟨t, ht, ?_⟩⟩
  rcases hl with rfl | rfl | rfl
  · exact List.mem_cons_self _ _
  · exact List.mem_cons_of_mem _ (by simp)
  · exact List.mem_cons_of_mem _ (by simp)

theorem mem_model_hub_level (I : MIn) (c : Constr)
    (hc : c ∈ hub_level_constrs I.new_hubs I.H_tilde I.H0 I.T I.ykeys) :
    c ∈ model_constraints I := by
  unfold model_constraints
  refine List.mem_append_left _ (List.mem_append_left _
    (List.mem_append_right _ ?_))
  exact hc

theorem mem_model_hub_capacity (I : MIn) (c : Constr)
    (hc : c ∈ hub_capacity_constrs I.new_hubs I.H_tilde I.H0 I.T I.Lh
      I.ykeys) : c ∈ model_constraints I := by
  unfold model_constraints
  refine List.mem_append_left _ (List.mem_append_left _
    (List.mem_append_left _ (List.mem_append_left _
    (List.mem_append_right _ ?_))))
  exact hc

/-- C7 claim: in every feasible assignment, every existing hub sits at
exactly level 0 in every period (the level-0 binary is 1 and the level
1–2 binaries are 0), and upgrade state variables for arcs exist only for
potential arcs, so existing arcs are pinned likewise. -/
theorem C7_existing_hub_pinned (I : MIn) (σ : GVar → ℚ)
    (hf : Feasible I σ) (h : Int) (t : Nat)
    (hh : h ∈ I.H0) (ht : t ∈ I.T) :
    σ (GVar.yH h 0 t) = 1 ∧ σ (GVar.yH h 1 t) = 0 ∧
    σ (GVar.yH h 2 t) = 0 ∧
    ∀ k ∈ y_a_keys I.A_tilde I.T, k.1 ∈ I.A_tilde := by
  have hpin0 : (⟨[(1, GVar.yH h 0 t)], Rel.eq, [], 1⟩ : Constr) ∈
      hub_level_constrs I.new_hubs I.H_tilde I.H0 I.T I.ykeys := by
    unfold hub_level_constrs
    refine List.mem_append_right _ ?_
    refine List.mem_flatMap.mpr ⟨h, hh, List.mem_flatMap.mpr ⟨t, ht, ?_⟩⟩
    exact List.mem_cons_self _ _
  have hpinl : ∀ l, l = 1 ∨ l = 2 →
      (⟨[(1, GVar.yH h l t)], Rel.eq, [], 0⟩ : Constr) ∈
        hub_level_constrs I.new_hubs I.H_tilde I.H0 I.T I.ykeys := by
    intro l hl
    unfold hub_level_constrs
    refine List.mem_append_right _ ?_
    refine List.mem_flatMap.mpr ⟨h, hh, List.mem_flatMap.mpr ⟨t, ht, ?_⟩⟩
    refine List.mem_cons_of_mem _ ?_
    refine List.mem_filterMap.mpr ⟨l, ?_, ?_⟩
    · rcases hl with rfl | rfl
      · simp
      · simp
    · rw [if_pos (mem_ykeys_H0 I h hh l t ht (Or.inr hl))]
  have hval : ∀ c ∈ model_constraints I, satisfies σ c := hf.1
  have h0 := hval _ (mem_model_hub_level I _ hpin0)
  have h1 := hval _ (mem_model_hub_level I _ (hpinl 1 (Or.inl rfl)))
  have h2 := hval _ (mem_model_hub_level I _ (hpinl 2 (Or.inr rfl)))
  unfold satisfies evalLin at h0 h1 h2
  simp only [List.map_cons, List.map_nil, List.sum_cons, List.sum_nil] at h0 h1 h2
  refine ⟨by linarith, by linarith, by linarith, ?_⟩
  intro k hk
  unfold y_a_keys at hk
  obtain ⟨a, ha, hk⟩ := List.mem_flatMap.mp hk
  obtain ⟨l, _, hk⟩ := List.mem_flatMap.mp hk
  obtain ⟨t2, _, heq⟩ := List.mem_map.mp hk
  rw [← heq]
  exact ha

unseal Rat.add Rat.mul in
/-- Witness for C7 at the concrete instance: the assignment is feasible
and the claim theorem applies. -/
theorem C7_existing_hub_pinned_witness :
    C7_sigma (GVar.yH 6 0 1) = 1 ∧ C7_sigma (GVar.yH 6 1 1) = 0 ∧
    C7_sigma (GVar.yH 6 2 1) = 0 ∧
    ∀ k ∈ y_a_keys C7_instance.A_tilde C7_instance.T, k.1 ∈ C7_instance.A_tilde :=
  C7_existing_hub_pinned C7_instance C7_sigma (by decide) 6 1
    (by decide) (by decide)

theorem dget_dset_self [DecidableEq κ] (d : List (κ × α)) (k : κ) (v : α) :
    dget (dset d k v) k = some v := by
  induction d with
  | nil => simp [dset, dget, List.lookup]
  | cons kv rest ih =>
    obtain ⟨k2, v2⟩ := kv
    by_cases h : k2 = k
    · subst h
      simp [dset, dget, List.lookup]
    · simp only [dset, if_neg h, dget, List.lookup]
      rw [show (k == k2) = false from beq_eq_false_iff_ne.mpr
        (fun hc => h hc.symm)]
      exact ih

theorem dget_dset_ne [DecidableEq κ] (d : List (κ × α)) (k k2 : κ) (v : α)
    (h : k2 ≠ k) : dget (dset d k v) k2 = dget d k2 := by
  induction d with
  | nil =>
    simp only [dset, dget, List.lookup]
    rw [show (k2 == k) = false from beq_eq_false_iff_ne.mpr h]
  | cons kv rest ih =>
    obtain ⟨k3, v3⟩ := kv
    by_cases h2 : k3 = k
    · subst h2
      simp only [dset, if_pos rfl, dget, List.lookup]
      rw [show (k2 == k3) = false from beq_eq_false_iff_ne.mpr h]
    · simp only [dset, if_neg h2]
      by_cases h3 : k2 = k3
      · subst h3
        simp [dget, List.lookup]
      · simp only [dget, List.lookup]
        rw [show (k2 == k3) = false from beq_eq_false_iff_ne.mpr h3]
        dsimp only
        exact ih

/-- A fold of keyed assignments where the value is a function of the key:
lookup returns that function on folded keys. -/
theorem dget_foldl_dset_keyed [DecidableEq κ] (f : κ → α) (l : List κ) :
    ∀ (d0 : List (κ × α)) (k : κ),
      dget (l.foldl (fun d x => dset d x (f x)) d0) k =
        if k ∈ l then some (f k) else dget d0 k := by
  induction l with
  | nil => intro d0 k; simp
  | cons x xs ih =>
    intro d0 k
    rw [List.foldl_cons, ih]
    by_cases hxs : k ∈ xs
    · rw [if_pos hxs, if_pos (List.mem_cons_of_mem _ hxs)]
    · rw [if_neg hxs]
      by_cases hx : k = x
      · subst hx
        rw [dget_dset_self, if_pos (List.mem_cons_self _ _)]
      · rw [dget_dset_ne _ _ _ _ hx, if_neg (by simp [hx, hxs])]

/-- `L_h` stores exactly the (defaulted) pcu level list of each hub. -/
theorem L_h_build_get (ncpl : List (Int × List ℚ)) (H : List Int) (h : Int)
    (hh : h ∈ H) :
    dget (L_h_build ncpl H) h =
      some (if (dget ncpl h).getD [] = [] then [0]
        else (dget ncpl h).getD []) := by
  unfold L_h_build
  have hrw : (fun (d : List (Int × List ℚ)) (h2 : Int) =>
      let levels := (dget ncpl h2).getD []
      if levels = [] then dset d h2 [0] else dset d h2 levels) =
      fun d h2 => dset d h2
        (if (dget ncpl h2).getD [] = [] then [0] else (dget ncpl h2).getD []) := by
    funext d h2
    dsimp only
    by_cases hl : (dget ncpl h2).getD [] = []
    · rw [if_pos hl, if_pos hl]
    · rw [if_neg hl, if_neg hl]
  rw [hrw, dget_foldl_dset_keyed
    (fun h2 => if (dget ncpl h2).getD [] = [] then [0] else (dget ncpl h2).getD [])
    H [] h, if_pos hh]

/-- C6 claim: a candidate-new hub has level-0 capacity 0 (the loader
forces the first pcu level to 0 and `L_h` copies it), and in every
feasible assignment where the hub is closed (level-0 binary is 1) its
hub flow is 0. -/
theorem C6_new_hub_closed_no_flow (I : MIn) (σ : GVar → ℚ)
    (hf : Feasible I σ) (h : Int) (t : Nat)
    (hnew : h ∈ I.new_hubs) (hH : h ∈ I.H) (ht : t ∈ I.T)
    (hy0 : σ (GVar.yH h 0 t) = 1) :
    σ (GVar.uHub h t) = 0 ∧
    (∀ pcu : List ℚ, dget I.ncpl h = some (process_pcu true pcu) →
      L_h_get I.Lh h 0 = some 0) := by
  constructor
  · have hc : (⟨[(1, GVar.uHub h t)], Rel.le,
        [(-(1000000000 : ℚ), GVar.yH h 0 t)], 1000000000⟩ : Constr) ∈
        hub_capacity_constrs I.new_hubs I.H_tilde I.H0 I.T I.Lh I.ykeys := by
      unfold hub_capacity_constrs
      refine List.mem_append_left _ (List.mem_append_left _ ?_)
      refine List.mem_flatMap.mpr ⟨h, hnew, List.mem_flatMap.mpr ⟨t, ht, ?_⟩⟩
      exact List.mem_cons_of_mem _ (List.mem_cons_self _ _)
    have hsat := hf.1 _ (mem_model_hub_capacity I _ hc)
    unfold satisfies evalLin at hsat
    simp only [List.map_cons, List.map_nil, List.sum_cons, List.sum_nil] at hsat
    rw [hy0] at hsat
    have hdom : 0 ≤ σ (GVar.uHub h t) := by
      obtain ⟨_, _, _, _, _, hu, _, _⟩ := hf.2
      exact hu h hH t ht
    linarith
  · intro pcu hpcu
    unfold L_h_get MIn.Lh
    rw [L_h_build_get I.ncpl I.H h hH, hpcu]
    cases pcu with
    | nil => rfl
    | cons a rest => simp [process_pcu]

unseal Rat.add Rat.mul Rat.sub in
/-- Witness for C6 at the concrete instance: the assignment is feasible,
hub 3 is closed, and the claim theorem applies. -/
theorem C6_new_hub_closed_no_flow_witness :
    C6_sigma (GVar.uHub 3 1) = 0 ∧
    (∀ pcu : List ℚ, dget C6_instance.ncpl 3 = some (process_pcu true pcu) →
      L_h_get C6_instance.Lh 3 0 = some 0) :=
  C6_new_hub_closed_no_flow C6_instance C6_sigma (by decide) 3 1
    (by decide) (by decide) (by decide) (by decide)

/-- A fold of conditional keyed assignments (value a function of the
key): lookup returns the value on folded keys passing the guard. -/
theorem dget_foldl_cdset_id [DecidableEq κ] (p : κ → Bool) (v : κ → α)
    (l : List κ) : ∀ (d0 : List (κ × α)) (k : κ),
      dget (l.foldl (fun d x => if p x then dset d x (v x) else d) d0) k =
        if k ∈ l ∧ p k = true then some (v k) else dget d0 k := by
  induction l with
  | nil => intro d0 k; simp
  | cons x xs ih =>
    intro d0 k
    rw [List.foldl_cons, ih]
    by_cases hks : k ∈ xs ∧ p k = true
    · rw [if_pos hks, if_pos ⟨List.mem_cons_of_mem _ hks.1, hks.2⟩]
    · rw [if_neg hks]
      by_cases hkx : k = x
      · subst hkx
        by_cases hp : p k = true
        · rw [if_pos hp, dget_dset_self, if_pos ⟨List.mem_cons_self _ _, hp⟩]
        · rw [if_neg hp, if_neg (by intro hc; exact hp hc.2)]
      · by_cases hp : p x = true
        · rw [if_pos hp, dget_dset_ne _ _ _ _ hkx,
            if_neg (by
              intro hc
              rcases List.mem_cons.mp hc.1 with h1 | h1
              · exact hkx h1
              · exact hks ⟨h1, hc.2⟩)]
        · rw [if_neg hp,
            if_neg (by
              intro hc
              rcases List.mem_cons.mp hc.1 with h1 | h1
              · subst h1; exact hp hc.2
              · exact hks ⟨h1, hc.2⟩)]

/-- A fold writing only keys `g x` misses every other key. -/
theorem dget_foldl_skip [DecidableEq κ] (g : β → κ) (v : β → α)
    (l : List β) : ∀ (d0 : List (κ × α)) (k : κ), (∀ x ∈ l, g x ≠ k) →
      dget (l.foldl (fun d x => dset d (g x) (v x)) d0) k = dget d0 k := by
  induction l with
  | nil => intro d0 k _; rfl
  | cons x xs ih =>
    intro d0 k hne
    rw [List.foldl_cons, ih _ _ (fun y hy => hne y (List.mem_cons_of_mem _ hy))]
    exact dget_dset_ne _ _ _ _
      (fun hc => hne x (List.mem_cons_self _ _) hc.symm)

theorem dget_append_left [DecidableEq κ] (d e : List (κ × α)) (k : κ)
    (h : (dget d k).isSome) : dget (d ++ e) k = dget d k := by
  induction d with
  | nil => simp [dget, List.lookup] at h
  | cons kv rest ih =>
    by_cases hk : k = kv.1
    · unfold dget at ih ⊢
      show List.lookup k (kv :: (rest ++ e)) = _
      rw [List.lookup, List.lookup,
        show (k == kv.1) = true from beq_iff_eq.mpr hk]
    · unfold dget at ih h ⊢
      rw [List.lookup,
        show (k == kv.1) = false from beq_eq_false_iff_ne.mpr hk] at h
      show List.lookup k (kv :: (rest ++ e)) = _
      rw [List.lookup, List.lookup,
        show (k == kv.1) = false from beq_eq_false_iff_ne.mpr hk]
      exact ih h

/-- `setdefault` folds never change a key that is already present. -/
theorem dget_foldl_dsetd [DecidableEq κ] (w : α) (l : List κ) :
    ∀ (d0 : List (κ × α)) (k : κ), (dget d0 k).isSome →
      dget (l.foldl (fun d x => dsetd d x w) d0) k = dget d0 k := by
  induction l with
  | nil => intro d0 k _; rfl
  | cons x xs ih =>
    intro d0 k hk
    rw [List.foldl_cons]
    have hstep : dget (dsetd d0 x w) k = dget d0 k := by
      unfold dsetd
      by_cases hx : (List.lookup x d0).isSome
      · rw [if_pos hx]
      · rw [if_neg hx]
        exact dget_append_left d0 [(x, w)] k hk
    rw [ih _ _ (by rw [hstep]; exact hk), hstep]

/-- Every binding of `build_through_hub_mapping_all` maps a through arc
`(u^m, j^m)` to its underlying potential real arc `(u, j^m)` with `u` a
hub. -/
theorem through_hub_mapping_inv (H : List Int) (A_tilde : List Arc)
    {k v : Arc}
    (h : dget (through_hub_mapping_build H A_tilde) k = some v) :
    ∃ u j m, k = (ENode.virt u m, ENode.virt j m) ∧
      v = (ENode.phys u, ENode.virt j m) ∧ v ∈ A_tilde ∧ u ∈ H := by
  unfold through_hub_mapping_build at h
  suffices hgen : ∀ (l : List Arc), (∀ x ∈ l, x ∈ A_tilde) →
      ∀ (d0 : List (Arc × Arc)),
        (dget d0 k = some v →
          ∃ u j m, k = (ENode.virt u m, ENode.virt j m) ∧
            v = (ENode.phys u, ENode.virt j m) ∧ v ∈ A_tilde ∧ u ∈ H) →
        dget (l.foldl (fun d a =>
          match a.1, a.2 with
          | ENode.phys u, ENode.virt j m =>
            if u ∈ H then
              dset d (ENode.virt u m, ENode.virt j m)
                (ENode.phys u, ENode.virt j m)
            else d
          | _, _ => d) d0) k = some v →
        ∃ u j m, k = (ENode.virt u m, ENode.virt j m) ∧
          v = (ENode.phys u, ENode.virt j m) ∧ v ∈ A_tilde ∧ u ∈ H by
    refine hgen A_tilde (fun x hx => hx) [] ?_ h
    intro hc
    simp [dget, List.lookup] at hc
  intro l
  induction l with
  | nil => intro _ d0 hd0 h2; exact hd0 h2
  | cons a as ih =>
    intro hsub d0 hd0 h2
    rw [List.foldl_cons] at h2
    refine ih (fun x hx => hsub x (List.mem_cons_of_mem _ hx)) _ ?_ h2
    intro h3
    obtain ⟨a1, a2⟩ := a
    have hmem : (a1, a2) ∈ (a1, a2) :: as := List.mem_cons_self _ _
    rcases a1 with n | ⟨u, m⟩
    · rcases a2 with n2 | ⟨j, m2⟩
      · dsimp only at h3
        exact hd0 h3
      · dsimp only at h3
        by_cases hu : n ∈ H
        · rw [if_pos hu] at h3
          by_cases hk : k = (ENode.virt n m2, ENode.virt j m2)
          · subst hk
            rw [dget_dset_self] at h3
            have hv : v = (ENode.phys n, ENode.virt j m2) :=
              (Option.some.inj h3).symm
            refine ⟨n, j, m2, rfl, hv, ?_, hu⟩
            rw [hv]
            exact hsub _ hmem
          · rw [dget_dset_ne _ _ _ _ hk] at h3
            exact hd0 h3
        · rw [if_neg hu] at h3
          exact hd0 h3
    · rcases a2 with n2 | ⟨j, m2⟩
      · dsimp only at h3
        exact hd0 h3
      · dsimp only at h3
        exact hd0 h3

/-- `L_a` lookup on a potential arc. -/
theorem L_a_build_get (A_tilde : List Arc) (a : Arc) :
    dget (L_a_build A_tilde) a =
      if a ∈ A_tilde then
        some (10000000,
          if mode1 a.1 || mode1 a.2 then 15398438 else 18472500)
      else none := by
  unfold L_a_build
  rw [dget_foldl_dset_keyed (fun a =>
    ((10000000 : ℚ),
      if mode1 a.1 || mode1 a.2 then (15398438 : ℚ) else 18472500)) A_tilde [] a]
  by_cases h : a ∈ A_tilde
  · rw [if_pos h, if_pos h]
  · rw [if_neg h, if_neg h]
    rfl

/-- A fold of guarded keyed assignments at transformed keys misses every
key not in the image. -/
theorem dget_foldl_cskip [DecidableEq κ] (p : β → Bool) (g : β → κ)
    (v : β → α) (l : List β) : ∀ (d0 : List (κ × α)) (k : κ),
      (∀ x ∈ l, g x ≠ k) →
      dget (l.foldl (fun d x => if p x then dset d (g x) (v x) else d) d0) k =
        dget d0 k := by
  induction l with
  | nil => intro d0 k _; rfl
  | cons x xs ih =>
    intro d0 k hne
    rw [List.foldl_cons,
      ih _ _ (fun y hy => hne y (List.mem_cons_of_mem _ hy))]
    by_cases hp : p x = true
    · rw [if_pos hp]
      exact dget_dset_ne _ _ _ _
        (fun hc => hne x (List.mem_cons_self _ _) hc.symm)
    · rw [if_neg hp]

/-- The base cost of every through-hub arc is the constant `400`. -/
theorem base_costs_through (real_arcs through_hub_arc : List Arc)
    (thru : Arc) (hthru : thru ∈ through_hub_arc)
    (hsh2 : isVirt thru.2 = true) :
    dget (base_costs_build real_arcs through_hub_arc) thru =
      some BASE_CONST := by
  unfold base_costs_build
  rw [dget_foldl_skip (fun arc => (arc.2, ENode.phys (physical_node arc.2)))
    (fun _ => BASE_CONST) real_arcs _ thru ?_]
  · rw [dget_foldl_dset_keyed (fun _ => BASE_CONST) through_hub_arc _ thru,
      if_pos hthru]
  · intro x _ hc
    have h2 : thru.2 = ENode.phys (physical_node x.2) := by
      rw [← hc]
    rw [h2] at hsh2
    simp [isVirt] at hsh2

/-- `c_a` of every through-hub arc is the undiscounted base `400`. -/
theorem c_a_build_through (real_arcs through_hub_arc virtual_arcs_all : List Arc)
    (H : List Int)
    (thru : Arc) (hthru : thru ∈ through_hub_arc)
    (hsh2 : isVirt thru.2 = true) :
    dget (c_a_build real_arcs through_hub_arc virtual_arcs_all H) thru =
      some BASE_CONST := by
  have hbc := base_costs_through real_arcs through_hub_arc thru hthru hsh2
  unfold c_a_build
  dsimp only
  have h6 : (fun (d : List (Arc × ℚ)) arc =>
      match dget (base_costs_build real_arcs through_hub_arc) arc with
      | some base => dset d arc base
      | none => d) =
      fun d arc =>
        if (dget (base_costs_build real_arcs through_hub_arc) arc).isSome then
          dset d arc
            ((dget (base_costs_build real_arcs through_hub_arc) arc).getD 0)
        else d := by
    funext d arc
    cases h : dget (base_costs_build real_arcs through_hub_arc) arc
    · rfl
    · rfl
  rw [h6]
  have h6get : dget (through_hub_arc.foldl
      (fun d arc =>
        if (dget (base_costs_build real_arcs through_hub_arc) arc).isSome then
          dset d arc
            ((dget (base_costs_build real_arcs through_hub_arc) arc).getD 0)
        else d)
      (real_arcs.foldl (fun d arc =>
        let rev : Arc := (arc.2, ENode.phys (physical_node arc.2))
        match dget (base_costs_build real_arcs through_hub_arc) rev with
        | some base => dset d rev (arc_cost_of H rev base)
        | none => d)
        (real_arcs.foldl (fun d arc =>
          match dget (base_costs_build real_arcs through_hub_arc) arc with
          | some base => dset d arc (arc_cost_of H arc base)
          | none => d) []))) thru = some BASE_CONST := by
    rw [dget_foldl_cdset_id
      (fun arc => (dget (base_costs_build real_arcs through_hub_arc) arc).isSome)
      (fun arc => (dget (base_costs_build real_arcs through_hub_arc) arc).getD 0)
      through_hub_arc _ thru,
      if_pos ⟨hthru, by rw [hbc]; rfl⟩, hbc]
    rfl
  rw [dget_foldl_dsetd 0 virtual_arcs_all _ thru (by rw [h6get]; rfl)]
  exact h6get

/-- C2 claim, corrected: the transport cost of every through-hub arc is
the flat base `400` — it never receives the hub-hub discount of its
underlying real arc — while its `get_arc_capacity` does agree with the
underlying real arc whenever the through-hub mapping resolves it and the
arc classification is consistent. -/
theorem C2_through_cost_capacity
    (real_arcs through_hub_arc virtual_arcs_all A_tilde A0 : List Arc)
    (H : List Int)
    (thru : Arc) (hthru : thru ∈ through_hub_arc)
    (hsh2 : isVirt thru.2 = true) :
    dget (c_a_build real_arcs through_hub_arc virtual_arcs_all H) thru =
      some BASE_CONST ∧
    (∀ real2 level,
      dget (through_hub_mapping_build H A_tilde) thru = some real2 →
      thru ∈ A_tilde → thru ∉ virtual_arcs_all → real2 ∉ virtual_arcs_all →
      get_arc_capacity virtual_arcs_all A_tilde A0 through_hub_arc
          (L_a_build A_tilde) (through_hub_mapping_build H A_tilde) thru
          level =
        get_arc_capacity virtual_arcs_all A_tilde A0 through_hub_arc
          (L_a_build A_tilde) (through_hub_mapping_build H A_tilde) real2
          level) := by
  refine ⟨c_a_build_through real_arcs through_hub_arc virtual_arcs_all H
    thru hthru hsh2, ?_⟩
  intro real2 level hmap htil hthnv hrlnv
  obtain ⟨u, j, m, hk, hv, hrA, huH⟩ :=
    through_hub_mapping_inv H A_tilde hmap
  unfold get_arc_capacity
  rw [if_neg hthnv, if_pos htil, if_neg hrlnv, if_pos hrA,
    L_a_build_get A_tilde thru, L_a_build_get A_tilde real2,
    if_pos htil, if_pos hrA]
  have hm : (mode1 thru.1 || mode1 thru.2) = (mode1 real2.1 || mode1 real2.2) := by
    rw [hk, hv]
    simp [mode1]
  rw [hm]

/-- Witness for C2 on a two-node hub-hub network. -/
theorem C2_through_cost_capacity_witness :
    dget (c_a_build C2w_real C2w_thru C2w_va [0, 1])
        (ENode.virt 0 1, ENode.virt 1 1) = some BASE_CONST ∧
    (∀ real2 level,
      dget (through_hub_mapping_build [0, 1] C2w_til)
          (ENode.virt 0 1, ENode.virt 1 1) = some real2 →
      (ENode.virt 0 1, ENode.virt 1 1) ∈ C2w_til →
      (ENode.virt 0 1, ENode.virt 1 1) ∉ C2w_va → real2 ∉ C2w_va →
      get_arc_capacity C2w_va C2w_til [] C2w_thru (L_a_build C2w_til)
          (through_hub_mapping_build [0, 1] C2w_til)
          (ENode.virt 0 1, ENode.virt 1 1) level =
        get_arc_capacity C2w_va C2w_til [] C2w_thru (L_a_build C2w_til)
          (through_hub_mapping_build [0, 1] C2w_til) real2 level) :=
  C2_through_cost_capacity C2w_real C2w_thru C2w_va C2w_til [] [0, 1]
    (ENode.virt 0 1, ENode.virt 1 1) (by decide) (by decide)

unseal Rat.add Rat.mul Rat.inv in
/-- Counterexample for C2's cost clause: on the two-node hub-hub network,
the underlying real arc is discounted to `300` while its through-hub arc
costs `400`. -/
theorem C2_counterexample :
    dget (c_a_build C2w_real C2w_thru C2w_va [0, 1])
        (ENode.virt 0 1, ENode.virt 1 1) = some 400 ∧
    dget (c_a_build C2w_real C2w_thru C2w_va [0, 1])
        (ENode.phys 0, ENode.virt 1 1) = some 300 ∧
    dget (through_hub_mapping_build [0, 1] C2w_til)
        (ENode.virt 0 1, ENode.virt 1 1) =
      some (ENode.phys 0, ENode.virt 1 1) ∧
    ¬ ((400 : ℚ) = 300) := by
  refine ⟨by decide, by decide, by decide, by decide⟩

/-- C1 claim, corrected: the flow-balance family has one constraint for
EVERY `(commodity, od, period)` of `OD_pairs x T` — reachability is never
consulted — and when the pair's path list is empty the constraint reads
`0 = 1`, so no assignment satisfies it: the pair is not excluded, it
makes the model infeasible (and a pair missing from `paths` already
crashes the through-hub expansion). -/
theorem C1_flow_balance_unconditional
    (OD : List (String × List (Int × Int))) (T : List Nat)
    (paths : PathsDict) (g : String) (odl : List (Int × Int))
    (od : Int × Int) (t : Nat)
    (hg : (g, odl) ∈ OD) (hod : od ∈ odl) (ht : t ∈ T) :
    (⟨(List.range (pathsGet paths g od).length).map fun idx =>
        ((1 : ℚ), GVar.vPath g od idx t), Rel.eq, [], 1⟩ : Constr) ∈
      path_flow_balance OD T paths ∧
    (pathsGet paths g od = [] →
      ∀ σ : GVar → ℚ,
        ¬ satisfies σ
          ⟨(List.range (pathsGet paths g od).length).map fun idx =>
            ((1 : ℚ), GVar.vPath g od idx t), Rel.eq, [], 1⟩) := by
  constructor
  · unfold path_flow_balance
    refine List.mem_flatMap.mpr ⟨(g, odl), hg, ?_⟩
    refine List.mem_flatMap.mpr ⟨od, hod, ?_⟩
    exact List.mem_map.mpr ⟨t, ht, rfl⟩
  · intro hempty σ hsat
    rw [hempty] at hsat
    unfold satisfies evalLin at hsat
    simp at hsat

/-- Witness for C1 at a one-pair instance with an empty path list. -/
theorem C1_flow_balance_unconditional_witness :
    (⟨(List.range (pathsGet [(("g1", ((0:Int), (1:Int))), [])] "g1"
        (0, 1)).length).map fun idx =>
        ((1 : ℚ), GVar.vPath "g1" (0, 1) idx 1), Rel.eq, [], 1⟩ : Constr) ∈
      path_flow_balance [("g1", [((0:Int), (1:Int))])] [1]
        [(("g1", ((0:Int), (1:Int))), [])] ∧
    (pathsGet [(("g1", ((0:Int), (1:Int))), [])] "g1" (0, 1) = [] →
      ∀ σ : GVar → ℚ,
        ¬ satisfies σ
          ⟨(List.range (pathsGet [(("g1", ((0:Int), (1:Int))), [])] "g1"
            (0, 1)).length).map fun idx =>
            ((1 : ℚ), GVar.vPath "g1" (0, 1) idx 1), Rel.eq, [], 1⟩) :=
  C1_flow_balance_unconditional [("g1", [((0:Int), (1:Int))])] [1]
    [(("g1", ((0:Int), (1:Int))), [])] "g1" [((0:Int), (1:Int))] (0, 1) 1
    (by decide) (by decide) (by decide)

unseal Rat.add Rat.mul Rat.inv in
/-- Counterexample for C1: the OD pair `(0, 0)` on the empty expanded
graph has finite `L_min = 0`, the pipeline produces an empty path list
for it, and the flow-balance family then contains the unsatisfiable
constraint `0 = 1` for each period — the pair is neither excluded nor
harmless. -/
theorem C1_counterexample :
    List.lookup ("g1", (0 : Int), (0 : Int))
        (calculate_L_min ([] : Adj) [("g1", [((0:Int), (0:Int))])]) =
      some (some 0) ∧
    build_paths_from_near_optimal
        (near_optimal_paths_model [] [("g1", [((0:Int), (0:Int))])]
          (1 / 4) 5000) =
      some [(("g1", ((0:Int), (0:Int))), [])] ∧
    paths_with_through_hubs [("g1", [((0:Int), (0:Int))])]
        [(("g1", ((0:Int), (0:Int))), [])] [] =
      some [(("g1", ((0:Int), (0:Int))), [])] ∧
    path_flow_balance [("g1", [((0:Int), (0:Int))])] [1, 2]
        [(("g1", ((0:Int), (0:Int))), [])] =
      [⟨[], Rel.eq, [], 1⟩, ⟨[], Rel.eq, [], 1⟩] ∧
    ∀ σ : GVar → ℚ, ¬ satisfies σ ⟨[], Rel.eq, [], 1⟩ := by
  refine ⟨by decide, by decide, by decide, by decide, ?_⟩
  intro σ hsat
  unfold satisfies evalLin at hsat
  simp at hsat

end NetOpt
